import Mathlib

/-!
Shallow embedding of the `minesweeper-solver` repository
(`minesweeperAI.py`, `sprites.py`, `main.py`, `settings.py`) and proofs
about it.  Coordinates are integer pairs `(column, row)`; Python sets of
coordinates become `Finset Cell`; Python's `int` becomes `ℤ`; Python
floats (only used for probabilities) become `ℚ`; code that can raise an
exception (`ZeroDivisionError`, `NameError`, `min` of an empty
collection, unpacking `None`) is `Option`-valued, `none` marking the
raise.  Where Python iterates over a `set` or `dict` in unspecified
order, the embedding fixes one concrete order (sorted by `cellLe`, or
dictionary insertion order); every theorem below either does not depend
on that choice or is about quantities (set membership, cardinalities)
that are independent of it.
-/

namespace Minesweeper

/-- A board coordinate `(column, row)`, the universal key of the game. -/
abbrev Cell : Type := ℤ × ℤ

/-- Lexicographic order on cells, used to serialize Python's unordered
`set`/`dict` iteration into a definite order. -/
def cellLe (a b : Cell) : Prop := a.1 < b.1 ∨ (a.1 = b.1 ∧ a.2 ≤ b.2)

instance : DecidableRel cellLe := fun a b =>
  inferInstanceAs (Decidable (a.1 < b.1 ∨ (a.1 = b.1 ∧ a.2 ≤ b.2)))

instance : IsTrans Cell cellLe where
  trans a b c hab hbc := by
    rcases hab with h1 | ⟨h1, h1b⟩ <;> rcases hbc with h2 | ⟨h2, h2b⟩ <;>
      simp only [cellLe] <;> omega

instance : IsAntisymm Cell cellLe where
  antisymm a b hab hba := by
    rcases hab with h1 | ⟨h1, h1b⟩ <;> rcases hba with h2 | ⟨h2, h2b⟩ <;>
      [skip; skip; skip; skip] <;>
      exact Prod.ext (by omega) (by omega)

instance : IsTotal Cell cellLe where
  total a b := by
    simp only [cellLe]
    omega

/-- Serialize a finite set of cells into the `cellLe`-sorted list.  This is
the embedding's stand-in for iterating over a Python `set` of cells
(insertion sort, so that the kernel can evaluate it on concrete sets). -/
def sortedCells (s : Finset Cell) : List Cell :=
  Quotient.lift (fun l => List.insertionSort cellLe l)
    (fun l1 l2 h =>
      List.eq_of_perm_of_sorted
        (((List.perm_insertionSort cellLe l1).trans h).trans
          (List.perm_insertionSort cellLe l2).symm)
        (List.sorted_insertionSort cellLe l1)
        (List.sorted_insertionSort cellLe l2))
    s.val

/-- Serialize a finite set of naturals into the ascending list (used for
`sorted(remove_set)` in the intersection derivation). -/
def sortedNats (s : Finset ℕ) : List ℕ :=
  Quotient.lift (fun l => List.insertionSort (· ≤ ·) l)
    (fun l1 l2 h =>
      List.eq_of_perm_of_sorted
        (((List.perm_insertionSort _ l1).trans h).trans
          (List.perm_insertionSort _ l2).symm)
        (List.sorted_insertionSort _ l1)
        (List.sorted_insertionSort _ l2))
    s.val

/-- Source: `minesweeperAI.py`, `class Sentence`.  A constraint "exactly
`count` of the cells in `cells` are mines".  Python's `__eq__` is
structural, matching the derived `DecidableEq`. -/
structure Sentence where
  cells : Finset Cell
  count : ℤ
deriving DecidableEq

namespace Sentence

/-- Source: `Sentence.known_mines`.  If the number of cells equals the
count, every cell is a mine; otherwise nothing is inferred. -/
def known_mines (s : Sentence) : Finset Cell :=
  if (s.cells.card : ℤ) = s.count then s.cells else ∅

/-- Source: `Sentence.known_safes`.  If the count is zero, every cell is
safe; otherwise nothing is inferred. -/
def known_safes (s : Sentence) : Finset Cell :=
  if s.count = 0 then s.cells else ∅

/-- Source: `Sentence.mark_mine`.  Remove the cell and decrement the
count, when present. -/
def mark_mine (s : Sentence) (c : Cell) : Sentence :=
  if c ∈ s.cells then ⟨s.cells.erase c, s.count - 1⟩ else s

/-- Source: `Sentence.mark_safe`.  Remove the cell without changing the
count, when present. -/
def mark_safe (s : Sentence) (c : Cell) : Sentence :=
  if c ∈ s.cells then ⟨s.cells.erase c, s.count⟩ else s

end Sentence

/-- Source: `minesweeperAI.py`, `class Solver.__init__` (plus the
`guess_method` field of `SetBasedSolver.__init__`; that field is read
only by the set-based strategy).  `print_progress` is omitted: it only
gates `print` calls. -/
structure SolverState where
  width : ℤ
  height : ℤ
  amount_mines : ℤ
  moves_made : Finset Cell
  mines : Finset Cell
  safes : Finset Cell
  knowledge : List Sentence
  next_uncertain_move : Option Cell
  guess : ℤ
  guess_method : ℤ
deriving DecidableEq

namespace SolverState

/-- Source: `Solver.mark_mine`: record the mine and strike it from every
sentence. -/
def mark_mine (st : SolverState) (c : Cell) : SolverState :=
  { st with
    mines := insert c st.mines
    knowledge := st.knowledge.map (fun s => s.mark_mine c) }

/-- Source: `Solver.mark_safe`: record the safe cell and strike it from
every sentence. -/
def mark_safe (st : SolverState) (c : Cell) : SolverState :=
  { st with
    safes := insert c st.safes
    knowledge := st.knowledge.map (fun s => s.mark_safe c) }

/-- The nine positions scanned by `add_sentence`'s double loop
`for x in range(cell[0]-1, cell[0]+2): for y in range(cell[1]-1, cell[1]+2)`,
in source order. -/
def nbhdScan (cell : Cell) : List Cell :=
  ([-1, 0, 1] : List ℤ).flatMap fun dx =>
    ([-1, 0, 1] : List ℤ).map fun dy => (cell.1 + dx, cell.2 + dy)

/-- One iteration of `add_sentence`'s neighbour loop: skip the cell
itself and out-of-bounds positions; a known mine decrements the working
count; a position that is not known safe joins the cell set. -/
def addSentenceStep (st : SolverState) (cell : Cell)
    (acc : Finset Cell × ℤ) (p : Cell) : Finset Cell × ℤ :=
  if p = cell then acc
  else if 0 ≤ p.1 ∧ p.1 < st.width ∧ 0 ≤ p.2 ∧ p.2 < st.height then
    if p ∈ st.mines then (acc.1, acc.2 - 1)
    else if p ∉ st.safes then (insert p acc.1, acc.2)
    else acc
  else acc

/-- Source: `Solver.add_sentence`: build a sentence from the in-bounds
neighbourhood of `cell`, discounting known mines and dropping known
safes, and append it to the knowledge list. -/
def add_sentence (st : SolverState) (cell : Cell) (count : ℤ) : SolverState :=
  let r := (nbhdScan cell).foldl (addSentenceStep st cell) (∅, count)
  { st with knowledge := st.knowledge ++ [⟨r.1, r.2⟩] }

/-- Source: `Solver.remove_null_sentence`: delete every sentence whose
cell set is empty (regardless of its count). -/
def remove_null_sentence (st : SolverState) : SolverState :=
  { st with knowledge := st.knowledge.filter (fun s => ¬ s.cells = ∅) }

/-- Helper for `remove_duplicated_sentence`: keep a sentence only when no
earlier sentence (in `prev ++` the scanned prefix) equals it.  This is
what deleting every position `j` having an equal position `i < j`
amounts to. -/
def removeDupAux : List Sentence → List Sentence → List Sentence
  | _, [] => []
  | prev, s :: rest =>
    if s ∈ prev then removeDupAux prev rest
    else s :: removeDupAux (prev ++ [s]) rest

/-- Source: `Solver.remove_duplicated_sentence`: delete later occurrences
of sentences structurally equal to an earlier one. -/
def remove_duplicated_sentence (st : SolverState) : SolverState :=
  { st with knowledge := removeDupAux [] st.knowledge }

/-- One pass of `Solver.check_sentence`: the safe and mine cells
collected from all sentences (the union of `known_safes` / `known_mines`
over the knowledge list). -/
def collectSafes (st : SolverState) : Finset Cell :=
  st.knowledge.foldl (fun acc s => acc ∪ s.known_safes) ∅

/-- Mine cells collected in one pass of `check_sentence`. -/
def collectMines (st : SolverState) : Finset Cell :=
  st.knowledge.foldl (fun acc s => acc ∪ s.known_mines) ∅

/-- Body of one `check_sentence` iteration: mark every collected safe
cell, then every collected mine cell. -/
def checkSentencePass (st : SolverState) : SolverState :=
  let sc := collectSafes st
  let mc := collectMines st
  let st1 := (sortedCells sc).foldl (fun a c => a.mark_safe c) st
  (sortedCells mc).foldl (fun a c => a.mark_mine c) st1

/-- The `while mark_cell` loop of `check_sentence`, with explicit fuel.
The loop stops as soon as a pass collects nothing; each continuing pass
strictly shrinks the total number of cells held in sentences, so
sufficient fuel makes the fuel value invisible. -/
def checkSentenceLoop : ℕ → SolverState → SolverState
  | 0, st => st
  | fuel + 1, st =>
    if collectSafes st = ∅ ∧ collectMines st = ∅ then st
    else checkSentenceLoop fuel (checkSentencePass st)

/-- Total number of cell occurrences across the knowledge list; the
termination measure of the `check_sentence` loop. -/
def knowledgeCellCount (st : SolverState) : ℕ :=
  (st.knowledge.map (fun s => s.cells.card)).sum

/-- Source: `Solver.check_sentence`: repeatedly mark every
single-sentence-certain safe/mine cell until a pass marks nothing. -/
def check_sentence (st : SolverState) : SolverState :=
  checkSentenceLoop (knowledgeCellCount st + 1) st

/-- Source: `Solver.make_safe_move`: some known-safe cell not yet acted
on, if any (`allowed[0]` of a Python set difference; the embedding takes
the `cellLe`-least one). -/
def make_safe_move (st : SolverState) : Option Cell :=
  (sortedCells (st.safes \ st.moves_made)).head?

/-- The board cells in the row-major order
`for y in range(height): for x in range(width)` used by
`choose_uncertain_move` and `make_uncertain_move`. -/
def gridScan (st : SolverState) : List Cell :=
  (List.range st.height.toNat).flatMap fun (y : ℕ) =>
    (List.range st.width.toNat).map fun (x : ℕ) => ((x : ℤ), (y : ℤ))

/-- Source: `Solver.choose_uncertain_move`.  `probDict` is the key set of
the strategy's per-cell dictionary.  Commit the candidate when its risk
is at most the crude global estimate or when every unplayed cell is a
dictionary key; otherwise commit the first scanned cell outside the
dictionary (the Python function just returns, committing nothing, if
that scan finds no cell).  `none` models the `ZeroDivisionError` raised
when every cell has already been acted on. -/
def choose_uncertain_move (st : SolverState) (best_informed_move : Cell)
    (best_informed_move_risk : ℚ) (probDict : Finset Cell) : Option SolverState :=
  let unknown_tile : ℤ := st.height * st.width - st.moves_made.card
  let unknown_mine : ℤ := st.amount_mines - st.mines.card
  if unknown_tile = 0 then none
  else
    let estimated_average_risk : ℚ := (unknown_mine : ℚ) / (unknown_tile : ℚ)
    if best_informed_move_risk ≤ estimated_average_risk ∨
        unknown_tile = probDict.card then
      some { st with next_uncertain_move := some best_informed_move }
    else
      match (gridScan st).find? (fun c => c ∉ st.moves_made ∧ c ∉ probDict) with
      | some c => some { st with next_uncertain_move := some c }
      | none => some st

/-- Source: `Solver.make_uncertain_move`: with an empty knowledge list,
scan the board row-major for a cell neither acted on nor known to be a
mine; otherwise (or if that scan finds nothing) return the committed
next uncertain move (possibly `none`, Python's `None`). -/
def make_uncertain_move (st : SolverState) : Option Cell :=
  if st.knowledge = [] then
    match (gridScan st).find? (fun c => c ∉ st.moves_made ∧ c ∉ st.mines) with
    | some c => some c
    | none => st.next_uncertain_move
  else st.next_uncertain_move

end SolverState

/-- All cells mentioned by some sentence of the list: the key set of the
`cell_histogram` / `prob_dict` dictionaries built by the two
probability-family strategies. -/
def mentionedCells (kn : List Sentence) : Finset Cell :=
  kn.foldl (fun a s => a ∪ s.cells) ∅

/-- Keep the first occurrence of each element, dropping later
duplicates.  `seen` accumulates the elements already emitted. -/
def dedupFirst {α : Type} [DecidableEq α] : List α → List α → List α
  | _, [] => []
  | seen, a :: rest =>
    if a ∈ seen then dedupFirst seen rest
    else a :: dedupFirst (seen ++ [a]) rest

/-- The keys of `cell_histogram` / `prob_dict` in insertion order: cells
in order of first occurrence while scanning the sentences (each Python
`set` iteration serialized by `cellLe`). -/
def keyList (kn : List Sentence) : List Cell :=
  dedupFirst [] (kn.flatMap (fun s => sortedCells s.cells))

/-- One branching step of the configuration enumeration of
`GenerateConfigurationSolver.analyze_knowledge`: given the cells already
claimed by earlier sentences (`invalid_cell`) and one partial
configuration, produce the extensions satisfying `s` — one per
`missing_cell_num`-element choice from the unclaimed cells of `s`, or
nothing if the partial configuration already over-satisfies `s`. -/
def configStep (invalid : Finset Cell) (s : Sentence) (cfg : Finset Cell) :
    Multiset (Finset Cell) :=
  let valid_cell := s.cells \ invalid
  let missing_cell_num : ℤ := s.count - ((s.cells ∩ cfg).card : ℤ)
  if missing_cell_num < 0 then 0
  else (valid_cell.powersetCard missing_cell_num.toNat).val.map (fun ch => cfg ∪ ch)

/-- The sentence-by-sentence loop of the configuration enumeration;
Python's `possible_configuration` list becomes a multiset (its order is
never observed — only membership counts are). -/
def configsAux : List Sentence → Multiset (Finset Cell) → Finset Cell →
    Multiset (Finset Cell)
  | [], poss, _ => poss
  | s :: rest, poss, invalid =>
    configsAux rest (poss.bind (configStep invalid s)) (invalid ∪ s.cells)

/-- Source: the enumeration part of
`GenerateConfigurationSolver.analyze_knowledge`: all mine assignments to
the mentioned cells consistent with every sentence, built breadth-first
from the single empty partial configuration. -/
def possibleConfigurations (kn : List Sentence) : Multiset (Finset Cell) :=
  configsAux kn {∅} ∅

/-- Value of `cell_histogram[c]` after the tally loop: the number of
enumerated configurations containing `c`. -/
def histCount (poss : Multiset (Finset Cell)) (c : Cell) : ℕ :=
  (poss.filter (fun cfg => c ∈ cfg)).card

/-- The marking loop of `GenerateConfigurationSolver.analyze_knowledge`:
a cell in no configuration is marked safe (setting
`certain_move_found`); a cell in all of them is marked as a mine (the
`elif` branch, which does not touch `certain_move_found`). -/
def genConfigMarkLoop (poss : Multiset (Finset Cell)) (keys : List Cell)
    (st : SolverState) : SolverState × Bool :=
  keys.foldl
    (fun acc c =>
      if histCount poss c = 0 then (acc.1.mark_safe c, true)
      else if histCount poss c = Multiset.card poss then (acc.1.mark_mine c, acc.2)
      else acc)
    (st, false)

/-- First minimiser of `f` over a nonempty list `k :: ks`, mirroring
Python's `min(..., key=f)` (ties keep the earliest element). -/
def minByKey {α : Type} (f : α → ℕ) (k : α) (ks : List α) : α :=
  ks.foldl (fun b c => if f c < f b then c else b) k

/-- Python's `min(cell_histogram, key=...)`: the first
minimum-appearance-count key, or `none` (a raised `ValueError`) when the
dictionary is empty. -/
def minCountCell (poss : Multiset (Finset Cell)) : List Cell → Option Cell
  | [] => none
  | k :: ks => some (minByKey (histCount poss) k ks)

/-- Source: `GenerateConfigurationSolver.analyze_knowledge`.  With no
knowledge do nothing; otherwise enumerate configurations, mark
certainly-safe and certainly-mine cells from the histogram, and — unless
a certain SAFE cell was found — delegate the minimum-appearance cell to
`choose_uncertain_move`.  `none` models the `ValueError` of `min` over
an empty dictionary and the `ZeroDivisionError` when no configuration
survives. -/
def analyze_knowledge_genconfig (st : SolverState) : Option SolverState :=
  if st.knowledge = [] then some st
  else
    let keys := keyList st.knowledge
    let poss := possibleConfigurations st.knowledge
    let total := Multiset.card poss
    let marked := genConfigMarkLoop poss keys st
    if marked.2 then some marked.1
    else
      (minCountCell poss keys).bind fun best =>
        if total = 0 then none
        else
          marked.1.choose_uncertain_move best
            ((histCount poss best : ℚ) / (total : ℚ)) (mentionedCells st.knowledge)

/-- Source: `minesweeperAI.py`, `class Probability`: a mutable box
holding one tile's mine probability, initialized to 1. -/
structure Probability where
  prob : ℚ
deriving DecidableEq

/-- Python's `prob_dict[cell] == 0` / `== 1` in
`ProbabilityTheorySolver.analyze_knowledge` compares the `Probability`
OBJECT (not its `prob` field) with an `int`.  `Probability` defines no
`__eq__`, so Python falls back to default object equality, which is
`False` between a `Probability` instance and any `int`. -/
def pyObjectEqInt (_p : Probability) (_n : ℤ) : Bool := false

/-- The first estimation pass of
`ProbabilityTheorySolver.analyze_knowledge`: for each sentence with
nonempty cells, multiply each member cell's accumulator by
`r = 1 - count/len(cells)`.  (For an empty-cell sentence the Python loop
body runs zero times and `r` is not read, so the value computed here for
`card = 0` is never applied.) -/
def probFirstPass (kn : List Sentence) (f : Cell → Probability) :
    Cell → Probability :=
  kn.foldl
    (fun g s =>
      let r : ℚ := 1 - (s.count : ℚ) / (s.cells.card : ℚ)
      fun c => if c ∈ s.cells then ⟨(g c).prob * r⟩ else g c)
    f

/-- The `prob = 1 - prob` conversion loop, applied to every dictionary
key. -/
def probComplementPass (keys : List Cell) (f : Cell → Probability) :
    Cell → Probability :=
  keys.foldl
    (fun g c => fun d => if d = c then ⟨1 - (g d).prob⟩ else g d)
    f

/-- The (vacuous) marking loop of
`ProbabilityTheorySolver.analyze_knowledge`: both conditions compare a
`Probability` object with an `int` and are therefore always false, so no
cell is ever marked and `certain_move_found` stays false. -/
def probTheoryMarkLoop (f : Cell → Probability) (keys : List Cell)
    (st : SolverState) : SolverState × Bool :=
  keys.foldl
    (fun acc c =>
      if pyObjectEqInt (f c) 0 then (acc.1.mark_safe c, true)
      else if pyObjectEqInt (f c) 1 then (acc.1.mark_mine c, acc.2)
      else acc)
    (st, false)

/-- One sentence of one refinement iteration: multiply every member
cell's probability by `norm = count / Σ current probabilities` (`1` for
a zero-count sentence).  `none` models the `ZeroDivisionError` when the
sum is zero while the count is not. -/
def normSentenceStep (s : Sentence) (f : Cell → Probability) :
    Option (Cell → Probability) :=
  let norm : Option ℚ :=
    if s.count = 0 then some 1
    else
      let ssum : ℚ := s.cells.sum (fun c => (f c).prob)
      if ssum = 0 then none else some ((s.count : ℚ) / ssum)
  norm.map (fun nv => fun c => if c ∈ s.cells then ⟨(f c).prob * nv⟩ else f c)

/-- One full pass of the refinement loop over all sentences. -/
def normPass : List Sentence → (Cell → Probability) →
    Option (Cell → Probability)
  | [], f => some f
  | s :: rest, f => (normSentenceStep s f).bind (normPass rest)

/-- The 30-iteration proportional-fitting refinement loop. -/
def normIterate : ℕ → List Sentence → (Cell → Probability) →
    Option (Cell → Probability)
  | 0, _, f => some f
  | n + 1, kn, f => (normPass kn f).bind (normIterate n kn)

/-- First minimiser of a rational-valued key over a nonempty list,
mirroring Python's `min(..., key=f)` (ties keep the earliest element). -/
def minByKeyQ {α : Type} (f : α → ℚ) (k : α) (ks : List α) : α :=
  ks.foldl (fun b c => if f c < f b then c else b) k

/-- Python's `min(prob_dict, key=...)`: the first minimum-probability
key, or `none` (a raised `ValueError`) when the dictionary is empty. -/
def minProbCell (f : Cell → Probability) : List Cell → Option Cell
  | [] => none
  | k :: ks => some (minByKeyQ (fun c => (f c).prob) k ks)

/-- Source: `ProbabilityTheorySolver.analyze_knowledge`.  With no
knowledge do nothing; otherwise estimate every mentioned cell's mine
probability, run the (vacuous, see `pyObjectEqInt`) certainty marking,
refine for 30 iterations, and delegate the minimum-probability cell to
`choose_uncertain_move`.  `none` models a raised `ZeroDivisionError` or
the `ValueError` of `min` over an empty dictionary. -/
def analyze_knowledge_probtheory (st : SolverState) : Option SolverState :=
  if st.knowledge = [] then some st
  else
    let keys := keyList st.knowledge
    let f0 := probFirstPass st.knowledge (fun _ => ⟨1⟩)
    let f1 := probComplementPass keys f0
    let marked := probTheoryMarkLoop f1 keys st
    if marked.2 then some marked.1
    else
      (normIterate 30 st.knowledge f1).bind fun f2 =>
        (minProbCell f2 keys).bind fun best =>
          marked.1.choose_uncertain_move best ((f2 best).prob)
            (mentionedCells st.knowledge)

/-- Body of one `(i, j)` iteration of
`SetBasedSolver.add_complement_sentence`, acting on the knowledge list:
if sentence `i` has count ≥ and cells ⊇ sentence `j`, replace it in
place by the set difference with count difference; then the symmetric
check against the (possibly just-updated) sentence `i`. -/
def complementPairStep (kn : List Sentence) (i j : ℕ) : List Sentence :=
  let s1 := kn.getD i ⟨∅, 0⟩
  let s2 := kn.getD j ⟨∅, 0⟩
  let upd1 :=
    if s1.count ≥ s2.count ∧ s2.cells ⊆ s1.cells then
      (⟨s1.cells \ s2.cells, s1.count - s2.count⟩ : Sentence)
    else s1
  let kn1 := if upd1 = s1 then kn else kn.set i upd1
  if upd1.count ≤ s2.count ∧ upd1.cells ⊆ s2.cells then
    kn1.set j ⟨s2.cells \ upd1.cells, s2.count - upd1.count⟩
  else kn1

/-- Source: `SetBasedSolver.add_complement_sentence`: run
`complementPairStep` over every pair `i < j` (outer range frozen at the
initial length, matching Python's `range(len(self.knowledge) - 1)`; the
loop never changes the list's length). -/
def SolverState.add_complement_sentence (st : SolverState) : SolverState :=
  let n := st.knowledge.length
  { st with
    knowledge :=
      (List.range (n - 1)).foldl
        (fun kn i =>
          (List.range' (i + 1) (kn.length - (i + 1))).foldl
            (fun kn2 j => complementPairStep kn2 i j) kn)
        st.knowledge }

/-- Body of one `(i, j)` iteration of
`SetBasedSolver.add_intersection_sentence`: orient the pair so `s1` has
the larger count; when `s1.count - s2.count` equals `|s1.cells -
s2.cells|`, mark those difference cells as mines, mark the cells unique
to the (now mutated) `s2` safe, append the intersection sentence built
from the mutated pair, and record `i`, `j` for deletion. -/
def intersectionPairStep (acc : SolverState × Finset ℕ) (i j : ℕ) :
    SolverState × Finset ℕ :=
  let st := acc.1
  let ki := st.knowledge.getD i ⟨∅, 0⟩
  let kj := st.knowledge.getD j ⟨∅, 0⟩
  let a := if ki.count ≥ kj.count then i else j
  let b := if ki.count ≥ kj.count then j else i
  let s1 := st.knowledge.getD a ⟨∅, 0⟩
  let s2 := st.knowledge.getD b ⟨∅, 0⟩
  let sub12 := s1.cells \ s2.cells
  if s1.count - s2.count = (sub12.card : ℤ) then
    let st1 := (sortedCells sub12).foldl (fun t c => t.mark_mine c) st
    let sub21 := (st1.knowledge.getD b ⟨∅, 0⟩).cells \
      (st1.knowledge.getD a ⟨∅, 0⟩).cells
    let st2 := (sortedCells sub21).foldl (fun t c => t.mark_safe c) st1
    let s1f := st2.knowledge.getD a ⟨∅, 0⟩
    let s2f := st2.knowledge.getD b ⟨∅, 0⟩
    ({ st2 with
        knowledge := st2.knowledge ++ [⟨s1f.cells ∩ s2f.cells, s2f.count⟩] },
      insert i (insert j acc.2))
  else acc

/-- Source: `SetBasedSolver.add_intersection_sentence`: scan every pair
`i < j` (outer range frozen at the initial length; each inner range read
off the current, possibly grown, length), then delete the recorded
original positions, highest index first. -/
def SolverState.add_intersection_sentence (st : SolverState) : SolverState :=
  let n := st.knowledge.length
  let r :=
    (List.range (n - 1)).foldl
      (fun acc i =>
        (List.range' (i + 1) (acc.1.knowledge.length - (i + 1))).foldl
          (fun acc2 j => intersectionPairStep acc2 i j) acc)
      (st, (∅ : Finset ℕ))
  { r.1 with
    knowledge :=
      ((sortedNats r.2).reverse).foldl (fun kn p => kn.eraseIdx p)
        r.1.knowledge }

/-- Source: `ProbabilitySolver.add_knowledge` (shared by the two
probability-family strategies): record the move, mark the revealed cell
safe, and — unless the clue count is 0 — add the new sentence, run the
certainty fixpoint, and drop null and duplicated sentences. -/
def add_knowledge_probability (st : SolverState) (cell : Cell) (count : ℤ) :
    SolverState :=
  let st1 := { st with moves_made := insert cell st.moves_made }
  let st2 := st1.mark_safe cell
  if count = 0 then st2
  else
    ((((st2.add_sentence cell count).check_sentence).remove_null_sentence).remove_duplicated_sentence)

/-- Source: `SetBasedSolver.add_knowledge`: record the move and mark
safe; unless the count is 0, add the sentence, drop nulls, run
complement derivation, run the certainty fixpoint, drop nulls again, and
run intersection derivation. -/
def add_knowledge_setbased (st : SolverState) (cell : Cell) (count : ℤ) :
    SolverState :=
  let st1 := { st with moves_made := insert cell st.moves_made }
  let st2 := st1.mark_safe cell
  if count = 0 then st2
  else
    (((((st2.add_sentence cell count).remove_null_sentence).add_complement_sentence).check_sentence).remove_null_sentence).add_intersection_sentence

/-- Source: `SetBasedSolver.analyze_knowledge`: drop null sentences,
then delegate to the configured guess method's analysis (guess method 1:
configuration enumeration; 2: probability theory; anything else: nothing
further). -/
def analyze_knowledge_setbased (st : SolverState) : Option SolverState :=
  let st1 := st.remove_null_sentence
  if st1.guess_method = 1 then analyze_knowledge_genconfig st1
  else if st1.guess_method = 2 then analyze_knowledge_probtheory st1
  else some st1

/-- The three concrete solver classes (`GenerateConfigurationSolver`,
`ProbabilityTheorySolver`, `SetBasedSolver`), embedded as a strategy tag
used to dispatch the virtual `add_knowledge` / `analyze_knowledge`. -/
inductive Strategy where
  | genConfig : Strategy
  | probTheory : Strategy
  | setBased : Strategy
deriving DecidableEq

/-- Dispatch of the strategy-specific `add_knowledge`. -/
def add_knowledge : Strategy → SolverState → Cell → ℤ → SolverState
  | .genConfig, st, c, n => add_knowledge_probability st c n
  | .probTheory, st, c, n => add_knowledge_probability st c n
  | .setBased, st, c, n => add_knowledge_setbased st c n

/-- Dispatch of the strategy-specific `analyze_knowledge`. -/
def analyze_knowledge : Strategy → SolverState → Option SolverState
  | .genConfig, st => analyze_knowledge_genconfig st
  | .probTheory, st => analyze_knowledge_probtheory st
  | .setBased, st => analyze_knowledge_setbased st

/-- Source: `Solver.make_move`.  First flag some known mine not yet
acted on (action code 3).  Otherwise, if no safe move is available, run
the strategy's `analyze_knowledge`; then return a safe move, or fall
back to `make_uncertain_move` and bump the guess counter (action code 1
either way; the returned cell is an `Option` because
`make_uncertain_move` can return Python's `None`).  The result is the
returned `(cell, action)` pair together with the post-call solver state;
`none` models an exception escaping `analyze_knowledge`. -/
def make_move (strat : Strategy) (st : SolverState) :
    Option (Option Cell × ℤ × SolverState) :=
  match (sortedCells st.mines).find? (fun m => m ∉ st.moves_made) with
  | some m => some (some m, 3, { st with moves_made := insert m st.moves_made })
  | none =>
    let st1opt :=
      if (st.make_safe_move).isNone then analyze_knowledge strat st else some st
    st1opt.bind fun st1 =>
      match st1.make_safe_move with
      | some c => some (some c, 1, st1)
      | none =>
        some (st1.make_uncertain_move, 1, { st1 with guess := st1.guess + 1 })

/-- Source: `Solver.__init__` (with `SetBasedSolver.__init__` supplying
`guess_method`; for the other two strategies the field is unread and set
to 0 here): the fresh solver state. -/
def initSolver (width height amount_mines guess_method : ℤ) : SolverState :=
  { width := width
    height := height
    amount_mines := amount_mines
    moves_made := ∅
    mines := ∅
    safes := ∅
    knowledge := []
    next_uncertain_move := none
    guess := -1
    guess_method := guess_method }

/-- The sprites of `settings.py`: `tileNumber n` is `tile_numbers[n-1]`,
the numbered clue face `Tile{n}.png`. -/
inductive Sprite where
  | tileNumber : ℕ → Sprite
  | tileEmpty : Sprite
  | tileExploded : Sprite
  | tileFlag : Sprite
  | tileMine : Sprite
  | tileUnknown : Sprite
  | tileNotMine : Sprite
deriving DecidableEq

/-- The `type` strings of `sprites.py` (`"."` unknown, `"X"` mine, `"C"`
clue, `"/"` empty; `"/"` is documented but never assigned). -/
inductive TileType where
  | unknownDot : TileType
  | mineX : TileType
  | clueC : TileType
  | emptySlash : TileType
deriving DecidableEq

/-- Source: `sprites.py`, `class Tile`.  The pixel origin
(`x, y = col*TILESIZE, row*TILESIZE`) is drawing geometry and is not
modelled; the board addresses tiles by cell coordinate. -/
structure Tile where
  image : Sprite
  type : TileType
  nearby_mine : ℕ
  revealed : Bool
  flagged : Bool
deriving DecidableEq

/-- Source: `Tile.draw`.  The sprite blitted for the tile, if any: a
revealed unflagged tile shows its own image; a flagged unrevealed tile
shows the flag; an unflagged unrevealed tile shows the unknown face; a
tile that is both flagged and revealed falls through every branch and
nothing is blitted (`none`). -/
def Tile.draw (t : Tile) : Option Sprite :=
  if ¬ t.flagged ∧ t.revealed then some t.image
  else if t.flagged ∧ ¬ t.revealed then some Sprite.tileFlag
  else if ¬ t.revealed then some Sprite.tileUnknown
  else none

/-- The module-level board dimensions and mine count of `settings.py`
(`ROWS`, `COLS`, `AMOUNT_MINES`), passed explicitly instead of as
mutable globals. -/
structure Settings where
  rows : ℕ
  cols : ℕ
  amount_mines : ℕ
deriving DecidableEq

/-- Source: `settings.py`, `difficulty_settings` (the derived pixel
`WIDTH`/`HEIGHT` are rendering-only and not modelled): modes 1–3 select
the three presets, any other mode leaves the settings unchanged. -/
def difficulty_settings (g : Settings) (mode : ℤ) : Settings :=
  if mode = 1 then ⟨10, 10, 10⟩
  else if mode = 2 then ⟨16, 16, 40⟩
  else if mode = 3 then ⟨16, 30, 99⟩
  else g

/-- Source: `sprites.py`, `class Board` (the off-screen `board_surface`
is rendering-only).  `tiles` is the `board_list` grid as a function on
coordinates; `dug` is the list of already-dug coordinates. -/
structure BoardState where
  tiles : Cell → Tile
  first_click : Bool
  dug : List Cell

/-- Pointwise update of the tile grid at one coordinate. -/
def updTile (tiles : Cell → Tile) (c : Cell) (t : Tile) : Cell → Tile :=
  fun d => if d = c then t else tiles d

/-- Source: `Board.__init__`: every tile starts with the empty-face
image, unknown type `"."`, zero count, unrevealed and unflagged. -/
def initBoard : BoardState :=
  { tiles := fun _ => ⟨Sprite.tileEmpty, TileType.unknownDot, 0, false, false⟩
    first_click := false
    dug := [] }

/-- Source: `Board.is_inside`: the coordinate lies on the board. -/
def is_inside (g : Settings) (c : Cell) : Prop :=
  0 ≤ c.1 ∧ c.1 < (g.cols : ℤ) ∧ 0 ≤ c.2 ∧ c.2 < (g.rows : ℤ)

instance (g : Settings) (c : Cell) : Decidable (is_inside g c) :=
  inferInstanceAs (Decidable (_ ∧ _ ∧ _ ∧ _))

/-- The board's cells as a finite set. -/
def gridCells (g : Settings) : Finset Cell :=
  (Finset.range g.cols ×ˢ Finset.range g.rows).image
    (fun (p : ℕ × ℕ) => ((p.1 : ℤ), (p.2 : ℤ)))

/-- The inner `while True:` rejection-sampling loop of
`Board.place_mines`: consume random draws until one names a
still-unknown tile different from the first click, convert that tile to
a mine, and return the remaining draws.  `none` means the supplied draw
sequence ran out (the modelled outcome on which the unbounded Python
loop would keep waiting for more randomness). -/
def placeOneMine (b : BoardState) (fc : Cell) :
    List Cell → Option (BoardState × List Cell)
  | [] => none
  | d :: rest =>
    if (b.tiles d).type = TileType.unknownDot ∧ d ≠ fc then
      some
        ({ b with
            tiles := updTile b.tiles d
              { b.tiles d with image := Sprite.tileMine, type := TileType.mineX } },
          rest)
    else placeOneMine b fc rest

/-- The outer `for _ in range(settings.AMOUNT_MINES)` loop of
`place_mines`. -/
def placeMinesAux : ℕ → BoardState → Cell → List Cell → Option BoardState
  | 0, b, _, _ => some b
  | n + 1, b, fc, ds =>
    (placeOneMine b fc ds).bind fun r => placeMinesAux n r.1 fc r.2

/-- Source: `Board.place_mines(fcx, fcy)`, with the random number
generator made explicit as the list `draws` of successive
`(randint(0, COLS-1), randint(0, ROWS-1))` results. -/
def place_mines (g : Settings) (b : BoardState) (fc : Cell)
    (draws : List Cell) : Option BoardState :=
  placeMinesAux g.amount_mines b fc draws

/-- The nine offsets of `check_neighbours`' double loop
`for x_offset in range(-1, 2): for y_offset in range(-1, 2)`. -/
def offsets3x3 : List (ℤ × ℤ) :=
  ([-1, 0, 1] : List ℤ).flatMap fun dx =>
    ([-1, 0, 1] : List ℤ).map fun dy => (dx, dy)

/-- Source: `Board.check_neighbours`: the number of in-bounds mine tiles
in the 3×3 block centred on `c` (the centre itself included in the scan;
`place_clues` only calls this on non-mine tiles). -/
def check_neighbours (g : Settings) (tiles : Cell → Tile) (c : Cell) : ℕ :=
  offsets3x3.countP fun o =>
    decide (is_inside g (c.1 + o.1, c.2 + o.2) ∧
      (tiles (c.1 + o.1, c.2 + o.2)).type = TileType.mineX)

/-- The column-major cell order of `place_clues`' double loop
`for x in range(settings.COLS): for y in range(settings.ROWS)`. -/
def colMajorCells (g : Settings) : List Cell :=
  (List.range g.cols).flatMap fun (x : ℕ) =>
    (List.range g.rows).map fun (y : ℕ) => ((x : ℤ), (y : ℤ))

/-- Body of one `place_clues` iteration at cell `c`: a non-mine tile
with a positive neighbour count becomes a clue tile holding that count
and the matching numbered sprite; otherwise nothing changes. -/
def placeCluesStep (g : Settings) (tiles : Cell → Tile) (c : Cell) :
    Cell → Tile :=
  if (tiles c).type ≠ TileType.mineX then
    let total_mines := check_neighbours g tiles c
    if 0 < total_mines then
      updTile tiles c
        { tiles c with
          image := Sprite.tileNumber total_mines
          type := TileType.clueC
          nearby_mine := total_mines }
    else tiles
  else tiles

/-- Source: `Board.place_clues`: run the clue computation over every
board cell in the source's column-major order. -/
def place_clues (g : Settings) (b : BoardState) : BoardState :=
  { b with tiles := (colMajorCells g).foldl (placeCluesStep g) b.tiles }

/-- Integer interval `[a, b)` as a list, for the clipped neighbour
ranges of `Board.dig`. -/
def intRange (a b : ℤ) : List ℤ :=
  (List.range (b - a).toNat).map fun (i : ℕ) => a + (i : ℤ)

/-- The neighbour scan order of `Board.dig`'s flood-fill loop:
`for row in range(max(0,x-1), min(COLS-1,x+1)+1):
for col in range(max(0,y-1), min(ROWS-1,y+1)+1)` (the centre cell is in
the scan but is always already dug). -/
def digNeighbors (g : Settings) (c : Cell) : List Cell :=
  (intRange (max 0 (c.1 - 1)) (min ((g.cols : ℤ) - 1) (c.1 + 1) + 1)).flatMap
    fun r =>
      (intRange (max 0 (c.2 - 1)) (min ((g.rows : ℤ) - 1) (c.2 + 1) + 1)).map
        fun col => (r, col)

mutual

/-- Source: `Board.dig(x, y)`, with explicit fuel (`none` = fuel ran
out; the termination theorem shows enough fuel always exists).  Append
the cell to the dug list and reveal it; a mine switches to the exploded
face and reports `false`; a clue tile stops with `true`; otherwise
recursively dig every in-range neighbour not already dug (the recursive
results are discarded, as in the source) and report `true`.  The
`ai.add_knowledge` call-out mutates only the attached solver, never the
board, and is modelled for `ai = None`. -/
def digFuel (g : Settings) : ℕ → BoardState → Cell → Option (BoardState × Bool)
  | 0, _, _ => none
  | fuel + 1, b, c =>
    let b1 : BoardState :=
      { b with
        dug := b.dug ++ [c]
        tiles := updTile b.tiles c { b.tiles c with revealed := true } }
    if (b1.tiles c).type = TileType.mineX then
      some
        ({ b1 with
            tiles := updTile b1.tiles c
              { b1.tiles c with image := Sprite.tileExploded } },
          false)
    else if (b1.tiles c).type = TileType.clueC then some (b1, true)
    else digListFuel g fuel b1 (digNeighbors g c)
termination_by fuel _ _ => (fuel, 0)

/-- The flood-fill loop of `dig`: dig each listed neighbour that is not
in the current dug list, threading the board state. -/
def digListFuel (g : Settings) :
    ℕ → BoardState → List Cell → Option (BoardState × Bool)
  | _, b, [] => some (b, true)
  | fuel, b, n :: ns =>
    if n ∈ b.dug then digListFuel g fuel b ns
    else (digFuel g fuel b n).bind fun r => digListFuel g fuel r.1 ns
termination_by fuel _ ns => (fuel, ns.length + 1)

end

/-- Source: `main.py`, `__main__` dispatch, as the action selected from
`sys.argv` (whose head is the script name, so `k` user arguments give
length `k + 1`).  The benchmark constructors carry the raw argument
strings (the source converts them with `int(...)` before calling
`play_multiple_games`); `printLine` is the diagnostic-print-and-stop
outcome. -/
inductive MainAction where
  | menu : MainAction
  | benchmark2 : String → String → MainAction
  | benchmark3 : String → String → String → MainAction
  | printLine : String → MainAction
deriving DecidableEq

/-- Source: `main.py`, the `if __name__ == '__main__'` block: length 1
(no user arguments) opens the menu; length 3 / 4 (two / three user
arguments) run the benchmark; anything else prints the fixed diagnostic
and does nothing further. -/
def mainEntry (argv : List String) : MainAction :=
  if argv.length = 1 then MainAction.menu
  else if argv.length = 3 then MainAction.benchmark2 (argv.getD 1 "") (argv.getD 2 "")
  else if argv.length = 4 then
    MainAction.benchmark3 (argv.getD 1 "") (argv.getD 2 "") (argv.getD 3 "")
  else MainAction.printLine "InvalidParameterError: Invalid number of parameters"

/-- The set-based solver state of testable property 6 / claim C4: the
knowledge list holds exactly `{(0,1),(0,2),(0,3)} = 2` and
`{(0,2),(0,3),(0,4)} = 1`, with nothing yet marked. -/
def intersectionExampleState : SolverState :=
  { width := 5, height := 5, amount_mines := 5, moves_made := ∅, mines := ∅,
    safes := ∅,
    knowledge := [⟨{(0, 1), (0, 2), (0, 3)}, 2⟩, ⟨{(0, 2), (0, 3), (0, 4)}, 1⟩],
    next_uncertain_move := none, guess := -1, guess_method := 1 }

/-- The set-based solver state of testable property 5 / claim C5: the
knowledge list holds exactly `{(0,1),(0,2),(0,3)} = 2` and
`{(0,1),(0,2)} = 1`. -/
def complementExampleState : SolverState :=
  { width := 5, height := 5, amount_mines := 5, moves_made := ∅, mines := ∅,
    safes := ∅,
    knowledge := [⟨{(0, 1), (0, 2), (0, 3)}, 2⟩, ⟨{(0, 1), (0, 2)}, 1⟩],
    next_uncertain_move := none, guess := -1, guess_method := 1 }

/-- A configuration-enumeration solver state whose single sentence
`{(0,0)} = 1` makes `(0,0)` appear in every enumerated configuration: a
certain mine, but not a certain safe. -/
def certainMineOnlyState : SolverState :=
  { width := 3, height := 3, amount_mines := 1, moves_made := ∅, mines := ∅,
    safes := ∅, knowledge := [⟨{(0, 0)}, 1⟩],
    next_uncertain_move := none, guess := -1, guess_method := 1 }

/-- The result of `analyze_knowledge_genconfig` on
`certainMineOnlyState`: `(0,0)` is marked as a mine (emptying the
sentence), yet an uncertain move is still committed, because the mine
branch never sets `certain_move_found`. -/
def certainMineOnlyResult : SolverState :=
  { width := 3, height := 3, amount_mines := 1, moves_made := ∅,
    mines := {(0, 0)}, safes := ∅, knowledge := [⟨∅, 0⟩],
    next_uncertain_move := some (1, 0), guess := -1, guess_method := 1 }

/-- A probability-theory solver state whose single sentence
`{(0,0)} = 1` gives `(0,0)` a computed mine probability of exactly 1 —
the input on which the spec requires `(0,0)` to be marked as a mine. -/
def probOneState : SolverState :=
  { width := 3, height := 3, amount_mines := 1, moves_made := ∅, mines := ∅,
    safes := ∅, knowledge := [⟨{(0, 0)}, 1⟩],
    next_uncertain_move := none, guess := -1, guess_method := 2 }

/-- The per-cell mine probability computed by the estimation passes of
`ProbabilityTheorySolver.analyze_knowledge`
(`1 - Π (1 - count/len(cells))` over the sentences containing the
cell), before the certainty check reads it. -/
def computedMineProb (kn : List Sentence) (c : Cell) : ℚ :=
  (probComplementPass (keyList kn) (probFirstPass kn (fun _ => ⟨1⟩)) c).prob

/-- The state of `certainMineOnlyState` after the histogram marking loop
of the configuration-enumeration analysis: `(0,0)` marked as a mine (and
struck from the sentence), `certain_move_found` still false. -/
def certainMineOnlyMarked : SolverState :=
  { width := 3, height := 3, amount_mines := 1, moves_made := ∅,
    mines := {(0, 0)}, safes := ∅, knowledge := [⟨∅, 0⟩],
    next_uncertain_move := none, guess := -1, guess_method := 1 }

/-- Number of mine-kind tiles among the in-bounds 8-neighbours of a
cell (the claim's specification of the stored `nearby_mine` value; the
code's `check_neighbours` scans the full 3x3 block, centre included). -/
def mineNeighborCount (g : Settings) (tiles : Cell → Tile) (c : Cell) : ℕ :=
  (offsets3x3.filter (fun o => ¬ o = ((0 : ℤ), (0 : ℤ)))).countP fun o =>
    decide (is_inside g (c.1 + o.1, c.2 + o.2) ∧
      (tiles (c.1 + o.1, c.2 + o.2)).type = TileType.mineX)

/-- Number of mine-kind tiles on the board. -/
def mineCount (g : Settings) (b : BoardState) : ℕ :=
  ((gridCells g).filter (fun c => (b.tiles c).type = TileType.mineX)).card

/-- The board produced by `place_mines ⟨2,2,1⟩ initBoard (0,0) [(1,1)]`:
one mine at `(1,1)`. -/
def placeMinesWitnessBoard : BoardState :=
  { tiles := updTile initBoard.tiles (1, 1)
      { initBoard.tiles (1, 1) with
        image := Sprite.tileMine, type := TileType.mineX }
    first_click := false
    dug := [] }

/-- A board on which mines and clues have been placed: every cell is a
mine, a clue with a positive stored neighbour count equal to the scan
count, or an empty cell with no adjacent mines. -/
def WellPlaced (g : Settings) (b : BoardState) : Prop :=
  ∀ c ∈ gridCells g,
    ((b.tiles c).type = TileType.mineX ∨
      ((b.tiles c).type = TileType.clueC ∧ 0 < check_neighbours g b.tiles c ∧
        (b.tiles c).nearby_mine = check_neighbours g b.tiles c) ∨
      ((b.tiles c).type = TileType.unknownDot ∧ check_neighbours g b.tiles c = 0))

/-- One step of the flood-fill connectivity relation: `y` is an
in-bounds empty (zero-count) cell in the 3×3 scan block of `x`. -/
def digStep (g : Settings) (b : BoardState) (x y : Cell) : Prop :=
  (is_inside g y ∧ (b.tiles y).type = TileType.unknownDot) ∧ y ∈ digNeighbors g x

/-- The connected zero-count region of `c0`: all cells reachable from
`c0` through chains of adjacent in-bounds empty cells. -/
def zeroRegion (g : Settings) (b : BoardState) (c0 : Cell) : Set Cell :=
  { d | Relation.ReflTransGen (digStep g b) c0 d }

/-- The ring of clue tiles bordering the zero-count region of `c0`. -/
def clueRing (g : Settings) (b : BoardState) (c0 : Cell) : Set Cell :=
  { d | is_inside g d ∧ (b.tiles d).type = TileType.clueC ∧
        ∃ e ∈ zeroRegion g b c0, d ∈ digNeighbors g e }

instance (g : Settings) (b : BoardState) : Decidable (WellPlaced g b) :=
  inferInstanceAs (Decidable (∀ c ∈ gridCells g,
    ((b.tiles c).type = TileType.mineX ∨
      ((b.tiles c).type = TileType.clueC ∧ 0 < check_neighbours g b.tiles c ∧
        (b.tiles c).nearby_mine = check_neighbours g b.tiles c) ∨
      ((b.tiles c).type = TileType.unknownDot ∧
        check_neighbours g b.tiles c = 0))))

/-- Relation between a board and its state after some digging: the dug
list only grows, tile types never change, tiles of already-dug cells
and of never-dug cells are untouched, and every newly dug cell ends up
revealed. -/
def Frame (b b' : BoardState) : Prop :=
  (∀ d ∈ b.dug, d ∈ b'.dug) ∧
  (∀ d, (b'.tiles d).type = (b.tiles d).type) ∧
  (∀ d, d ∈ b.dug → b'.tiles d = b.tiles d) ∧
  (∀ d, d ∉ b'.dug → b'.tiles d = b.tiles d) ∧
  (∀ d, d ∈ b'.dug → d ∉ b.dug → (b'.tiles d).revealed = true)


/-- The solver's view of board bounds (`0 <= x < self.width and
0 <= y < self.height` of `add_sentence`, and the scan ranges of
`choose_uncertain_move` / `make_uncertain_move`). -/
def inSolverGrid (st : SolverState) (c : Cell) : Prop :=
  0 ≤ c.1 ∧ c.1 < st.width ∧ 0 ≤ c.2 ∧ c.2 < st.height

instance (st : SolverState) (c : Cell) : Decidable (inSolverGrid st c) :=
  inferInstanceAs (Decidable (_ ∧ _ ∧ _ ∧ _))

/-- The solver's board cells as a finite set. -/
def solverGridCells (st : SolverState) : Finset Cell :=
  (Finset.range st.width.toNat ×ˢ Finset.range st.height.toNat).image
    (fun (p : ℕ × ℕ) => ((p.1 : ℤ), (p.2 : ℤ)))

/-- The eight neighbours of a cell (the `add_sentence` scan block minus
the cell itself). -/
def adj8 (cell : Cell) : Finset Cell :=
  ((SolverState.nbhdScan cell).toFinset).erase cell

/-- The clue number the game feeds to `add_knowledge` for a revealed
non-mine cell: the number of actual mines among its eight neighbours
(in-bounds by `M ⊆ grid`). -/
def trueClueCount (M : Finset Cell) (cell : Cell) : ℕ :=
  (M ∩ adj8 cell).card

/-- Well-formedness of one sentence with respect to the actual mine set
`M`: the sentence is true (exactly `count` of its cells are mines), its
cells are on the board, and none of them is already marked. -/
def SentenceOK (M : Finset Cell) (w h : ℤ) (mines safes : Finset Cell)
    (s : Sentence) : Prop :=
  (((s.cells ∩ M).card : ℤ) = s.count) ∧
  (∀ c ∈ s.cells, 0 ≤ c.1 ∧ c.1 < w ∧ 0 ≤ c.2 ∧ c.2 < h) ∧
  (∀ c ∈ s.cells, c ∉ mines ∧ c ∉ safes)

/-- The solver invariant maintained through one game against the actual
mine set `M`: the configured mine count is `|M|`, `M` is on the board,
every sentence is `SentenceOK`, marked mines are real mines, marked
safes are real non-mines, every recorded move is a marked cell on the
board, and a set-based solver with a guess method other than 1 or 2
never holds a committed uncertain move. -/
def SolverInv (strat : Strategy) (M : Finset Cell) (st : SolverState) : Prop :=
  ((M.card : ℤ) = st.amount_mines) ∧
  (∀ m ∈ M, inSolverGrid st m) ∧
  (∀ s ∈ st.knowledge, SentenceOK M st.width st.height st.mines st.safes s) ∧
  st.mines ⊆ M ∧
  (∀ c ∈ st.safes, c ∉ M) ∧
  (∀ c ∈ st.moves_made, (c ∈ st.safes ∨ c ∈ st.mines) ∧ inSolverGrid st c) ∧
  (strat = Strategy.setBased ∧ ¬ st.guess_method = 1 ∧ ¬ st.guess_method = 2 →
    st.next_uncertain_move = none)

/-- The solver states reachable during one game against the fixed mine
set `M`: start from a fresh solver whose configured mine count is `|M|`
with `M` on the board; feed `add_knowledge` any revealed non-mine board
cell with its true clue count (the game only calls it for non-mine
tiles); and take any `make_move` transition. -/
inductive GameReachable (strat : Strategy) (M : Finset Cell) :
    SolverState → Prop where
  | init (width height amount_mines guess_method : ℤ)
      (hM : (M.card : ℤ) = amount_mines)
      (hMg : ∀ m ∈ M, 0 ≤ m.1 ∧ m.1 < width ∧ 0 ≤ m.2 ∧ m.2 < height) :
      GameReachable strat M (initSolver width height amount_mines guess_method)
  | stepKnowledge (st : SolverState) (cell : Cell)
      (hst : GameReachable strat M st) (hcg : inSolverGrid st cell)
      (hcM : cell ∉ M) :
      GameReachable strat M
        (add_knowledge strat st cell (trueClueCount M cell))
  | stepMove (st : SolverState) (mv : Option Cell) (act : ℤ)
      (st2 : SolverState) (hst : GameReachable strat M st)
      (hmv : make_move strat st = some (mv, act, st2)) :
      GameReachable strat M st2

/-! ## Theorems -/

/-- Membership in the serialized cell list matches membership in the
set. -/
theorem mem_sortedCells (t : Finset Cell) (c : Cell) :
    c ∈ sortedCells t ↔ c ∈ t := by
  rcases t with ⟨tv, nd⟩
  induction tv using Quotient.ind with
  | _ l =>
    show c ∈ List.insertionSort cellLe l ↔ _
    rw [(List.perm_insertionSort cellLe l).mem_iff]
    rfl

/-- Membership after first-occurrence deduplication. -/
theorem mem_dedupFirst (seen l : List Cell) (c : Cell) :
    c ∈ dedupFirst seen l ↔ c ∈ l ∧ c ∉ seen := by
  induction l generalizing seen with
  | nil => simp [dedupFirst]
  | cons a rest ih =>
    by_cases ha : a ∈ seen
    · rw [dedupFirst, if_pos ha, ih]
      constructor
      · rintro ⟨h1, h2⟩
        exact ⟨List.mem_cons_of_mem _ h1, h2⟩
      · rintro ⟨h1, h2⟩
        rcases List.mem_cons.mp h1 with rfl | h1
        · exact absurd ha h2
        · exact ⟨h1, h2⟩
    · rw [dedupFirst, if_neg ha]
      rw [List.mem_cons, ih]
      constructor
      · rintro (rfl | ⟨h1, h2⟩)
        · exact ⟨List.mem_cons_self _ _, ha⟩
        · simp only [List.mem_append, List.mem_singleton] at h2
          push_neg at h2
          exact ⟨List.mem_cons_of_mem _ h1, h2.1⟩
      · rintro ⟨h1, h2⟩
        rcases List.mem_cons.mp h1 with rfl | h1
        · exact Or.inl rfl
        · by_cases hc : c = a
          · exact Or.inl hc
          · refine Or.inr ⟨h1, ?_⟩
            simp only [List.mem_append, List.mem_singleton]
            push_neg
            exact ⟨h2, hc⟩

/-- Membership in a left fold of unions. -/
theorem mem_foldl_union (kn : List Sentence) (acc : Finset Cell) (c : Cell) :
    c ∈ kn.foldl (fun a s => a ∪ s.cells) acc ↔
      c ∈ acc ∨ ∃ s ∈ kn, c ∈ s.cells := by
  induction kn generalizing acc with
  | nil => simp
  | cons s rest ih =>
    rw [List.foldl_cons, ih]
    simp only [Finset.mem_union, List.mem_cons]
    constructor
    · rintro ((h | h) | ⟨t, ht, hc⟩)
      · exact Or.inl h
      · exact Or.inr ⟨s, Or.inl rfl, h⟩
      · exact Or.inr ⟨t, Or.inr ht, hc⟩
    · rintro (h | ⟨t, (rfl | ht), hc⟩)
      · exact Or.inl (Or.inl h)
      · exact Or.inl (Or.inr hc)
      · exact Or.inr ⟨t, ht, hc⟩

/-- A cell is mentioned exactly when some sentence holds it. -/
theorem mem_mentionedCells (kn : List Sentence) (c : Cell) :
    c ∈ mentionedCells kn ↔ ∃ s ∈ kn, c ∈ s.cells := by
  rw [mentionedCells, mem_foldl_union]
  simp

/-- The dictionary key list and the mentioned-cell set agree. -/
theorem mem_keyList (kn : List Sentence) (c : Cell) :
    c ∈ keyList kn ↔ c ∈ mentionedCells kn := by
  rw [keyList, mem_dedupFirst, mem_mentionedCells]
  simp only [List.mem_flatMap, List.not_mem_nil, not_false_iff, and_true]
  constructor
  · rintro ⟨s, hs, hc⟩
    exact ⟨s, hs, (mem_sortedCells _ _).mp hc⟩
  · rintro ⟨s, hs, hc⟩
    exact ⟨s, hs, (mem_sortedCells _ _).mpr hc⟩

/-- The fold behind Python `min(..., key=f)` returns a member attaining
the minimum key (earliest on ties). -/
theorem minByKey_min {α : Type} (f : α → ℕ) (k : α) (ks : List α) :
    minByKey f k ks ∈ k :: ks ∧
      ∀ c ∈ k :: ks, f (minByKey f k ks) ≤ f c := by
  induction ks generalizing k with
  | nil => exact ⟨List.mem_singleton.mpr rfl, by simp [minByKey]⟩
  | cons a rest ih =>
    rw [minByKey, List.foldl_cons]
    by_cases hlt : f a < f k
    · rw [if_pos hlt]
      rcases ih a with ⟨hmem, hmin⟩
      refine ⟨?_, ?_⟩
      · rcases List.mem_cons.mp hmem with h | h
        · exact List.mem_cons_of_mem _ (List.mem_cons.mpr (Or.inl h))
        · exact List.mem_cons_of_mem _ (List.mem_cons_of_mem _ h)
      · intro c hc
        rcases List.mem_cons.mp hc with rfl | hc
        · exact le_trans (hmin a (List.mem_cons_self _ _)) (le_of_lt hlt)
        · exact hmin c hc
    · rw [if_neg hlt]
      rcases ih k with ⟨hmem, hmin⟩
      refine ⟨?_, ?_⟩
      · rcases List.mem_cons.mp hmem with h | h
        · exact List.mem_cons.mpr (Or.inl h)
        · exact List.mem_cons_of_mem _ (List.mem_cons_of_mem _ h)
      · intro c hc
        rcases List.mem_cons.mp hc with rfl | hc
        · exact hmin c (List.mem_cons_self _ _)
        · rcases List.mem_cons.mp hc with rfl | hc
          · exact le_trans (hmin k (List.mem_cons_self _ _)) (Nat.le_of_not_lt hlt)
          · exact hmin c (List.mem_cons_of_mem _ hc)

/-- A successful `choose_uncertain_move` only rewrites the committed
next uncertain move; every other solver field is untouched. -/
theorem choose_uncertain_move_shape (st : SolverState) (b : Cell) (r : ℚ)
    (pd : Finset Cell) (st2 : SolverState)
    (h : st.choose_uncertain_move b r pd = some st2) :
    ∃ nu, st2 = { st with next_uncertain_move := nu } := by
  unfold SolverState.choose_uncertain_move at h
  simp only [] at h
  split_ifs at h with h0 h1
  · exact ⟨some b, (Option.some_inj.mp h).symm⟩
  · rcases hf : List.find? (fun c => decide (c ∉ st.moves_made ∧ c ∉ pd))
        st.gridScan with _ | c
    · rw [hf] at h
      exact ⟨st.next_uncertain_move, by simpa using (Option.some_inj.mp h).symm⟩
    · rw [hf] at h
      exact ⟨some c, (Option.some_inj.mp h).symm⟩

/-- Characterization of the histogram marking loop of
`GenerateConfigurationSolver.analyze_knowledge`, for an arbitrary
accumulator: the final flag, the safes and mines added, and the fields
it leaves alone. -/
theorem genConfigMarkFold (poss : Multiset (Finset Cell)) (keys : List Cell)
    (st0 : SolverState) (b0 : Bool) :
    (keys.foldl
      (fun acc c =>
        if histCount poss c = 0 then (acc.1.mark_safe c, true)
        else if histCount poss c = Multiset.card poss then (acc.1.mark_mine c, acc.2)
        else acc)
      (st0, b0)).2 = (b0 || keys.any (fun c => decide (histCount poss c = 0))) ∧
    (keys.foldl
      (fun acc c =>
        if histCount poss c = 0 then (acc.1.mark_safe c, true)
        else if histCount poss c = Multiset.card poss then (acc.1.mark_mine c, acc.2)
        else acc)
      (st0, b0)).1.safes =
      st0.safes ∪ (keys.filter (fun c => decide (histCount poss c = 0))).toFinset ∧
    (keys.foldl
      (fun acc c =>
        if histCount poss c = 0 then (acc.1.mark_safe c, true)
        else if histCount poss c = Multiset.card poss then (acc.1.mark_mine c, acc.2)
        else acc)
      (st0, b0)).1.mines =
      st0.mines ∪ (keys.filter (fun c =>
        decide (¬ histCount poss c = 0 ∧ histCount poss c = Multiset.card poss))).toFinset ∧
    (keys.foldl
      (fun acc c =>
        if histCount poss c = 0 then (acc.1.mark_safe c, true)
        else if histCount poss c = Multiset.card poss then (acc.1.mark_mine c, acc.2)
        else acc)
      (st0, b0)).1.moves_made = st0.moves_made ∧
    (keys.foldl
      (fun acc c =>
        if histCount poss c = 0 then (acc.1.mark_safe c, true)
        else if histCount poss c = Multiset.card poss then (acc.1.mark_mine c, acc.2)
        else acc)
      (st0, b0)).1.next_uncertain_move = st0.next_uncertain_move := by
  induction keys generalizing st0 b0 with
  | nil => simp
  | cons c ks ih =>
    by_cases h0 : histCount poss c = 0
    · have e0 : decide (histCount poss c = 0) = true := by simpa using h0
      have e1 : decide (¬ histCount poss c = 0 ∧
          histCount poss c = Multiset.card poss) = false := by
        simp [h0]
      rw [List.foldl_cons, if_pos h0]
      obtain ⟨h1, h2, h3, h4, h5⟩ := ih (st0.mark_safe c) true
      refine ⟨?_, ?_, ?_, ?_, ?_⟩
      · rw [h1, List.any_cons, e0]
        simp
      · rw [h2, List.filter_cons, e0]
        show insert c st0.safes ∪ _ = _
        rw [if_pos rfl, Finset.insert_union, ← Finset.union_insert]
        congr 1
        simp
      · rw [h3, List.filter_cons, e1]
        rfl
      · rw [h4]
        rfl
      · rw [h5]
        rfl
    · have e0 : decide (histCount poss c = 0) = false := by simpa using h0
      by_cases hT : histCount poss c = Multiset.card poss
      · have e1 : decide (¬ histCount poss c = 0 ∧
            histCount poss c = Multiset.card poss) = true := by
          simp only [decide_eq_true_eq]
          exact ⟨h0, hT⟩
        rw [List.foldl_cons, if_neg h0, if_pos hT]
        obtain ⟨h1, h2, h3, h4, h5⟩ := ih (st0.mark_mine c) b0
        refine ⟨?_, ?_, ?_, ?_, ?_⟩
        · rw [h1, List.any_cons, e0]
          simp
        · rw [h2, List.filter_cons, e0]
          rfl
        · rw [h3, List.filter_cons, e1]
          show insert c st0.mines ∪ _ = _
          rw [if_pos rfl, Finset.insert_union, ← Finset.union_insert]
          congr 1
          simp
        · rw [h4]
          rfl
        · rw [h5]
          rfl
      · have e1 : decide (¬ histCount poss c = 0 ∧
            histCount poss c = Multiset.card poss) = false := by
          simp [h0, hT]
        rw [List.foldl_cons, if_neg h0, if_neg hT]
        obtain ⟨h1, h2, h3, h4, h5⟩ := ih st0 b0
        refine ⟨?_, ?_, ?_, ?_, ?_⟩
        · rw [h1, List.any_cons, e0]
          simp
        · rw [h2, List.filter_cons, e0]
          simp
        · rw [h3, List.filter_cons, e1]
          simp
        · exact h4
        · exact h5

/-- Filtering the key list matches filtering the mentioned-cell set. -/
theorem keyList_filter_toFinset (kn : List Sentence) (P : Cell → Prop)
    [DecidablePred P] :
    ((keyList kn).filter (fun c => decide (P c))).toFinset =
      (mentionedCells kn).filter P := by
  ext c
  simp only [List.mem_toFinset, List.mem_filter, Finset.mem_filter,
    decide_eq_true_eq, mem_keyList]

/-- The `certain_move_found` flag over the key list matches an
existential over the mentioned cells. -/
theorem keyList_any_zero (kn : List Sentence) (poss : Multiset (Finset Cell)) :
    ((keyList kn).any (fun c => decide (histCount poss c = 0)) = true) ↔
      ∃ c ∈ mentionedCells kn, histCount poss c = 0 := by
  rw [List.any_eq_true]
  constructor
  · rintro ⟨c, hc, hz⟩
    exact ⟨c, (mem_keyList kn c).mp hc, of_decide_eq_true hz⟩
  · rintro ⟨c, hc, hz⟩
    exact ⟨c, (mem_keyList kn c).mpr hc, decide_eq_true hz⟩

/-- The certainty-marking fold of
`ProbabilityTheorySolver.analyze_knowledge` is the identity on any
accumulator: both of its conditions compare a `Probability` object with
an `int` (see `pyObjectEqInt`). -/
theorem probTheoryMarkFold_id (f : Cell → Probability) (keys : List Cell)
    (acc : SolverState × Bool) :
    keys.foldl
      (fun acc c =>
        if pyObjectEqInt (f c) 0 then (acc.1.mark_safe c, true)
        else if pyObjectEqInt (f c) 1 then (acc.1.mark_mine c, acc.2)
        else acc)
      acc = acc := by
  induction keys generalizing acc with
  | nil => rfl
  | cons c ks ih =>
    rw [List.foldl_cons]
    show ks.foldl _ (if pyObjectEqInt (f c) 0 then _ else
      if pyObjectEqInt (f c) 1 then _ else acc) = acc
    rw [show pyObjectEqInt (f c) 0 = false from rfl,
      show pyObjectEqInt (f c) 1 = false from rfl]
    simpa using ih acc

/-- `probTheoryMarkLoop` marks nothing and never sets the flag. -/
theorem probTheoryMarkLoop_id (f : Cell → Probability) (keys : List Cell)
    (st : SolverState) : probTheoryMarkLoop f keys st = (st, false) :=
  probTheoryMarkFold_id f keys (st, false)


/-- Claim C4 (confirmed): on a set-based solver whose knowledge is
exactly `{(0,1),(0,2),(0,3)} = 2` and `{(0,2),(0,3),(0,4)} = 1`,
`add_intersection_sentence` marks `(0,1)` as a mine, marks `(0,4)` safe,
and — after the pair scan and the highest-index-first deletions — leaves
the knowledge list holding exactly the new sentence `{(0,2),(0,3)} = 1`,
whose count equals the smaller sentence's count. -/
theorem C4_intersection_example :
    intersectionExampleState.add_intersection_sentence.mines = {(0, 1)} ∧
    intersectionExampleState.add_intersection_sentence.safes = {(0, 4)} ∧
    intersectionExampleState.add_intersection_sentence.knowledge =
      [⟨{(0, 2), (0, 3)}, 1⟩] := by
  refine ⟨by decide, by decide, by decide⟩

/-- Claim C2, counterexample: a tile that is both revealed and flagged
(reachable: a flagged mine is force-revealed when the game is lost)
takes the final `else` fall-through of `Tile.draw` and no sprite at all
is blitted — not the tile's own sprite, as the claim requires for every
revealed tile regardless of flag state. -/
theorem C2_draw_revealed_flagged_counterexample :
    Tile.draw ⟨Sprite.tileNumber 3, TileType.clueC, 3, true, true⟩ = none ∧
    (none : Option Sprite) ≠ some (Sprite.tileNumber 3) := by
  exact ⟨by decide, by decide⟩

/-- Claim C2, amended: `Tile.draw` blits at most one sprite, chosen as:
unrevealed and unflagged → the unknown sprite; unrevealed and flagged →
the flag sprite; revealed and unflagged → the tile's own sprite; and a
tile that is both revealed and flagged is not drawn at all. -/
theorem C2_draw_cases (t : Tile) :
    (t.flagged = false → t.revealed = false → t.draw = some Sprite.tileUnknown) ∧
    (t.flagged = true → t.revealed = false → t.draw = some Sprite.tileFlag) ∧
    (t.flagged = false → t.revealed = true → t.draw = some t.image) ∧
    (t.flagged = true → t.revealed = true → t.draw = none) := by
  cases hf : t.flagged <;> cases hr : t.revealed <;>
    simp [Tile.draw, hf, hr]

/-- Witness for `C2_draw_cases`: its four hypotheses discharged on four
concrete tiles. -/
theorem C2_draw_cases_witness :
    Tile.draw ⟨Sprite.tileEmpty, TileType.unknownDot, 0, false, false⟩ =
      some Sprite.tileUnknown ∧
    Tile.draw ⟨Sprite.tileEmpty, TileType.unknownDot, 0, false, true⟩ =
      some Sprite.tileFlag ∧
    Tile.draw ⟨Sprite.tileNumber 2, TileType.clueC, 2, true, false⟩ =
      some (Sprite.tileNumber 2) ∧
    Tile.draw ⟨Sprite.tileMine, TileType.mineX, 0, true, true⟩ = none := by
  refine ⟨?_, ?_, ?_, ?_⟩
  · exact (C2_draw_cases _).1 rfl rfl
  · exact (C2_draw_cases _).2.1 rfl rfl
  · exact (C2_draw_cases _).2.2.1 rfl rfl
  · exact (C2_draw_cases _).2.2.2 rfl rfl

/-- Claim C8 (confirmed): invoked with a number of user arguments other
than 0, 2 or 3 (`sys.argv` additionally holds the script name), the
`__main__` dispatch selects exactly the action of printing the literal
line `InvalidParameterError: Invalid number of parameters` — no menu, no
benchmark. -/
theorem C8_invalid_argument_count (prog : String) (args : List String)
    (h0 : args.length ≠ 0) (h2 : args.length ≠ 2) (h3 : args.length ≠ 3) :
    mainEntry (prog :: args) =
      MainAction.printLine "InvalidParameterError: Invalid number of parameters" := by
  have hlen : (prog :: args).length = args.length + 1 := rfl
  unfold mainEntry
  rw [hlen]
  rw [if_neg (by omega), if_neg (by omega), if_neg (by omega)]

/-- Witness for `C8_invalid_argument_count` at one user argument
(`python main.py 1`). -/
theorem C8_invalid_argument_count_witness :
    mainEntry ["main.py", "1"] =
      MainAction.printLine "InvalidParameterError: Invalid number of parameters" :=
  C8_invalid_argument_count "main.py" ["1"] (by decide) (by decide) (by decide)

/-- Claim C9 (confirmed): `SetBasedSolver.analyze_knowledge` with a
guess method other than 1 and 2 only deletes the empty-cell-set
sentences: the mines, safes and moves-made sets, the committed uncertain
move, the guess counter and every surviving sentence are unchanged, and
no sentence is added. -/
theorem C9_setbased_other_guess_method (st : SolverState)
    (h1 : st.guess_method ≠ 1) (h2 : st.guess_method ≠ 2) :
    analyze_knowledge_setbased st =
      some { st with knowledge := st.knowledge.filter (fun s => ¬ s.cells = ∅) } := by
  unfold analyze_knowledge_setbased SolverState.remove_null_sentence
  rw [if_neg (by simpa using h1), if_neg (by simpa using h2)]

/-- Witness for `C9_setbased_other_guess_method` on a solver with guess
method 7 holding one null and one real sentence. -/
theorem C9_setbased_other_guess_method_witness :
    analyze_knowledge_setbased
      { width := 3, height := 3, amount_mines := 1, moves_made := ∅,
        mines := ∅, safes := ∅,
        knowledge := [⟨∅, 1⟩, ⟨{(0, 0)}, 1⟩],
        next_uncertain_move := none, guess := -1, guess_method := 7 } =
      some
        { width := 3, height := 3, amount_mines := 1, moves_made := ∅,
          mines := ∅, safes := ∅,
          knowledge := [⟨{(0, 0)}, 1⟩],
          next_uncertain_move := none, guess := -1, guess_method := 7 } := by
  rw [C9_setbased_other_guess_method _ (by decide) (by decide)]
  decide

/-- Claim C1 (code bug): the certainty-marking step of
`ProbabilityTheorySolver.analyze_knowledge` is dead code — whatever the
solver state, a successful call never changes the mines or safes sets,
because `prob_dict[cell] == 0` / `== 1` compare the `Probability`
OBJECT, not its `prob` field, with an `int` (always false in Python).
In particular, on `probOneState` the computed mine probability of
`(0,0)` is exactly 1, yet `(0,0)` is not added to `mines` (and no cell
to `safes`), contradicting the specified "mark any cell at probability
exactly 0 as safe and exactly 1 as mine". -/
theorem C1_probability_marking_dead_code :
    (∀ st st2 : SolverState, analyze_knowledge_probtheory st = some st2 →
      st2.mines = st.mines ∧ st2.safes = st.safes) ∧
    computedMineProb probOneState.knowledge (0, 0) = 1 := by
  refine ⟨?_, ?_⟩
  case refine_2 =>
    show (1 : ℚ) - _ = 1
    norm_num [probFirstPass, probOneState, List.foldl_cons, List.foldl_nil]
  intro st st2 h
  unfold analyze_knowledge_probtheory at h
  split at h
  · cases h
    exact ⟨rfl, rfl⟩
  · simp only [probTheoryMarkLoop_id, Bool.false_eq_true, if_false,
      Option.bind_eq_bind] at h
    rcases Option.bind_eq_some.mp h with ⟨f2, hf2, hrest⟩
    rcases Option.bind_eq_some.mp hrest with ⟨best, hbest, hch⟩
    rcases choose_uncertain_move_shape _ _ _ _ _ hch with ⟨nu, rfl⟩
    exact ⟨rfl, rfl⟩

/-- Witness for `C1_probability_marking_dead_code`: its universally
quantified part applied to a concrete call that returns (a solver with
an empty knowledge list, on which `analyze_knowledge` is the
identity). -/
theorem C1_probability_marking_dead_code_witness :
    (initSolver 3 3 1 2).mines = (initSolver 3 3 1 2).mines ∧
    (initSolver 3 3 1 2).safes = (initSolver 3 3 1 2).safes :=
  C1_probability_marking_dead_code.1 (initSolver 3 3 1 2) (initSolver 3 3 1 2) rfl

/-- Concrete evaluation of the configuration-enumeration analysis on
 (done by hand because the kernel cannot reduce
the rational arithmetic of ). -/
theorem genconfigEvalCertainMineOnly :
    analyze_knowledge_genconfig certainMineOnlyState =
      some certainMineOnlyResult := by
  have hmark : genConfigMarkLoop
      (possibleConfigurations certainMineOnlyState.knowledge)
      (keyList certainMineOnlyState.knowledge) certainMineOnlyState =
      (certainMineOnlyMarked, false) := by decide
  have hmin : minCountCell
      (possibleConfigurations certainMineOnlyState.knowledge)
      (keyList certainMineOnlyState.knowledge) = some (0, 0) := by decide
  have hhist : histCount
      (possibleConfigurations certainMineOnlyState.knowledge) (0, 0) = 1 := by
    decide
  have htot : Multiset.card
      (possibleConfigurations certainMineOnlyState.knowledge) = 1 := by decide
  have hment : mentionedCells certainMineOnlyState.knowledge =
      {(0, 0)} := by decide
  unfold analyze_knowledge_genconfig
  rw [if_neg (by decide)]
  simp only [hmark, hmin, hhist, htot, hment, Option.some_bind]
  rw [if_neg one_ne_zero]
  unfold SolverState.choose_uncertain_move
  simp only [Bool.false_eq_true, if_false]
  rw [if_neg (by decide : ¬ certainMineOnlyMarked.height *
    certainMineOnlyMarked.width - (certainMineOnlyMarked.moves_made.card : ℤ) = 0)]
  rw [if_neg (not_or.mpr ⟨by norm_num [certainMineOnlyMarked], by decide⟩)]
  have hfind : List.find?
      (fun c => decide (c ∉ certainMineOnlyMarked.moves_made ∧
        c ∉ ({(0, 0)} : Finset Cell)))
      certainMineOnlyMarked.gridScan = some (1, 0) := by decide
  rw [hfind]
  decide

/-- Claim C3, counterexample: on `certainMineOnlyState` (knowledge
`{(0,0)} = 1`), the configuration-enumeration analysis finds a certain
mine — `(0,0)` appears in all (= 1) enumerated configurations and is
marked as a mine — and NEVERTHELESS commits an uncertain move
(`next_uncertain_move` goes from `none` to `some (1,0)`), because only
the certain-SAFE branch sets `certain_move_found`.  This refutes the
claimed "commits an uncertain move iff no certain cell — neither a
certain safe nor a certain mine — was found". -/
theorem C3_certain_mine_still_delegates :
    certainMineOnlyState.knowledge ≠ [] ∧
    histCount (possibleConfigurations certainMineOnlyState.knowledge) (0, 0) =
      Multiset.card (possibleConfigurations certainMineOnlyState.knowledge) ∧
    Multiset.card (possibleConfigurations certainMineOnlyState.knowledge) = 1 ∧
    analyze_knowledge_genconfig certainMineOnlyState =
      some certainMineOnlyResult ∧
    (0, 0) ∈ certainMineOnlyResult.mines ∧
    certainMineOnlyState.next_uncertain_move = none ∧
    certainMineOnlyResult.next_uncertain_move = some (1, 0) := by
  refine ⟨by decide, by decide, by decide, genconfigEvalCertainMineOnly,
    by decide, by decide, by decide⟩

/-- Claim C3, amended: for every solver state with a non-empty knowledge
list on which `GenerateConfigurationSolver.analyze_knowledge` returns,
the cells appearing in zero enumerated configurations are exactly the
ones added to `safes`, the cells appearing in all of them (of which
there is at least one) are exactly the ones added to `mines`, and an
uncertain move is delegated to `choose_uncertain_move` — with a
minimum-appearance-count cell and risk = that count over the number of
configurations — iff no cell with zero appearances (no certain SAFE)
was found; finding only certain mines does not suppress the
delegation. -/
theorem C3_genconfig_analyze_amended (st st2 : SolverState)
    (hkn : st.knowledge ≠ [])
    (h : analyze_knowledge_genconfig st = some st2) :
    st2.safes = st.safes ∪ (mentionedCells st.knowledge).filter
        (fun c => histCount (possibleConfigurations st.knowledge) c = 0) ∧
    st2.mines = st.mines ∪ (mentionedCells st.knowledge).filter
        (fun c => ¬ histCount (possibleConfigurations st.knowledge) c = 0 ∧
          histCount (possibleConfigurations st.knowledge) c =
            Multiset.card (possibleConfigurations st.knowledge)) ∧
    ((∃ c ∈ mentionedCells st.knowledge,
        histCount (possibleConfigurations st.knowledge) c = 0) →
      st2.next_uncertain_move = st.next_uncertain_move) ∧
    ((¬ ∃ c ∈ mentionedCells st.knowledge,
        histCount (possibleConfigurations st.knowledge) c = 0) →
      ∃ best ∈ mentionedCells st.knowledge,
        (∀ c ∈ mentionedCells st.knowledge,
          histCount (possibleConfigurations st.knowledge) best ≤
            histCount (possibleConfigurations st.knowledge) c) ∧
        some st2 =
          (genConfigMarkLoop (possibleConfigurations st.knowledge)
              (keyList st.knowledge) st).1.choose_uncertain_move best
            ((histCount (possibleConfigurations st.knowledge) best : ℚ) /
              (Multiset.card (possibleConfigurations st.knowledge) : ℚ))
            (mentionedCells st.knowledge)) := by
  set poss := possibleConfigurations st.knowledge with hposs
  set keys := keyList st.knowledge with hkeys
  obtain ⟨f1, f2, f3, f4, f5⟩ := genConfigMarkFold poss keys st false
  have hmarked :
      genConfigMarkLoop poss keys st =
        keys.foldl
          (fun acc c =>
            if histCount poss c = 0 then (acc.1.mark_safe c, true)
            else if histCount poss c = Multiset.card poss then
              (acc.1.mark_mine c, acc.2)
            else acc)
          (st, false) := rfl
  unfold analyze_knowledge_genconfig at h
  rw [if_neg hkn] at h
  simp only [← hposs, ← hkeys, ← hmarked] at h
  by_cases hflag : (genConfigMarkLoop poss keys st).2 = true
  · rw [if_pos hflag] at h
    have hst : st2 = (genConfigMarkLoop poss keys st).1 :=
      (Option.some_inj.mp h).symm
    have hex : ∃ c ∈ mentionedCells st.knowledge, histCount poss c = 0 := by
      rw [← keyList_any_zero st.knowledge poss]
      rw [hmarked] at hflag
      rw [f1] at hflag
      simpa using hflag
    refine ⟨?_, ?_, ?_, ?_⟩
    · rw [hst, hmarked, f2, keyList_filter_toFinset]
    · rw [hst, hmarked, f3, keyList_filter_toFinset]
    · intro _
      rw [hst, hmarked, f5]
    · intro hno
      exact absurd hex hno
  · rw [if_neg hflag] at h
    have hnoex : ¬ ∃ c ∈ mentionedCells st.knowledge, histCount poss c = 0 := by
      rw [← keyList_any_zero st.knowledge poss]
      rw [hmarked] at hflag
      rw [f1] at hflag
      simpa using hflag
    rcases hb : minCountCell poss keys with _ | best
    · rw [hb] at h
      exact absurd h (by simp)
    · rw [hb] at h
      simp only [Option.some_bind] at h
      by_cases htot : Multiset.card poss = 0
      · rw [if_pos htot] at h
        exact absurd h (by simp)
      · rw [if_neg htot] at h
        obtain ⟨nu, hnu⟩ := choose_uncertain_move_shape _ _ _ _ _ h
        have hsafes : st2.safes = (genConfigMarkLoop poss keys st).1.safes := by
          rw [hnu]
        have hmines : st2.mines = (genConfigMarkLoop poss keys st).1.mines := by
          rw [hnu]
        refine ⟨?_, ?_, ?_, ?_⟩
        · rw [hsafes, hmarked, f2, keyList_filter_toFinset]
        · rw [hmines, hmarked, f3, keyList_filter_toFinset]
        · intro hex
          exact absurd hex hnoex
        · intro _
          rcases hkc : keys with _ | ⟨k, ks⟩
          · rw [hkc] at hb
            exact absurd hb (by simp [minCountCell])
          · rw [hkc] at hb
            have hbv : best = minByKey (histCount poss) k ks := by
              simpa [minCountCell] using hb.symm
            refine ⟨best, ?_, ?_, ?_⟩
            · have hm := (minByKey_min (histCount poss) k ks).1
              rw [← hbv, ← hkc] at hm
              exact (mem_keyList st.knowledge _).mp hm
            · intro c hc
              have hck : c ∈ k :: ks := by
                rw [← hkc]
                exact (mem_keyList st.knowledge c).mpr hc
              have hmn := (minByKey_min (histCount poss) k ks).2 c hck
              rw [← hbv] at hmn
              exact hmn
            · rw [← hkc]
              exact h.symm

/-- Witness for `C3_genconfig_analyze_amended` at the concrete state
`certainMineOnlyState`: no zero-appearance cell exists, so a minimal
cell is delegated.  (The hypotheses of the theorem are discharged by
computation.) -/
theorem C3_genconfig_analyze_amended_witness :
    certainMineOnlyResult.safes = certainMineOnlyState.safes ∪
      (mentionedCells certainMineOnlyState.knowledge).filter
        (fun c =>
          histCount (possibleConfigurations certainMineOnlyState.knowledge) c = 0) :=
  (C3_genconfig_analyze_amended certainMineOnlyState certainMineOnlyResult
    (by decide) genconfigEvalCertainMineOnly).1

/-- Claim C5 (confirmed): on the state whose knowledge is exactly
`{(0,1),(0,2),(0,3)} = 2` and `{(0,1),(0,2)} = 1`,
`add_complement_sentence` turns the first sentence into `{(0,3)} = 1`
and leaves the second unchanged; and in general, for a scanned pair
where one sentence's cells are a superset of the other's with count at
least the other's, the superset sentence is replaced in place by (its
cells minus the subset's, its count minus the subset's count) — the
first direction checked on the stored pair, the symmetric direction
checked against the (possibly just-replaced) first sentence, as the two
sequential `if`s of the source do. -/
theorem C5_complement_derivation :
    (complementExampleState.add_complement_sentence =
      { complementExampleState with
        knowledge := [⟨{(0, 3)}, 1⟩, ⟨{(0, 1), (0, 2)}, 1⟩] }) ∧
    (∀ (kn : List Sentence) (i j : ℕ) (s1 s2 : Sentence), i ≠ j →
      kn[i]? = some s1 → kn[j]? = some s2 →
      s2.cells ⊆ s1.cells → s2.count ≤ s1.count →
      (complementPairStep kn i j)[i]? =
        some ⟨s1.cells \ s2.cells, s1.count - s2.count⟩) ∧
    (∀ (kn : List Sentence) (i j : ℕ) (s1 s2 : Sentence), i ≠ j →
      kn[i]? = some s1 → kn[j]? = some s2 →
      ¬ (s1.count ≥ s2.count ∧ s2.cells ⊆ s1.cells) →
      s1.cells ⊆ s2.cells → s1.count ≤ s2.count →
      (complementPairStep kn i j)[j]? =
        some ⟨s2.cells \ s1.cells, s2.count - s1.count⟩ ∧
      (complementPairStep kn i j)[i]? = some s1) := by
  refine ⟨by decide, ?_, ?_⟩
  · intro kn i j s1 s2 hij h1 h2 hsub hcnt
    have hi : i < kn.length := by
      by_contra hlt
      simp [List.getElem?_eq_none (Nat.le_of_not_lt hlt)] at h1
    have hd1 : kn.getD i ⟨∅, 0⟩ = s1 := by simp [List.getD, h1]
    have hd2 : kn.getD j ⟨∅, 0⟩ = s2 := by simp [List.getD, h2]
    have hc1 : s1.count ≥ s2.count ∧ s2.cells ⊆ s1.cells := ⟨hcnt, hsub⟩
    unfold complementPairStep
    rw [hd1, hd2]
    simp only [if_pos hc1]
    by_cases heq : (⟨s1.cells \ s2.cells, s1.count - s2.count⟩ : Sentence) = s1
    · simp only [if_pos heq]
      split
      · rw [List.getElem?_set_ne (Ne.symm hij), h1, heq]
      · rw [h1, heq]
    · simp only [if_neg heq]
      have hset : (kn.set i ⟨s1.cells \ s2.cells, s1.count - s2.count⟩)[i]? =
          some ⟨s1.cells \ s2.cells, s1.count - s2.count⟩ :=
        List.getElem?_set_eq_of_lt _ hi
      split
      · rw [List.getElem?_set_ne (Ne.symm hij), hset]
      · exact hset
  · intro kn i j s1 s2 hij h1 h2 hno hsub hcnt
    have hj : j < kn.length := by
      by_contra hlt
      simp [List.getElem?_eq_none (Nat.le_of_not_lt hlt)] at h2
    have hd1 : kn.getD i ⟨∅, 0⟩ = s1 := by simp [List.getD, h1]
    have hd2 : kn.getD j ⟨∅, 0⟩ = s2 := by simp [List.getD, h2]
    unfold complementPairStep
    rw [hd1, hd2]
    simp only [if_neg hno, if_pos rfl, if_true,
      if_pos (⟨hcnt, hsub⟩ : s1.count ≤ s2.count ∧ s1.cells ⊆ s2.cells)]
    constructor
    · exact List.getElem?_set_eq_of_lt _ hj
    · rw [List.getElem?_set_ne (Ne.symm hij), h1]

/-- Witness for `C5_complement_derivation`: its two quantified parts
applied to concrete sentence pairs. -/
theorem C5_complement_derivation_witness :
    (complementPairStep [⟨{(0, 1), (0, 2), (0, 3)}, 2⟩, ⟨{(0, 1), (0, 2)}, 1⟩]
        0 1)[0]? = some ⟨{(0, 3)}, 1⟩ ∧
    (complementPairStep [⟨{(0, 1)}, 1⟩, ⟨{(0, 1), (0, 4)}, 1⟩] 0 1)[1]? =
      some ⟨{(0, 4)}, 0⟩ := by
  constructor
  · have h := C5_complement_derivation.2.1
      [⟨{(0, 1), (0, 2), (0, 3)}, 2⟩, ⟨{(0, 1), (0, 2)}, 1⟩] 0 1
      ⟨{(0, 1), (0, 2), (0, 3)}, 2⟩ ⟨{(0, 1), (0, 2)}, 1⟩
      (by decide) (by decide) (by decide) (by decide) (by decide)
    rw [h]
    decide
  · have h := (C5_complement_derivation.2.2
      [⟨{(0, 1)}, 1⟩, ⟨{(0, 1), (0, 4)}, 1⟩] 0 1
      ⟨{(0, 1)}, 1⟩ ⟨{(0, 1), (0, 4)}, 1⟩
      (by decide) (by decide) (by decide) (by decide) (by decide)
      (by decide)).1
    rw [h]
    decide

/-- Membership in the board's cell set matches `is_inside`. -/
theorem mem_gridCells (g : Settings) (c : Cell) :
    c ∈ gridCells g ↔ is_inside g c := by
  unfold gridCells is_inside
  simp only [Finset.mem_image, Finset.mem_product, Finset.mem_range]
  constructor
  · rintro ⟨⟨a, b⟩, ⟨ha, hb⟩, rfl⟩
    refine ⟨Int.ofNat_nonneg a, ?_, Int.ofNat_nonneg b, ?_⟩ <;> exact_mod_cast (by omega)
  · rintro ⟨h1, h2, h3, h4⟩
    refine ⟨(c.1.toNat, c.2.toNat), ⟨?_, ?_⟩, ?_⟩
    · omega
    · omega
    · simp only []
      rw [Int.toNat_of_nonneg h1, Int.toNat_of_nonneg h3]

/-- Unwinding the rejection-sampling step: a successful `placeOneMine`
converts one drawn unknown non-first-click cell into a mine and keeps a
suffix of the draws. -/
theorem placeOneMine_spec (b : BoardState) (fc : Cell) :
    ∀ (draws : List Cell) (b2 : BoardState) (rest : List Cell),
    placeOneMine b fc draws = some (b2, rest) →
    ∃ d ∈ draws, (b.tiles d).type = TileType.unknownDot ∧ d ≠ fc ∧
      b2 = { b with tiles := updTile b.tiles d { b.tiles d with image := Sprite.tileMine, type := TileType.mineX } } ∧
      (∀ e ∈ rest, e ∈ draws) := by
  intro draws
  induction draws with
  | nil => intro b2 rest h; exact absurd h (by simp [placeOneMine])
  | cons d ds ih =>
    intro b2 rest h
    rw [placeOneMine] at h
    split at h
    · next hcond =>
        have hp := Option.some_inj.mp h
        have hb2 : b2 = { b with tiles := updTile b.tiles d { b.tiles d with image := Sprite.tileMine, type := TileType.mineX } } := (congrArg Prod.fst hp).symm
        have hrest : rest = ds := (congrArg Prod.snd hp).symm
        subst hrest
        exact ⟨d, List.mem_cons_self _ _, hcond.1, hcond.2, hb2,
          fun e he => List.mem_cons_of_mem _ he⟩
    · rcases ih b2 rest h with ⟨e, he, h1, h2, h3, h4⟩
      exact ⟨e, List.mem_cons_of_mem _ he, h1, h2, h3,
        fun x hx => List.mem_cons_of_mem _ (h4 x hx)⟩

/-- Turning one in-bounds non-mine tile into a mine raises the board's
mine count by one. -/
theorem mineCount_update (g : Settings) (b : BoardState) (d : Cell) (t : Tile)
    (hd : is_inside g d) (hdot : (b.tiles d).type ≠ TileType.mineX)
    (ht : t.type = TileType.mineX) :
    mineCount g { b with tiles := updTile b.tiles d t } = mineCount g b + 1 := by
  unfold mineCount
  have hins : (gridCells g).filter (fun c => ((updTile b.tiles d t) c).type = TileType.mineX) =
      insert d ((gridCells g).filter (fun c => (b.tiles c).type = TileType.mineX)) := by
    ext c
    simp only [Finset.mem_filter, Finset.mem_insert, updTile]
    by_cases hc : c = d
    · subst hc
      simp [ht, (mem_gridCells g c).mpr hd]
    · simp [hc]
  rw [hins, Finset.card_insert_of_not_mem]
  simp [hdot]

/-- The mine-placing loop adds exactly one mine per iteration (when it
returns), never touches the first-click tile, and never changes a
stored neighbour count. -/
theorem placeMinesAux_spec (g : Settings) (fc : Cell) :
    ∀ (n : ℕ) (b : BoardState) (draws : List Cell) (b2 : BoardState),
    (∀ d ∈ draws, is_inside g d) →
    placeMinesAux n b fc draws = some b2 →
    mineCount g b2 = mineCount g b + n ∧
    b2.tiles fc = b.tiles fc ∧
    (∀ c, (b2.tiles c).nearby_mine = (b.tiles c).nearby_mine) := by
  intro n
  induction n with
  | zero =>
    intro b draws b2 _ h
    cases (Option.some_inj.mp h)
    exact ⟨by simp, rfl, fun _ => rfl⟩
  | succ n ih =>
    intro b draws b2 hdraws h
    rw [placeMinesAux] at h
    rcases Option.bind_eq_some.mp h with ⟨⟨b1, rest⟩, h1, h2⟩
    obtain ⟨d, hdmem, hdot, hdfc, hb1, hrestmem⟩ := placeOneMine_spec b fc _ _ _ h1
    have hrest : ∀ e ∈ rest, is_inside g e := fun e he => hdraws e (hrestmem e he)
    obtain ⟨ih1, ih2, ih3⟩ := ih b1 rest b2 hrest h2
    have hdin : is_inside g d := hdraws d hdmem
    have hcnt : mineCount g b1 = mineCount g b + 1 := by
      rw [hb1]
      exact mineCount_update g b d _ hdin (by rw [hdot]; decide) rfl
    refine ⟨?_, ?_, ?_⟩
    · rw [ih1, hcnt]
      omega
    · rw [ih2, hb1]
      show updTile _ d _ fc = _
      unfold updTile
      rw [if_neg ?_]
      intro hfd
      exact hdfc hfd.symm
    · intro c
      rw [ih3 c, hb1]
      show (updTile _ d _ c).nearby_mine = _
      unfold updTile
      by_cases hc : c = d
      · subst hc
        simp
      · rw [if_neg hc]

/-- One `place_clues` iteration leaves every other cell's tile
unchanged. -/
theorem placeCluesStep_other (g : Settings) (tiles : Cell → Tile) (c0 d : Cell)
    (hd : d ≠ c0) : (placeCluesStep g tiles c0) d = tiles d := by
  unfold placeCluesStep
  simp only []
  split
  · split
    · unfold updTile
      rw [if_neg hd]
    · rfl
  · rfl

/-- One `place_clues` iteration neither creates nor removes mine
tiles. -/
theorem placeCluesStep_typeX (g : Settings) (tiles : Cell → Tile) (c0 d : Cell) :
    (((placeCluesStep g tiles c0) d).type = TileType.mineX) ↔
      ((tiles d).type = TileType.mineX) := by
  by_cases hd : d = c0
  · subst hd
    unfold placeCluesStep
    simp only []
    split
    · next hnx =>
      split
      · unfold updTile
        rw [if_pos rfl]
        simp only []
        constructor
        · intro hx
          exact absurd hx (by decide)
        · intro hx
          exact absurd hx hnx
      · exact Iff.rfl
    · exact Iff.rfl
  · rw [placeCluesStep_other g tiles c0 d hd]

/-- `check_neighbours` only reads which tiles are mines. -/
theorem check_neighbours_congr (g : Settings) (t1 t2 : Cell → Tile)
    (h : ∀ c, ((t1 c).type = TileType.mineX) ↔ ((t2 c).type = TileType.mineX))
    (c : Cell) : check_neighbours g t1 c = check_neighbours g t2 c := by
  unfold check_neighbours
  refine List.countP_congr ?_
  intro o _
  have := h (c.1 + o.1, c.2 + o.2)
  by_cases hin : is_inside g (c.1 + o.1, c.2 + o.2)
  · simp [hin, this]
  · simp [hin]

/-- The whole `place_clues` fold preserves which tiles are mines. -/
theorem cluesFold_typeX (g : Settings) :
    ∀ (L : List Cell) (tiles : Cell → Tile) (d : Cell),
    (((L.foldl (placeCluesStep g) tiles) d).type = TileType.mineX) ↔
      ((tiles d).type = TileType.mineX) := by
  intro L
  induction L with
  | nil => intro tiles d; exact Iff.rfl
  | cons c0 rest ih =>
    intro tiles d
    rw [List.foldl_cons, ih, placeCluesStep_typeX]

/-- The `place_clues` fold leaves unvisited cells' tiles unchanged. -/
theorem cluesFold_untouched (g : Settings) :
    ∀ (L : List Cell) (tiles : Cell → Tile) (d : Cell), d ∉ L →
    (L.foldl (placeCluesStep g) tiles) d = tiles d := by
  intro L
  induction L with
  | nil => intro tiles d _; rfl
  | cons c0 rest ih =>
    intro tiles d hd
    rw [List.mem_cons, not_or] at hd
    rw [List.foldl_cons, ih _ _ hd.2, placeCluesStep_other g tiles c0 d hd.1]

/-- Effect of the `place_clues` fold on a cell visited exactly once:
the clue rule applied to the original tile grid. -/
theorem cluesFold_visit (g : Settings) :
    ∀ (L : List Cell) (tiles : Cell → Tile) (c : Cell), L.Nodup → c ∈ L →
    (L.foldl (placeCluesStep g) tiles) c =
      (if (tiles c).type ≠ TileType.mineX then
        (if 0 < check_neighbours g tiles c then
          { tiles c with
            image := Sprite.tileNumber (check_neighbours g tiles c)
            type := TileType.clueC
            nearby_mine := check_neighbours g tiles c }
        else tiles c)
      else tiles c) := by
  intro L
  induction L with
  | nil => intro tiles c _ hc; exact absurd hc (List.not_mem_nil c)
  | cons c0 rest ih =>
    intro tiles c hnd hc
    rw [List.foldl_cons]
    rcases List.mem_cons.mp hc with rfl | hcr
    · have hnr : c ∉ rest := (List.nodup_cons.mp hnd).1
      rw [cluesFold_untouched g rest _ c hnr]
      unfold placeCluesStep
      simp only []
      split
      · split
        · unfold updTile
          rw [if_pos rfl]
        · rfl
      · rfl
    · have hne : c ≠ c0 := by
        rintro rfl
        exact (List.nodup_cons.mp hnd).1 hcr
      rw [ih (placeCluesStep g tiles c0) c (List.nodup_cons.mp hnd).2 hcr]
      have hX : (((placeCluesStep g tiles c0) c).type = TileType.mineX) ↔
          ((tiles c).type = TileType.mineX) := placeCluesStep_typeX g tiles c0 c
      have hv : (placeCluesStep g tiles c0) c = tiles c :=
        placeCluesStep_other g tiles c0 c hne
      have hchk : check_neighbours g (placeCluesStep g tiles c0) c =
          check_neighbours g tiles c :=
        check_neighbours_congr g _ _ (fun d => placeCluesStep_typeX g tiles c0 d) c
      rw [hv, hchk]

/-- The `place_clues` scan order covers exactly the board cells. -/
theorem mem_colMajorCells (g : Settings) (c : Cell) :
    c ∈ colMajorCells g ↔ is_inside g c := by
  unfold colMajorCells is_inside
  simp only [List.mem_flatMap, List.mem_map, List.mem_range]
  constructor
  · rintro ⟨x, hx, y, hy, h⟩
    rw [← h]
    simp only []
    exact ⟨by omega, by exact_mod_cast hx, by omega, by exact_mod_cast hy⟩
  · rintro ⟨h1, h2, h3, h4⟩
    refine ⟨c.1.toNat, by omega, c.2.toNat, by omega, ?_⟩
    rw [Int.toNat_of_nonneg h1, Int.toNat_of_nonneg h3]

/-- The `place_clues` scan order visits each cell exactly once. -/
theorem nodup_colMajorCells (g : Settings) : (colMajorCells g).Nodup := by
  unfold colMajorCells
  rw [List.nodup_flatMap]
  constructor
  · intro x _
    refine List.Nodup.map ?_ (List.nodup_range g.rows)
    intro a b hab
    have h2 := congrArg Prod.snd hab
    simp only [] at h2
    exact_mod_cast h2
  · refine List.Pairwise.imp ?_ (List.pairwise_lt_range g.cols)
    intro a b hab
    simp only [Function.onFun, List.disjoint_left, List.mem_map, List.mem_range]
    rintro p ⟨y, hy, rfl⟩ ⟨z, hz, hzz⟩
    have hc : ((b : ℤ), (z : ℤ)).1 = ((a : ℤ), (y : ℤ)).1 := by rw [hzz]
    simp only [] at hc
    omega

/-- On a non-mine tile the code's 3×3 scan (centre included) counts the
same mines as the claim's 8-neighbour count. -/
theorem check_eq_mineNeighborCount (g : Settings) (tiles : Cell → Tile) (c : Cell)
    (h : (tiles c).type ≠ TileType.mineX) :
    check_neighbours g tiles c = mineNeighborCount g tiles c := by
  unfold check_neighbours mineNeighborCount
  show List.countP _ ([(-1, -1), (-1, 0), (-1, 1), (0, -1)] ++
    [((0 : ℤ), (0 : ℤ))] ++ [(0, 1), (1, -1), (1, 0), (1, 1)]) = _
  rw [List.countP_append, List.countP_append]
  have hmid : List.countP
      (fun o => decide (is_inside g (c.1 + o.1, c.2 + o.2) ∧
        (tiles (c.1 + o.1, c.2 + o.2)).type = TileType.mineX))
      [((0 : ℤ), (0 : ℤ))] = 0 := by
    simp only [List.countP_cons, List.countP_nil]
    norm_num [h]
  rw [hmid]
  have hfilter : (offsets3x3.filter (fun o => ¬ o = ((0 : ℤ), (0 : ℤ)))) =
      ([(-1, -1), (-1, 0), (-1, 1), (0, -1)] ++ [(0, 1), (1, -1), (1, 0), (1, 1)]) := by
    decide
  rw [hfilter, List.countP_append]
  omega

/-- The 8-neighbour mine count only reads which tiles are mines. -/
theorem mineNeighborCount_congr (g : Settings) (t1 t2 : Cell → Tile)
    (h : ∀ d, ((t1 d).type = TileType.mineX) ↔ ((t2 d).type = TileType.mineX))
    (c : Cell) : mineNeighborCount g t1 c = mineNeighborCount g t2 c := by
  unfold mineNeighborCount
  refine List.countP_congr ?_
  intro o _
  have hd := h (c.1 + o.1, c.2 + o.2)
  by_cases hin : is_inside g (c.1 + o.1, c.2 + o.2)
  · simp [hin, hd]
  · simp [hin]

/-- `place_clues` preserves the board's mine count. -/
theorem mineCount_place_clues (g : Settings) (b : BoardState) :
    mineCount g (place_clues g b) = mineCount g b := by
  unfold mineCount
  congr 1
  refine Finset.filter_congr ?_
  intro c _
  show ((place_clues g b).tiles c).type = TileType.mineX ↔ _
  exact cluesFold_typeX g (colMajorCells g) b.tiles c

/-- The fresh board has no mines. -/
theorem mineCount_initBoard (g : Settings) : mineCount g initBoard = 0 := by
  unfold mineCount
  rw [Finset.card_eq_zero, Finset.filter_eq_empty_iff]
  intro c _
  show ¬ (initBoard.tiles c).type = TileType.mineX
  exact fun hx => absurd (show TileType.unknownDot = TileType.mineX from hx) (by decide)

/-- C7: for every freshly constructed board and first-click cell, under
the precondition that the configured mine count is less than the number
of cells excluding the first click, and for every outcome of the random
draws on which `place_mines` returns, `place_mines` followed by
`place_clues` yields exactly `amount_mines` mine tiles, the first-click
cell is not a mine, and every non-mine tile's stored `nearby_mine`
equals the number of mine tiles among its in-bounds grid neighbours. -/
theorem C7_place_mines_clues (g : Settings) (fc : Cell) (draws : List Cell)
    (hdraws : ∀ d ∈ draws, is_inside g d)
    (hpre : (g.amount_mines : ℤ) < (g.cols : ℤ) * (g.rows : ℤ) - 1)
    (b : BoardState) (hb : place_mines g initBoard fc draws = some b) :
    mineCount g (place_clues g b) = g.amount_mines ∧
    ((place_clues g b).tiles fc).type ≠ TileType.mineX ∧
    (∀ c, is_inside g c → ((place_clues g b).tiles c).type ≠ TileType.mineX →
      ((place_clues g b).tiles c).nearby_mine =
        mineNeighborCount g (place_clues g b).tiles c) := by
  obtain ⟨h1, h2, h3⟩ :=
    placeMinesAux_spec g fc g.amount_mines initBoard draws b hdraws hb
  have hXiff : ∀ d, (((place_clues g b).tiles d).type = TileType.mineX) ↔
      ((b.tiles d).type = TileType.mineX) := by
    intro d
    exact cluesFold_typeX g (colMajorCells g) b.tiles d
  refine ⟨?_, ?_, ?_⟩
  · rw [mineCount_place_clues, h1, mineCount_initBoard]
    omega
  · intro hX
    have hfc := (hXiff fc).mp hX
    rw [h2] at hfc
    exact absurd (show TileType.unknownDot = TileType.mineX from hfc) (by decide)
  · intro c hc hX
    have hbX : (b.tiles c).type ≠ TileType.mineX := fun hxx => hX ((hXiff c).mpr hxx)
    have hvisit : (place_clues g b).tiles c =
        (if (b.tiles c).type ≠ TileType.mineX then
          (if 0 < check_neighbours g b.tiles c then
            { b.tiles c with
              image := Sprite.tileNumber (check_neighbours g b.tiles c)
              type := TileType.clueC
              nearby_mine := check_neighbours g b.tiles c }
          else b.tiles c)
        else b.tiles c) :=
      cluesFold_visit g (colMajorCells g) b.tiles c (nodup_colMajorCells g)
        ((mem_colMajorCells g c).mpr hc)
    have hmnc : mineNeighborCount g (place_clues g b).tiles c =
        check_neighbours g b.tiles c := by
      rw [mineNeighborCount_congr g _ b.tiles hXiff c,
        ← check_eq_mineNeighborCount g b.tiles c hbX]
    rw [hmnc, hvisit, if_pos hbX]
    by_cases hchk : 0 < check_neighbours g b.tiles c
    · rw [if_pos hchk]
    · rw [if_neg hchk]
      rw [h3 c]
      show (0 : ℕ) = _
      omega

/-- Witness for `C7_place_mines_clues`: on a 2x2 board with one mine,
first click `(0, 0)` and the single draw `(1, 1)`, `place_mines`
returns, the resulting board has exactly one mine and the first-click
tile is not a mine. -/
theorem C7_place_mines_clues_witness :
    place_mines ⟨2, 2, 1⟩ initBoard (0, 0) [(1, 1)] = some placeMinesWitnessBoard ∧
    mineCount ⟨2, 2, 1⟩ (place_clues ⟨2, 2, 1⟩ placeMinesWitnessBoard) = 1 ∧
    ((place_clues ⟨2, 2, 1⟩ placeMinesWitnessBoard).tiles (0, 0)).type ≠
      TileType.mineX := by
  refine ⟨rfl, ?_, ?_⟩
  · exact (C7_place_mines_clues ⟨2, 2, 1⟩ (0, 0) [(1, 1)] (by decide) (by decide)
      placeMinesWitnessBoard rfl).1
  · exact (C7_place_mines_clues ⟨2, 2, 1⟩ (0, 0) [(1, 1)] (by decide) (by decide)
      placeMinesWitnessBoard rfl).2.1

theorem mem_intRange (a b x : ℤ) : x ∈ intRange a b ↔ a ≤ x ∧ x < b := by
  unfold intRange
  simp only [List.mem_map, List.mem_range]
  constructor
  · rintro ⟨i, hi, rfl⟩
    omega
  · rintro ⟨h1, h2⟩
    exact ⟨(x - a).toNat, by omega, by omega⟩

theorem mem_digNeighbors_bounds (g : Settings) (c n : Cell)
    (hn : n ∈ digNeighbors g c) :
    is_inside g n ∧ c.1 - 1 ≤ n.1 ∧ n.1 ≤ c.1 + 1 ∧
      c.2 - 1 ≤ n.2 ∧ n.2 ≤ c.2 + 1 := by
  unfold digNeighbors at hn
  simp only [List.mem_flatMap, List.mem_map] at hn
  obtain ⟨r, hr, col, hcol, rfl⟩ := hn
  rw [mem_intRange] at hr hcol
  unfold is_inside
  simp only []
  omega

theorem mem_offsets3x3_of_bounds (x y : ℤ) (h1 : -1 ≤ x) (h2 : x ≤ 1)
    (h3 : -1 ≤ y) (h4 : y ≤ 1) : ((x, y) : ℤ × ℤ) ∈ offsets3x3 := by
  have hx : x = -1 ∨ x = 0 ∨ x = 1 := by omega
  have hy : y = -1 ∨ y = 0 ∨ y = 1 := by omega
  rcases hx with rfl | rfl | rfl <;> rcases hy with rfl | rfl | rfl <;> decide

theorem check_neighbours_zero (g : Settings) (tiles : Cell → Tile) (c : Cell)
    (h : check_neighbours g tiles c = 0) :
    ∀ n ∈ digNeighbors g c, (tiles n).type ≠ TileType.mineX := by
  intro n hn hX
  obtain ⟨hinb, h1, h2, h3, h4⟩ := mem_digNeighbors_bounds g c n hn
  have hcount := List.countP_eq_zero.mp h
  have ho : ((n.1 - c.1, n.2 - c.2) : ℤ × ℤ) ∈ offsets3x3 :=
    mem_offsets3x3_of_bounds _ _ (by omega) (by omega) (by omega) (by omega)
  have hc := hcount _ ho
  simp only [decide_eq_true_eq] at hc
  apply hc
  have hn' : ((c.1 + (n.1 - c.1), c.2 + (n.2 - c.2)) : Cell) = n := by
    obtain ⟨n1, n2⟩ := n
    obtain ⟨c1, c2⟩ := c
    simp only [Prod.mk.injEq]
    omega
  rw [hn']
  exact ⟨hinb, hX⟩

theorem zeroRegion_zeroCell (g : Settings) (b : BoardState) (c0 : Cell)
    (h0 : is_inside g c0) (ht0 : (b.tiles c0).type = TileType.unknownDot) :
    ∀ d ∈ zeroRegion g b c0,
      is_inside g d ∧ (b.tiles d).type = TileType.unknownDot := by
  intro d hd
  rcases Relation.ReflTransGen.cases_tail hd with h | ⟨e, _, hstep⟩
  · rw [h]
    exact ⟨h0, ht0⟩
  · exact hstep.1

theorem zeroRegion_step (g : Settings) (b : BoardState) (c0 : Cell)
    (hwp : WellPlaced g b) (h0 : is_inside g c0)
    (ht0 : (b.tiles c0).type = TileType.unknownDot)
    (c : Cell) (hc : c ∈ zeroRegion g b c0) :
    ∀ n ∈ digNeighbors g c, n ∈ zeroRegion g b c0 ∨ n ∈ clueRing g b c0 := by
  intro n hn
  obtain ⟨hcin, hcty⟩ := zeroRegion_zeroCell g b c0 h0 ht0 c hc
  have hchk : check_neighbours g b.tiles c = 0 := by
    rcases hwp c ((mem_gridCells g c).mpr hcin) with hx | ⟨hcl, _⟩ | ⟨_, hz⟩
    · rw [hcty] at hx
      exact absurd hx (by decide)
    · rw [hcty] at hcl
      exact absurd hcl (by decide)
    · exact hz
  have hnmine : (b.tiles n).type ≠ TileType.mineX :=
    check_neighbours_zero g b.tiles c hchk n hn
  have hnin : is_inside g n := (mem_digNeighbors_bounds g c n hn).1
  rcases hwp n ((mem_gridCells g n).mpr hnin) with hx | ⟨hcl, _⟩ | ⟨hz, _⟩
  · exact absurd hx hnmine
  · exact Or.inr ⟨hnin, hcl, c, hc, hn⟩
  · exact Or.inl (Relation.ReflTransGen.tail hc ⟨⟨hnin, hz⟩, hn⟩)

theorem frame_refl (b : BoardState) : Frame b b :=
  ⟨fun _ hd => hd, fun _ => rfl, fun _ _ => rfl, fun _ _ => rfl,
    fun d hd hnd => absurd hd hnd⟩

theorem frame_trans {b1 b2 b3 : BoardState} (h1 : Frame b1 b2)
    (h2 : Frame b2 b3) : Frame b1 b3 := by
  obtain ⟨m1, t1, k1, u1, r1⟩ := h1
  obtain ⟨m2, t2, k2, u2, r2⟩ := h2
  refine ⟨fun d hd => m2 d (m1 d hd), fun d => (t2 d).trans (t1 d),
    fun d hd => (k2 d (m1 d hd)).trans (k1 d hd), ?_, ?_⟩
  · intro d hd
    have hd2 : d ∉ b2.dug := fun hx => hd (m2 d hx)
    exact (u2 d hd).trans (u1 d hd2)
  · intro d hd3 hd1
    by_cases hd2 : d ∈ b2.dug
    · rw [k2 d hd2]
      exact r1 d hd2 hd1
    · exact r2 d hd3 hd2

theorem frame_dig_start (b : BoardState) (c : Cell) (hc : c ∉ b.dug) :
    Frame b { b with dug := b.dug ++ [c], tiles := updTile b.tiles c { b.tiles c with revealed := true } } := by
  refine ⟨fun d hd => List.mem_append_left _ hd, ?_, ?_, ?_, ?_⟩
  · intro d
    show (updTile _ c _ d).type = _
    unfold updTile
    by_cases hd : d = c
    · subst hd
      rw [if_pos rfl]
    · rw [if_neg hd]
  · intro d hd
    have hdc : d ≠ c := fun hx => hc (hx ▸ hd)
    show updTile _ c _ d = _
    unfold updTile
    rw [if_neg hdc]
  · intro d hd
    have hdc : d ≠ c := fun hx => hd (by rw [hx]; exact List.mem_append_right _ (List.mem_singleton_self c))
    show updTile _ c _ d = _
    unfold updTile
    rw [if_neg hdc]
  · intro d hd hnd
    have hdc : d = c := by
      rcases List.mem_append.mp hd with h | h
      · exact absurd h hnd
      · exact List.mem_singleton.mp h
    subst hdc
    show (updTile _ d _ d).revealed = true
    unfold updTile
    rw [if_pos rfl]

theorem digListFrame (g : Settings) (fuel : ℕ)
    (hdig : ∀ b c r, digFuel g fuel b c = some r → c ∉ b.dug →
      Frame b r.1 ∧ c ∈ r.1.dug ∧
        ((b.tiles c).type ≠ TileType.mineX → r.2 = true)) :
    ∀ ns b r, digListFuel g fuel b ns = some r → Frame b r.1 ∧ r.2 = true := by
  intro ns
  induction ns with
  | nil =>
    intro b r h
    rw [digListFuel] at h
    cases Option.some_inj.mp h
    exact ⟨frame_refl b, rfl⟩
  | cons n ns ih =>
    intro b r h
    rw [digListFuel] at h
    split at h
    · exact ih b r h
    · next hn =>
      rcases Option.bind_eq_some.mp h with ⟨r1, h1, h2⟩
      obtain ⟨hf1, _, _⟩ := hdig b n r1 h1 hn
      obtain ⟨hf2, hflag⟩ := ih r1.1 r h2
      exact ⟨frame_trans hf1 hf2, hflag⟩

theorem digFrame (g : Settings) : ∀ fuel : ℕ, ∀ b c r,
    digFuel g fuel b c = some r → c ∉ b.dug →
    Frame b r.1 ∧ c ∈ r.1.dug ∧
      ((b.tiles c).type ≠ TileType.mineX → r.2 = true) := by
  intro fuel
  induction fuel with
  | zero =>
    intro b c r h _
    rw [digFuel] at h
    exact absurd h (by simp)
  | succ k ih =>
    intro b c r h hc
    rw [digFuel] at h
    simp only [] at h
    split at h
    · next hX =>
      cases Option.some_inj.mp h
      simp only [updTile, if_pos rfl] at hX
      refine ⟨⟨fun d hd => List.mem_append_left _ hd, ?_, ?_, ?_, ?_⟩, ?_, ?_⟩
      · intro d
        by_cases hd : d = c
        · subst hd
          simp [updTile]
        · simp [updTile, hd]
      · intro d hd
        have hdc : d ≠ c := fun hx => hc (hx ▸ hd)
        simp [updTile, hdc]
      · intro d hd
        have hdc : d ≠ c := fun hx =>
          hd (by rw [hx]; exact List.mem_append_right _ (List.mem_singleton_self c))
        simp [updTile, hdc]
      · intro d hd hnd
        have hdc : d = c := by
          rcases List.mem_append.mp hd with h' | h'
          · exact absurd h' hnd
          · exact List.mem_singleton.mp h'
        subst hdc
        simp [updTile]
      · exact List.mem_append_right _ (List.mem_singleton_self c)
      · intro hne
        exact absurd hX hne
    · split at h
      · next hC =>
        cases Option.some_inj.mp h
        refine ⟨frame_dig_start b c hc, ?_, fun _ => rfl⟩
        exact List.mem_append_right _ (List.mem_singleton_self c)
      · obtain ⟨hf2, hflag⟩ := digListFrame g k ih _ _ r h
        refine ⟨frame_trans (frame_dig_start b c hc) hf2, ?_, fun _ => hflag⟩
        exact hf2.1 c (List.mem_append_right _ (List.mem_singleton_self c))

theorem dugErase (g : Settings) (b : BoardState) (c : Cell) :
    gridCells g \ (b.dug ++ [c]).toFinset =
      (gridCells g \ b.dug.toFinset).erase c := by
  ext d
  simp only [Finset.mem_sdiff, Finset.mem_erase, List.toFinset_append,
    Finset.mem_union, List.mem_toFinset, List.toFinset_cons, List.toFinset_nil,
    insert_emptyc_eq, Finset.mem_insert, Finset.not_mem_empty, or_false,
    Finset.mem_singleton]
  tauto

theorem digListTermination (g : Settings) (fuel : ℕ)
    (hdig : ∀ b c, is_inside g c → c ∉ b.dug →
      (gridCells g \ b.dug.toFinset).card ≤ fuel →
      (digFuel g fuel b c).isSome = true) :
    ∀ ns b, (∀ n ∈ ns, is_inside g n) →
      (gridCells g \ b.dug.toFinset).card ≤ fuel →
      (digListFuel g fuel b ns).isSome = true := by
  intro ns
  induction ns with
  | nil =>
    intro b _ _
    rw [digListFuel]
    rfl
  | cons n ns ih =>
    intro b hns hcard
    rw [digListFuel]
    split
    · exact ih b (fun m hm => hns m (List.mem_cons_of_mem _ hm)) hcard
    · next hn =>
      have h1 := hdig b n (hns n (List.mem_cons_self _ _)) hn hcard
      rcases hr1 : digFuel g fuel b n with _ | r1
      · rw [hr1] at h1
        exact absurd h1 (by simp)
      · show (digListFuel g fuel r1.1 ns).isSome = true
        have hfr := digFrame g fuel b n r1 hr1 hn
        have hmono : b.dug.toFinset ⊆ r1.1.dug.toFinset := by
          intro d hd
          rw [List.mem_toFinset] at hd ⊢
          exact hfr.1.1 d hd
        have hcard2 : (gridCells g \ r1.1.dug.toFinset).card ≤ fuel :=
          le_trans (Finset.card_le_card
            (Finset.sdiff_subset_sdiff (Finset.Subset.refl _) hmono)) hcard
        exact ih r1.1 (fun m hm => hns m (List.mem_cons_of_mem _ hm)) hcard2

theorem digTermination (g : Settings) : ∀ fuel : ℕ, ∀ b c, is_inside g c →
    c ∉ b.dug → (gridCells g \ b.dug.toFinset).card ≤ fuel →
    (digFuel g fuel b c).isSome = true := by
  intro fuel
  induction fuel with
  | zero =>
    intro b c hcin hcd hcard
    exfalso
    have hc' : c ∈ gridCells g \ b.dug.toFinset :=
      Finset.mem_sdiff.mpr ⟨(mem_gridCells g c).mpr hcin,
        by rw [List.mem_toFinset]; exact hcd⟩
    have := Finset.card_pos.mpr ⟨c, hc'⟩
    omega
  | succ k ih =>
    intro b c hcin hcd hcard
    rw [digFuel]
    simp only []
    split
    · rfl
    · split
      · rfl
      · apply digListTermination g k ih
        · intro n hn
          exact (mem_digNeighbors_bounds g c n hn).1
        · show (gridCells g \ (b.dug ++ [c]).toFinset).card ≤ k
          have hc' : c ∈ gridCells g \ b.dug.toFinset :=
            Finset.mem_sdiff.mpr ⟨(mem_gridCells g c).mpr hcin,
              by rw [List.mem_toFinset]; exact hcd⟩
          rw [dugErase g b c, Finset.card_erase_of_mem hc']
          have := Finset.card_pos.mpr ⟨c, hc'⟩
          omega

theorem digListSound (g : Settings) (B0 : BoardState) (c0 : Cell)
    (hwp : WellPlaced g B0) (h0 : is_inside g c0)
    (ht0 : (B0.tiles c0).type = TileType.unknownDot) (fuel : ℕ)
    (hdig : ∀ b c r, digFuel g fuel b c = some r → c ∉ b.dug →
      (∀ d, (b.tiles d).type = (B0.tiles d).type) →
      (c ∈ zeroRegion g B0 c0 ∨ c ∈ clueRing g B0 c0) →
      ∀ d ∈ r.1.dug, d ∈ b.dug ∨ d ∈ zeroRegion g B0 c0 ∨ d ∈ clueRing g B0 c0) :
    ∀ ns b r, digListFuel g fuel b ns = some r →
      (∀ d, (b.tiles d).type = (B0.tiles d).type) →
      (∀ n ∈ ns, n ∈ zeroRegion g B0 c0 ∨ n ∈ clueRing g B0 c0) →
      ∀ d ∈ r.1.dug, d ∈ b.dug ∨ d ∈ zeroRegion g B0 c0 ∨ d ∈ clueRing g B0 c0 := by
  intro ns
  induction ns with
  | nil =>
    intro b r h _ _ d hd
    rw [digListFuel] at h
    cases Option.some_inj.mp h
    exact Or.inl hd
  | cons n ns ih =>
    intro b r h htypes hns d hd
    rw [digListFuel] at h
    split at h
    · exact ih b r h htypes (fun m hm => hns m (List.mem_cons_of_mem _ hm)) d hd
    · next hn =>
      rcases Option.bind_eq_some.mp h with ⟨r1, h1, h2⟩
      have hfr1 := digFrame g fuel b n r1 h1 hn
      have htypes1 : ∀ e, (r1.1.tiles e).type = (B0.tiles e).type :=
        fun e => (hfr1.1.2.1 e).trans (htypes e)
      rcases ih r1.1 r h2 htypes1
          (fun m hm => hns m (List.mem_cons_of_mem _ hm)) d hd with hd1 | hreg
      · exact hdig b n r1 h1 hn htypes (hns n (List.mem_cons_self _ _)) d hd1
      · exact Or.inr hreg

theorem digSound (g : Settings) (B0 : BoardState) (c0 : Cell)
    (hwp : WellPlaced g B0) (h0 : is_inside g c0)
    (ht0 : (B0.tiles c0).type = TileType.unknownDot) :
    ∀ fuel b c r, digFuel g fuel b c = some r → c ∉ b.dug →
      (∀ d, (b.tiles d).type = (B0.tiles d).type) →
      (c ∈ zeroRegion g B0 c0 ∨ c ∈ clueRing g B0 c0) →
      ∀ d ∈ r.1.dug, d ∈ b.dug ∨ d ∈ zeroRegion g B0 c0 ∨ d ∈ clueRing g B0 c0 := by
  intro fuel
  induction fuel with
  | zero =>
    intro b c r h
    rw [digFuel] at h
    exact absurd h (by simp)
  | succ k ih =>
    intro b c r h hc htypes hcreg d hd
    rw [digFuel] at h
    simp only [] at h
    split at h
    · next hX =>
      cases Option.some_inj.mp h
      rcases List.mem_append.mp hd with h' | h'
      · exact Or.inl h'
      · rw [List.mem_singleton.mp h']
        exact Or.inr hcreg
    · split at h
      · next hC =>
        cases Option.some_inj.mp h
        rcases List.mem_append.mp hd with h' | h'
        · exact Or.inl h'
        · rw [List.mem_singleton.mp h']
          exact Or.inr hcreg
      · next hX hC =>
        have hcreg' : c ∈ zeroRegion g B0 c0 := by
          rcases hcreg with h' | h'
          · exact h'
          · exfalso
            apply hC
            show (updTile b.tiles c { b.tiles c with revealed := true } c).type =
              TileType.clueC
            unfold updTile
            rw [if_pos rfl]
            show (b.tiles c).type = TileType.clueC
            rw [htypes c]
            exact h'.2.1
        have htypes1 : ∀ e,
            ((updTile b.tiles c { b.tiles c with revealed := true }) e).type =
              (B0.tiles e).type := by
          intro e
          unfold updTile
          by_cases he : e = c
          · subst he
            rw [if_pos rfl]
            exact htypes e
          · rw [if_neg he]
            exact htypes e
        have hnbrs := zeroRegion_step g B0 c0 hwp h0 ht0 c hcreg'
        rcases digListSound g B0 c0 hwp h0 ht0 k ih _ _ r h htypes1 hnbrs d hd
            with hd1 | hreg
        · rcases List.mem_append.mp hd1 with h' | h'
          · exact Or.inl h'
          · rw [List.mem_singleton.mp h']
            exact Or.inr (Or.inl hcreg')
        · exact Or.inr hreg

theorem digListClosed (g : Settings) (fuel : ℕ)
    (hdig : ∀ b c r, digFuel g fuel b c = some r → c ∉ b.dug →
      ∀ d ∈ r.1.dug, d ∉ b.dug → (b.tiles d).type = TileType.unknownDot →
        ∀ m ∈ digNeighbors g d, m ∈ r.1.dug) :
    ∀ ns b r, digListFuel g fuel b ns = some r →
      ((∀ n ∈ ns, n ∈ r.1.dug) ∧
       (∀ d ∈ r.1.dug, d ∉ b.dug → (b.tiles d).type = TileType.unknownDot →
        ∀ m ∈ digNeighbors g d, m ∈ r.1.dug)) := by
  intro ns
  induction ns with
  | nil =>
    intro b r h
    rw [digListFuel] at h
    cases Option.some_inj.mp h
    exact ⟨fun n hn => absurd hn (List.not_mem_nil n),
      fun d hd hnd _ => absurd hd hnd⟩
  | cons n ns ih =>
    intro b r h
    rw [digListFuel] at h
    split at h
    · next hn =>
      obtain ⟨hall, hclo⟩ := ih b r h
      refine ⟨?_, hclo⟩
      intro m hm
      rcases List.mem_cons.mp hm with rfl | hm'
      · exact (digListFrame g fuel (digFrame g fuel) ns b r h).1.1 m hn
      · exact hall m hm'
    · next hn =>
      rcases Option.bind_eq_some.mp h with ⟨r1, h1, h2⟩
      obtain ⟨hall, hclo⟩ := ih r1.1 r h2
      have hfr1 := digFrame g fuel b n r1 h1 hn
      have hmono2 : ∀ d ∈ r1.1.dug, d ∈ r.1.dug :=
        (digListFrame g fuel (digFrame g fuel) ns r1.1 r h2).1.1
      refine ⟨?_, ?_⟩
      · intro m hm
        rcases List.mem_cons.mp hm with rfl | hm'
        · exact hmono2 m hfr1.2.1
        · exact hall m hm'
      · intro d hd hnd hty m hm
        by_cases hd1 : d ∈ r1.1.dug
        · exact hmono2 m (hdig b n r1 h1 hn d hd1 hnd hty m hm)
        · exact hclo d hd hd1 (by rw [hfr1.1.2.1 d]; exact hty) m hm

theorem digClosed (g : Settings) : ∀ fuel b c r,
    digFuel g fuel b c = some r → c ∉ b.dug →
    ∀ d ∈ r.1.dug, d ∉ b.dug → (b.tiles d).type = TileType.unknownDot →
      ∀ m ∈ digNeighbors g d, m ∈ r.1.dug := by
  intro fuel
  induction fuel with
  | zero =>
    intro b c r h
    rw [digFuel] at h
    exact absurd h (by simp)
  | succ k ih =>
    intro b c r h hc d hd hnd hty m hm
    rw [digFuel] at h
    simp only [] at h
    split at h
    · next hX =>
      cases Option.some_inj.mp h
      exfalso
      have hdc : d = c := by
        rcases List.mem_append.mp hd with h' | h'
        · exact absurd h' hnd
        · exact List.mem_singleton.mp h'
      subst hdc
      rw [show (updTile b.tiles d { b.tiles d with revealed := true } d).type =
        (b.tiles d).type from by unfold updTile; rw [if_pos rfl], hty] at hX
      exact absurd hX (by decide)
    · split at h
      · next hC =>
        cases Option.some_inj.mp h
        exfalso
        have hdc : d = c := by
          rcases List.mem_append.mp hd with h' | h'
          · exact absurd h' hnd
          · exact List.mem_singleton.mp h'
        subst hdc
        rw [show (updTile b.tiles d { b.tiles d with revealed := true } d).type =
          (b.tiles d).type from by unfold updTile; rw [if_pos rfl], hty] at hC
        exact absurd hC (by decide)
      · obtain ⟨hall, hclo⟩ := digListClosed g k ih _ _ r h
        by_cases hdc : d = c
        · subst hdc
          exact hall m hm
        · have hdB1 : d ∉ b.dug ++ [c] := by
            intro hx
            rcases List.mem_append.mp hx with h' | h'
            · exact hnd h'
            · exact hdc (List.mem_singleton.mp h')
          have htyB1 :
              ((updTile b.tiles c { b.tiles c with revealed := true }) d).type =
                TileType.unknownDot := by
            unfold updTile
            rw [if_neg hdc]
            exact hty
          exact hclo d hd hdB1 htyB1 m hm

/-- C6: on every board on which mines and clues have been placed and
nothing has been dug yet, digging an in-bounds empty-kind tile (zero
adjacent mines) terminates — fuel `cols * rows + 1` always suffices for
the dug-list-guarded recursion — returning `true`, and afterwards
exactly the tiles of that tile's connected zero-count region plus the
ring of clue tiles bordering the region are marked revealed. -/
theorem C6_dig_flood_fill (g : Settings) (b : BoardState) (c0 : Cell)
    (hwp : WellPlaced g b) (hdug : b.dug = [])
    (hrev : ∀ c ∈ gridCells g, (b.tiles c).revealed = false)
    (h0 : is_inside g c0) (ht0 : (b.tiles c0).type = TileType.unknownDot) :
    ∃ bF : BoardState, digFuel g (g.cols * g.rows + 1) b c0 = some (bF, true) ∧
      ∀ d, is_inside g d →
        ((bF.tiles d).revealed = true ↔
          (d ∈ zeroRegion g b c0 ∨ d ∈ clueRing g b c0)) := by
  have hc0d : c0 ∉ b.dug := by rw [hdug]; exact List.not_mem_nil c0
  have hcard : (gridCells g \ b.dug.toFinset).card ≤ g.cols * g.rows + 1 := by
    rw [hdug]
    have h1 : (gridCells g).card ≤ g.cols * g.rows := by
      unfold gridCells
      calc ((Finset.range g.cols ×ˢ Finset.range g.rows).image _).card
          ≤ (Finset.range g.cols ×ˢ Finset.range g.rows).card :=
            Finset.card_image_le
        _ = g.cols * g.rows := by
            rw [Finset.card_product, Finset.card_range, Finset.card_range]
    simp only [List.toFinset_nil, Finset.sdiff_empty]
    omega
  have hsome := digTermination g (g.cols * g.rows + 1) b c0 h0 hc0d hcard
  rcases hres : digFuel g (g.cols * g.rows + 1) b c0 with _ | ⟨bF, fl⟩
  · rw [hres] at hsome
    exact absurd hsome (by simp)
  · obtain ⟨hfr, hc0dug, hflag⟩ :=
      digFrame g (g.cols * g.rows + 1) b c0 (bF, fl) hres hc0d
    have hfl : fl = true := hflag (by rw [ht0]; decide)
    subst hfl
    obtain ⟨hmono, htypesF, hkeep, hunch, hrevnew⟩ := hfr
    have hsound := digSound g b c0 hwp h0 ht0 (g.cols * g.rows + 1) b c0
      (bF, true) hres hc0d (fun _ => rfl) (Or.inl Relation.ReflTransGen.refl)
    have hclosed := digClosed g (g.cols * g.rows + 1) b c0 (bF, true) hres hc0d
    have hregdug : ∀ e ∈ zeroRegion g b c0, e ∈ bF.dug := by
      intro e he
      have he' : Relation.ReflTransGen (digStep g b) c0 e := he
      clear he
      induction he' with
      | refl => exact hc0dug
      | tail h1 h2 ih' =>
        obtain ⟨hin', hty'⟩ := zeroRegion_zeroCell g b c0 h0 ht0 _ h1
        exact hclosed _ ih' (by rw [hdug]; exact List.not_mem_nil _) hty' _ h2.2
    have hringdug : ∀ e ∈ clueRing g b c0, e ∈ bF.dug := by
      rintro e ⟨hin, hty, f, hf, hnb⟩
      obtain ⟨hfin, hfty⟩ := zeroRegion_zeroCell g b c0 h0 ht0 f hf
      exact hclosed f (hregdug f hf) (by rw [hdug]; exact List.not_mem_nil f)
        hfty e hnb
    refine ⟨bF, rfl, ?_⟩
    intro d hd
    constructor
    · intro hrd
      by_cases hdF : d ∈ bF.dug
      · rcases hsound d hdF with h' | h'
        · rw [hdug] at h'
          exact absurd h' (List.not_mem_nil d)
        · exact h'
      · exfalso
        rw [hunch d hdF, hrev d ((mem_gridCells g d).mpr hd)] at hrd
        exact absurd hrd (by decide)
    · intro hdr
      have hddug : d ∈ bF.dug := by
        rcases hdr with h' | h'
        · exact hregdug d h'
        · exact hringdug d h'
      exact hrevnew d hddug (by rw [hdug]; exact List.not_mem_nil d)

/-- Witness for `C6_dig_flood_fill`: the mine-free 2×2 board, digging
`(0, 0)`. -/
theorem C6_dig_flood_fill_witness :
    WellPlaced ⟨2, 2, 0⟩ initBoard ∧
    (∃ bF : BoardState,
      digFuel ⟨2, 2, 0⟩ (2 * 2 + 1) initBoard (0, 0) = some (bF, true) ∧
      ∀ d, is_inside ⟨2, 2, 0⟩ d →
        ((bF.tiles d).revealed = true ↔
          (d ∈ zeroRegion ⟨2, 2, 0⟩ initBoard (0, 0) ∨
           d ∈ clueRing ⟨2, 2, 0⟩ initBoard (0, 0)))) := by
  refine ⟨by decide, ?_⟩
  exact C6_dig_flood_fill ⟨2, 2, 0⟩ initBoard (0, 0) (by decide) rfl
    (by decide) (by decide) rfl

theorem mem_solverGridCells (st : SolverState) (c : Cell) :
    c ∈ solverGridCells st ↔ inSolverGrid st c := by
  unfold solverGridCells inSolverGrid
  simp only [Finset.mem_image, Finset.mem_product, Finset.mem_range]
  constructor
  · rintro ⟨⟨a, b⟩, ⟨ha, hb⟩, rfl⟩
    refine ⟨Int.ofNat_nonneg a, ?_, Int.ofNat_nonneg b, ?_⟩ <;> omega
  · rintro ⟨h1, h2, h3, h4⟩
    refine ⟨(c.1.toNat, c.2.toNat), ⟨?_, ?_⟩, ?_⟩
    · omega
    · omega
    · simp only []
      rw [Int.toNat_of_nonneg h1, Int.toNat_of_nonneg h3]

theorem card_solverGridCells (st : SolverState) :
    (solverGridCells st).card = st.width.toNat * st.height.toNat := by
  unfold solverGridCells
  rw [Finset.card_image_of_injective]
  · rw [Finset.card_product, Finset.card_range, Finset.card_range]
  · intro a b hab
    have h1 := congrArg Prod.fst hab
    have h2 := congrArg Prod.snd hab
    simp only [] at h1 h2
    exact Prod.ext (by exact_mod_cast h1) (by exact_mod_cast h2)

theorem mem_gridScan (st : SolverState) (c : Cell) :
    c ∈ st.gridScan ↔ inSolverGrid st c := by
  unfold SolverState.gridScan inSolverGrid
  simp only [List.mem_flatMap, List.mem_map, List.mem_range]
  constructor
  · rintro ⟨y, hy, x, hx, h⟩
    rw [← h]
    simp only []
    omega
  · rintro ⟨h1, h2, h3, h4⟩
    refine ⟨c.2.toNat, by omega, c.1.toNat, by omega, ?_⟩
    rw [Int.toNat_of_nonneg h1, Int.toNat_of_nonneg h3]

theorem sortedCells_eq_nil (s : Finset Cell) :
    sortedCells s = [] ↔ s = ∅ := by
  constructor
  · intro h
    rw [Finset.eq_empty_iff_forall_not_mem]
    intro c hc
    have := (mem_sortedCells s c).mpr hc
    rw [h] at this
    exact List.not_mem_nil c this
  · intro h
    subst h
    rfl

theorem foldl_preserve {α β : Type} (P : β → Prop) (f : β → α → β)
    (l : List α) (b : β) (hb : P b) (hf : ∀ b a, a ∈ l → P b → P (f b a)) :
    P (l.foldl f b) := by
  induction l generalizing b with
  | nil => exact hb
  | cons a rest ih =>
    exact ih (f b a) (hf b a (List.mem_cons_self _ _) hb)
      (fun b' a' ha' => hf b' a' (List.mem_cons_of_mem _ ha'))

theorem mem_foldl_unionF {α : Type} (f : α → Finset Cell) (l : List α)
    (acc : Finset Cell) (c : Cell) :
    c ∈ l.foldl (fun a s => a ∪ f s) acc ↔ c ∈ acc ∨ ∃ s ∈ l, c ∈ f s := by
  induction l generalizing acc with
  | nil => simp
  | cons s rest ih =>
    rw [List.foldl_cons, ih]
    simp only [Finset.mem_union, List.mem_cons]
    constructor
    · rintro ((h | h) | ⟨t, ht, hc⟩)
      · exact Or.inl h
      · exact Or.inr ⟨s, Or.inl rfl, h⟩
      · exact Or.inr ⟨t, Or.inr ht, hc⟩
    · rintro (h | ⟨t, (rfl | ht), hc⟩)
      · exact Or.inl (Or.inl h)
      · exact Or.inl (Or.inr hc)
      · exact Or.inr ⟨t, ht, hc⟩

theorem sentence_mark_safe_eq (s : Sentence) (c : Cell) :
    s.mark_safe c = ⟨s.cells.erase c, s.count⟩ := by
  unfold Sentence.mark_safe
  split
  · rfl
  · next h =>
    rw [Finset.erase_eq_of_not_mem h]

theorem erase_inter_of_not_mem {s M : Finset Cell} {c : Cell} (h : c ∉ M) :
    (s.erase c) ∩ M = s ∩ M := by
  ext x
  simp only [Finset.mem_inter, Finset.mem_erase]
  constructor
  · rintro ⟨⟨_, hx⟩, hM⟩
    exact ⟨hx, hM⟩
  · rintro ⟨hx, hM⟩
    exact ⟨⟨fun hxc => h (hxc ▸ hM), hx⟩, hM⟩

theorem sentOK_mark_safe {M : Finset Cell} {w h : ℤ} {mn sf : Finset Cell}
    {s : Sentence} {c : Cell} (hok : SentenceOK M w h mn sf s) (hcM : c ∉ M) :
    SentenceOK M w h mn (insert c sf) (s.mark_safe c) := by
  obtain ⟨h1, h2, h3⟩ := hok
  rw [sentence_mark_safe_eq]
  refine ⟨?_, ?_, ?_⟩
  · show (((s.cells.erase c) ∩ M).card : ℤ) = s.count
    rw [erase_inter_of_not_mem hcM]
    exact h1
  · intro d hd
    exact h2 d (Finset.mem_of_mem_erase hd)
  · intro d hd
    have hdc : d ≠ c := Finset.ne_of_mem_erase hd
    have := h3 d (Finset.mem_of_mem_erase hd)
    exact ⟨this.1, by rw [Finset.mem_insert]; push_neg; exact ⟨hdc, this.2⟩⟩

theorem sentOK_mark_mine {M : Finset Cell} {w h : ℤ} {mn sf : Finset Cell}
    {s : Sentence} {c : Cell} (hok : SentenceOK M w h mn sf s) (hcM : c ∈ M) :
    SentenceOK M w h (insert c mn) sf (s.mark_mine c) := by
  obtain ⟨h1, h2, h3⟩ := hok
  unfold Sentence.mark_mine
  split
  · next hcs =>
    refine ⟨?_, ?_, ?_⟩
    · show (((s.cells.erase c) ∩ M).card : ℤ) = s.count - 1
      have hmem : c ∈ s.cells ∩ M := Finset.mem_inter.mpr ⟨hcs, hcM⟩
      have he : (s.cells.erase c) ∩ M = (s.cells ∩ M).erase c := by
        ext x
        simp only [Finset.mem_inter, Finset.mem_erase]
        tauto
      rw [he, Finset.card_erase_of_mem hmem]
      have hpos : 1 ≤ (s.cells ∩ M).card := Finset.card_pos.mpr ⟨c, hmem⟩
      omega
    · intro d hd
      exact h2 d (Finset.mem_of_mem_erase hd)
    · intro d hd
      have hdc : d ≠ c := Finset.ne_of_mem_erase hd
      have := h3 d (Finset.mem_of_mem_erase hd)
      exact ⟨by rw [Finset.mem_insert]; push_neg; exact ⟨hdc, this.1⟩, this.2⟩
  · next hcs =>
    refine ⟨h1, h2, ?_⟩
    intro d hd
    have hdc : d ≠ c := fun hx => hcs (hx ▸ hd)
    have := h3 d hd
    exact ⟨by rw [Finset.mem_insert]; push_neg; exact ⟨hdc, this.1⟩, this.2⟩

theorem inv_mark_safe {strat : Strategy} {M : Finset Cell} {st : SolverState}
    {c : Cell} (hinv : SolverInv strat M st) (hcM : c ∉ M) :
    SolverInv strat M (st.mark_safe c) := by
  obtain ⟨h1, h2, h3, h4, h5, h6, h7⟩ := hinv
  refine ⟨h1, h2, ?_, h4, ?_, ?_, h7⟩
  · intro s' hs'
    rcases List.mem_map.mp hs' with ⟨s, hs, rfl⟩
    exact sentOK_mark_safe (h3 s hs) hcM
  · intro d hd
    rcases Finset.mem_insert.mp hd with rfl | hd
    · exact hcM
    · exact h5 d hd
  · intro d hd
    exact ⟨Or.imp_left (fun h => Finset.mem_insert_of_mem h) (h6 d hd).1,
      (h6 d hd).2⟩

theorem inv_mark_mine {strat : Strategy} {M : Finset Cell} {st : SolverState}
    {c : Cell} (hinv : SolverInv strat M st) (hcM : c ∈ M) :
    SolverInv strat M (st.mark_mine c) := by
  obtain ⟨h1, h2, h3, h4, h5, h6, h7⟩ := hinv
  refine ⟨h1, h2, ?_, ?_, h5, ?_, h7⟩
  · intro s' hs'
    rcases List.mem_map.mp hs' with ⟨s, hs, rfl⟩
    exact sentOK_mark_mine (h3 s hs) hcM
  · intro d hd
    rcases Finset.mem_insert.mp hd with rfl | hd
    · exact hcM
    · exact h4 hd
  · intro d hd
    exact ⟨Or.imp_right (fun h => Finset.mem_insert_of_mem h) (h6 d hd).1,
      (h6 d hd).2⟩

theorem inv_mark_safe_fold {strat : Strategy} {M : Finset Cell}
    {st : SolverState} {cs : List Cell} (hinv : SolverInv strat M st)
    (hcs : ∀ c ∈ cs, c ∉ M) :
    SolverInv strat M (cs.foldl (fun t c => t.mark_safe c) st) :=
  foldl_preserve (SolverInv strat M) _ cs st hinv
    (fun t c hc ht => inv_mark_safe ht (hcs c hc))

theorem inv_mark_mine_fold {strat : Strategy} {M : Finset Cell}
    {st : SolverState} {cs : List Cell} (hinv : SolverInv strat M st)
    (hcs : ∀ c ∈ cs, c ∈ M) :
    SolverInv strat M (cs.foldl (fun t c => t.mark_mine c) st) :=
  foldl_preserve (SolverInv strat M) _ cs st hinv
    (fun t c hc ht => inv_mark_mine ht (hcs c hc))

theorem inv_set_knowledge {strat : Strategy} {M : Finset Cell}
    {st : SolverState} {kn2 : List Sentence} (hinv : SolverInv strat M st)
    (hkn : ∀ s ∈ kn2, SentenceOK M st.width st.height st.mines st.safes s) :
    SolverInv strat M { st with knowledge := kn2 } := by
  obtain ⟨h1, h2, h3, h4, h5, h6, h7⟩ := hinv
  exact ⟨h1, h2, hkn, h4, h5, h6, h7⟩

theorem inv_remove_null {strat : Strategy} {M : Finset Cell}
    {st : SolverState} (hinv : SolverInv strat M st) :
    SolverInv strat M st.remove_null_sentence :=
  inv_set_knowledge hinv
    (fun s hs => hinv.2.2.1 s (List.mem_filter.mp hs).1)

theorem mem_removeDupAux {prev l : List Sentence} {s : Sentence}
    (hs : s ∈ SolverState.removeDupAux prev l) : s ∈ l := by
  induction l generalizing prev with
  | nil => exact absurd hs (List.not_mem_nil s)
  | cons a rest ih =>
    rw [SolverState.removeDupAux] at hs
    split at hs
    · exact List.mem_cons_of_mem _ (ih hs)
    · rcases List.mem_cons.mp hs with rfl | hs'
      · exact List.mem_cons_self _ _
      · exact List.mem_cons_of_mem _ (ih hs')

theorem inv_remove_dup {strat : Strategy} {M : Finset Cell}
    {st : SolverState} (hinv : SolverInv strat M st) :
    SolverInv strat M st.remove_duplicated_sentence :=
  inv_set_knowledge hinv
    (fun s hs => hinv.2.2.1 s (mem_removeDupAux hs))

theorem sentOK_default (M : Finset Cell) (w h : ℤ) (mn sf : Finset Cell) :
    SentenceOK M w h mn sf ⟨∅, 0⟩ := by
  refine ⟨by simp, ?_, ?_⟩ <;> intro c hc <;>
    exact absurd hc (Finset.not_mem_empty c)

theorem sentOK_getD {M : Finset Cell} {w h : ℤ} {mn sf : Finset Cell}
    {kn : List Sentence} (hall : ∀ s ∈ kn, SentenceOK M w h mn sf s) (i : ℕ) :
    SentenceOK M w h mn sf (kn.getD i ⟨∅, 0⟩) := by
  by_cases hi : i < kn.length
  · rw [List.getD_eq_getElem _ _ hi]
    exact hall _ (List.getElem_mem hi)
  · rw [List.getD_eq_default _ _ (by omega)]
    exact sentOK_default M w h mn sf

theorem sentOK_diff {M : Finset Cell} {w h : ℤ} {mn sf : Finset Cell}
    {sa sb : Sentence} (ha : SentenceOK M w h mn sf sa)
    (hb : SentenceOK M w h mn sf sb) (hsub : sb.cells ⊆ sa.cells) :
    SentenceOK M w h mn sf ⟨sa.cells \ sb.cells, sa.count - sb.count⟩ := by
  obtain ⟨ha1, ha2, ha3⟩ := ha
  obtain ⟨hb1, hb2, hb3⟩ := hb
  refine ⟨?_, ?_, ?_⟩
  · show (((sa.cells \ sb.cells) ∩ M).card : ℤ) = sa.count - sb.count
    have he : (sa.cells \ sb.cells) ∩ M = (sa.cells ∩ M) \ (sb.cells ∩ M) := by
      ext x
      simp only [Finset.mem_inter, Finset.mem_sdiff]
      tauto
    have hsub2 : sb.cells ∩ M ⊆ sa.cells ∩ M :=
      fun x hx => Finset.mem_inter.mpr
        ⟨hsub (Finset.mem_inter.mp hx).1, (Finset.mem_inter.mp hx).2⟩
    rw [he, Finset.card_sdiff hsub2]
    have := Finset.card_le_card hsub2
    omega
  · intro c hc
    exact ha2 c (Finset.mem_sdiff.mp hc).1
  · intro c hc
    exact ha3 c (Finset.mem_sdiff.mp hc).1

theorem all_set {kn : List Sentence} {P : Sentence → Prop}
    (hall : ∀ s ∈ kn, P s) {i : ℕ} {t : Sentence} (ht : P t) :
    ∀ s ∈ kn.set i t, P s := by
  intro s hs
  rcases List.mem_or_eq_of_mem_set hs with h | h
  · exact hall s h
  · exact h ▸ ht

theorem complementPairStepAux {M : Finset Cell} {w h : ℤ}
    {mn sf : Finset Cell} {kn : List Sentence}
    (hall : ∀ s ∈ kn, SentenceOK M w h mn sf s) (i j : ℕ) (up : Sentence)
    (hupOK : SentenceOK M w h mn sf up) :
    ∀ s ∈ (if up.count ≤ (kn.getD j ⟨∅, 0⟩).count ∧
          up.cells ⊆ (kn.getD j ⟨∅, 0⟩).cells then
        (if up = kn.getD i ⟨∅, 0⟩ then kn else kn.set i up).set j
          ⟨(kn.getD j ⟨∅, 0⟩).cells \ up.cells,
            (kn.getD j ⟨∅, 0⟩).count - up.count⟩
      else (if up = kn.getD i ⟨∅, 0⟩ then kn else kn.set i up)),
    SentenceOK M w h mn sf s := by
  have hs2 := sentOK_getD hall j
  have hkn1 : ∀ s ∈ (if up = kn.getD i ⟨∅, 0⟩ then kn else kn.set i up),
      SentenceOK M w h mn sf s := by
    split
    · exact hall
    · exact all_set hall hupOK
  intro s hs
  split at hs
  · next hc2 => exact all_set hkn1 (sentOK_diff hs2 hupOK hc2.2) s hs
  · exact hkn1 s hs

theorem complementPairStep_OK {M : Finset Cell} {w h : ℤ}
    {mn sf : Finset Cell} {kn : List Sentence}
    (hall : ∀ s ∈ kn, SentenceOK M w h mn sf s) (i j : ℕ) :
    ∀ s ∈ complementPairStep kn i j, SentenceOK M w h mn sf s := by
  intro s hs
  unfold complementPairStep at hs
  simp only [] at hs
  refine complementPairStepAux hall i j _ ?_ s hs
  split
  · next hc => exact sentOK_diff (sentOK_getD hall i) (sentOK_getD hall j) hc.2
  · exact sentOK_getD hall i

theorem inv_add_complement {strat : Strategy} {M : Finset Cell}
    {st : SolverState} (hinv : SolverInv strat M st) :
    SolverInv strat M st.add_complement_sentence := by
  refine inv_set_knowledge hinv ?_
  refine foldl_preserve
    (fun kn => ∀ s ∈ kn, SentenceOK M st.width st.height st.mines st.safes s)
    _ _ _ hinv.2.2.1 ?_
  intro kn i _ hkn
  exact foldl_preserve
    (fun kn2 => ∀ s ∈ kn2, SentenceOK M st.width st.height st.mines st.safes s)
    _ _ kn hkn (fun kn2 j _ hkn2 => complementPairStep_OK hkn2 i j)

theorem collectSafes_sound {strat : Strategy} {M : Finset Cell}
    {st : SolverState} (hinv : SolverInv strat M st) :
    ∀ c ∈ SolverState.collectSafes st, c ∉ M := by
  intro c hc
  unfold SolverState.collectSafes at hc
  rcases (mem_foldl_unionF Sentence.known_safes _ _ _).mp hc with h | ⟨s, hs, hcs⟩
  · exact absurd h (Finset.not_mem_empty c)
  · unfold Sentence.known_safes at hcs
    split at hcs
    · next h0 =>
      have htruth := (hinv.2.2.1 s hs).1
      rw [h0] at htruth
      have : s.cells ∩ M = ∅ := Finset.card_eq_zero.mp (by exact_mod_cast htruth)
      intro hcM
      have : c ∈ s.cells ∩ M := Finset.mem_inter.mpr ⟨hcs, hcM⟩
      simp_all
    · exact absurd hcs (Finset.not_mem_empty c)

theorem collectMines_sound {strat : Strategy} {M : Finset Cell}
    {st : SolverState} (hinv : SolverInv strat M st) :
    ∀ c ∈ SolverState.collectMines st, c ∈ M := by
  intro c hc
  unfold SolverState.collectMines at hc
  rcases (mem_foldl_unionF Sentence.known_mines _ _ _).mp hc with h | ⟨s, hs, hcs⟩
  · exact absurd h (Finset.not_mem_empty c)
  · unfold Sentence.known_mines at hcs
    split at hcs
    · next h0 =>
      have htruth := (hinv.2.2.1 s hs).1
      have hcard : (s.cells ∩ M).card = s.cells.card := by
        have : ((s.cells ∩ M).card : ℤ) = (s.cells.card : ℤ) := by
          rw [htruth, ← h0]
        exact_mod_cast this
      have heq : s.cells ∩ M = s.cells :=
        Finset.eq_of_subset_of_card_le (Finset.inter_subset_left) (le_of_eq hcard.symm)
      have : c ∈ s.cells ∩ M := heq.symm ▸ hcs
      exact (Finset.mem_inter.mp this).2
    · exact absurd hcs (Finset.not_mem_empty c)

theorem inv_checkSentencePass {strat : Strategy} {M : Finset Cell}
    {st : SolverState} (hinv : SolverInv strat M st) :
    SolverInv strat M (SolverState.checkSentencePass st) := by
  unfold SolverState.checkSentencePass
  simp only []
  have h1 : SolverInv strat M
      ((sortedCells (SolverState.collectSafes st)).foldl
        (fun a c => a.mark_safe c) st) :=
    inv_mark_safe_fold hinv
      (fun c hc => collectSafes_sound hinv c ((mem_sortedCells _ _).mp hc))
  exact inv_mark_mine_fold h1
    (fun c hc => collectMines_sound hinv c ((mem_sortedCells _ _).mp hc))

theorem inv_checkSentenceLoop {strat : Strategy} {M : Finset Cell} :
    ∀ (fuel : ℕ) (st : SolverState), SolverInv strat M st →
    SolverInv strat M (SolverState.checkSentenceLoop fuel st) := by
  intro fuel
  induction fuel with
  | zero => intro st h; exact h
  | succ k ih =>
    intro st h
    rw [SolverState.checkSentenceLoop]
    split
    · exact h
    · exact ih _ (inv_checkSentencePass h)

theorem inv_check_sentence {strat : Strategy} {M : Finset Cell}
    {st : SolverState} (hinv : SolverInv strat M st) :
    SolverInv strat M st.check_sentence :=
  inv_checkSentenceLoop _ st hinv

theorem addSentenceFold (st : SolverState) (cell : Cell) :
    ∀ (L : List Cell) (acc : Finset Cell × ℤ),
    L.foldl (SolverState.addSentenceStep st cell) acc =
      (acc.1 ∪ (L.filter (fun p => decide (¬ p = cell ∧
          (0 ≤ p.1 ∧ p.1 < st.width ∧ 0 ≤ p.2 ∧ p.2 < st.height) ∧
          p ∉ st.mines ∧ p ∉ st.safes))).toFinset,
       acc.2 - (L.countP (fun p => decide (¬ p = cell ∧
          (0 ≤ p.1 ∧ p.1 < st.width ∧ 0 ≤ p.2 ∧ p.2 < st.height) ∧
          p ∈ st.mines)) : ℤ)) := by
  intro L
  induction L with
  | nil =>
    intro acc
    simp
  | cons p rest ih =>
    intro acc
    rw [List.foldl_cons, ih]
    unfold SolverState.addSentenceStep
    rw [List.filter_cons, List.countP_cons]
    by_cases h1 : p = cell
    · rw [if_pos h1]
      have e1 : decide (¬ p = cell ∧
          (0 ≤ p.1 ∧ p.1 < st.width ∧ 0 ≤ p.2 ∧ p.2 < st.height) ∧
          p ∉ st.mines ∧ p ∉ st.safes) = false := by simp [h1]
      have e2 : decide (¬ p = cell ∧
          (0 ≤ p.1 ∧ p.1 < st.width ∧ 0 ≤ p.2 ∧ p.2 < st.height) ∧
          p ∈ st.mines) = false := by simp [h1]
      rw [e1, e2]
      simp
    · rw [if_neg h1]
      by_cases h2 : 0 ≤ p.1 ∧ p.1 < st.width ∧ 0 ≤ p.2 ∧ p.2 < st.height
      · rw [if_pos h2]
        by_cases h3 : p ∈ st.mines
        · rw [if_pos h3]
          have e1 : decide (¬ p = cell ∧
              (0 ≤ p.1 ∧ p.1 < st.width ∧ 0 ≤ p.2 ∧ p.2 < st.height) ∧
              p ∉ st.mines ∧ p ∉ st.safes) = false := by simp [h3]
          have e2 : decide (¬ p = cell ∧
              (0 ≤ p.1 ∧ p.1 < st.width ∧ 0 ≤ p.2 ∧ p.2 < st.height) ∧
              p ∈ st.mines) = true := by simp [h1, h2, h3]
          rw [e1, e2]
          simp only [Bool.false_eq_true, if_false, if_true, Prod.mk.injEq,
            true_and, eq_self_iff_true]
          push_cast
          ring
        · rw [if_neg h3]
          by_cases h4 : p ∉ st.safes
          · rw [if_pos h4]
            have e1 : decide (¬ p = cell ∧
                (0 ≤ p.1 ∧ p.1 < st.width ∧ 0 ≤ p.2 ∧ p.2 < st.height) ∧
                p ∉ st.mines ∧ p ∉ st.safes) = true := by
              simp only [decide_eq_true_eq]
              exact ⟨h1, h2, h3, h4⟩
            have e2 : decide (¬ p = cell ∧
                (0 ≤ p.1 ∧ p.1 < st.width ∧ 0 ≤ p.2 ∧ p.2 < st.height) ∧
                p ∈ st.mines) = false := by simp [h3]
            rw [e1, e2]
            simp only [Bool.false_eq_true, if_false, if_true, Prod.mk.injEq,
              List.toFinset_cons]
            refine ⟨?_, by push_cast; ring⟩
            rw [Finset.union_insert, Finset.insert_union]
          · rw [if_neg h4]
            have e1 : decide (¬ p = cell ∧
                (0 ≤ p.1 ∧ p.1 < st.width ∧ 0 ≤ p.2 ∧ p.2 < st.height) ∧
                p ∉ st.mines ∧ p ∉ st.safes) = false := by
              simp only [decide_eq_false_iff_not]
              intro hcontra
              exact h4 hcontra.2.2.2
            have e2 : decide (¬ p = cell ∧
                (0 ≤ p.1 ∧ p.1 < st.width ∧ 0 ≤ p.2 ∧ p.2 < st.height) ∧
                p ∈ st.mines) = false := by simp [h3]
            rw [e1, e2]
            simp
      · rw [if_neg h2]
        have e1 : decide (¬ p = cell ∧
            (0 ≤ p.1 ∧ p.1 < st.width ∧ 0 ≤ p.2 ∧ p.2 < st.height) ∧
            p ∉ st.mines ∧ p ∉ st.safes) = false := by
          simp only [decide_eq_false_iff_not]
          intro hcontra
          exact h2 hcontra.2.1
        have e2 : decide (¬ p = cell ∧
            (0 ≤ p.1 ∧ p.1 < st.width ∧ 0 ≤ p.2 ∧ p.2 < st.height) ∧
            p ∈ st.mines) = false := by
          simp only [decide_eq_false_iff_not]
          intro hcontra
          exact h2 hcontra.2.1
        rw [e1, e2]
        simp

theorem nodup_nbhdScan (cell : Cell) : (SolverState.nbhdScan cell).Nodup := by
  unfold SolverState.nbhdScan
  rw [List.nodup_flatMap]
  constructor
  · intro dx _
    refine List.Nodup.map ?_ (by decide : ([-1, 0, 1] : List ℤ).Nodup)
    intro a b hab
    have h2 := congrArg Prod.snd hab
    simp only [] at h2
    omega
  · refine List.Pairwise.imp ?_
      (by decide : ([-1, 0, 1] : List ℤ).Pairwise (· ≠ ·))
    intro a b hab
    simp only [Function.onFun, List.disjoint_left, List.mem_map]
    rintro p ⟨y, hy, rfl⟩ ⟨z, hz, hzz⟩
    have hc := congrArg Prod.fst hzz
    simp only [] at hc
    omega

theorem mem_adj8 (cell c : Cell) :
    c ∈ adj8 cell ↔ c ≠ cell ∧ c ∈ SolverState.nbhdScan cell := by
  unfold adj8
  rw [Finset.mem_erase, List.mem_toFinset]

theorem addSentenceFoldInit (st : SolverState) (cell : Cell) (k : ℤ) :
    (SolverState.nbhdScan cell).foldl (SolverState.addSentenceStep st cell)
        (∅, k) =
      (((SolverState.nbhdScan cell).filter (fun p => decide (¬ p = cell ∧
          (0 ≤ p.1 ∧ p.1 < st.width ∧ 0 ≤ p.2 ∧ p.2 < st.height) ∧
          p ∉ st.mines ∧ p ∉ st.safes))).toFinset,
       k - ((SolverState.nbhdScan cell).countP (fun p => decide (¬ p = cell ∧
          (0 ≤ p.1 ∧ p.1 < st.width ∧ 0 ≤ p.2 ∧ p.2 < st.height) ∧
          p ∈ st.mines)) : ℤ)) := by
  rw [addSentenceFold]
  simp

theorem add_sentence_eq (st : SolverState) (cell : Cell) (k : ℤ) :
    st.add_sentence cell k =
      { st with knowledge := st.knowledge ++
          [⟨((SolverState.nbhdScan cell).filter (fun p => decide (¬ p = cell ∧
              (0 ≤ p.1 ∧ p.1 < st.width ∧ 0 ≤ p.2 ∧ p.2 < st.height) ∧
              p ∉ st.mines ∧ p ∉ st.safes))).toFinset,
            k - ((SolverState.nbhdScan cell).countP
              (fun p => decide (¬ p = cell ∧
                (0 ≤ p.1 ∧ p.1 < st.width ∧ 0 ≤ p.2 ∧ p.2 < st.height) ∧
                p ∈ st.mines)) : ℤ)⟩] } := by
  unfold SolverState.add_sentence
  simp only []
  rw [addSentenceFoldInit]

theorem inv_add_sentence {strat : Strategy} {M : Finset Cell}
    {st : SolverState} {cell : Cell} (hinv : SolverInv strat M st) :
    SolverInv strat M (st.add_sentence cell ((trueClueCount M cell : ℕ) : ℤ)) := by
  rw [add_sentence_eq]
  refine inv_set_knowledge hinv ?_
  intro s hs
  rcases List.mem_append.mp hs with h | h
  · exact hinv.2.2.1 s h
  · rw [List.mem_singleton] at h
    subst h
    have hmemS : ∀ x, x ∈ (((SolverState.nbhdScan cell).filter
        (fun p => decide (¬ p = cell ∧
          (0 ≤ p.1 ∧ p.1 < st.width ∧ 0 ≤ p.2 ∧ p.2 < st.height) ∧
          p ∉ st.mines ∧ p ∉ st.safes))).toFinset : Finset Cell) ↔
        (x ∈ SolverState.nbhdScan cell ∧ ¬ x = cell ∧
          (0 ≤ x.1 ∧ x.1 < st.width ∧ 0 ≤ x.2 ∧ x.2 < st.height) ∧
          x ∉ st.mines ∧ x ∉ st.safes) := by
      intro x
      rw [List.mem_toFinset, List.mem_filter, decide_eq_true_eq]
    refine ⟨?_, ?_, ?_⟩
    · show ((_ ∩ M).card : ℤ) = _
      have hSM : (((SolverState.nbhdScan cell).filter
          (fun p => decide (¬ p = cell ∧
            (0 ≤ p.1 ∧ p.1 < st.width ∧ 0 ≤ p.2 ∧ p.2 < st.height) ∧
            p ∉ st.mines ∧ p ∉ st.safes))).toFinset : Finset Cell) ∩ M =
          (M ∩ adj8 cell) \ (st.mines ∩ adj8 cell) := by
        ext x
        simp only [Finset.mem_inter, hmemS, Finset.mem_sdiff, mem_adj8]
        constructor
        · rintro ⟨⟨hscan, hne, _, hmn, _⟩, hM⟩
          exact ⟨⟨hM, hne, hscan⟩, fun hx => hmn hx.1⟩
        · rintro ⟨⟨hM, hne, hscan⟩, hnm⟩
          have hgrid := hinv.2.1 x hM
          have hsafe : x ∉ st.safes := fun hx => hinv.2.2.2.2.1 x hx hM
          have hmn : x ∉ st.mines := fun hx => hnm ⟨hx, hne, hscan⟩
          exact ⟨⟨hscan, hne, hgrid, hmn, hsafe⟩, hM⟩
      rw [hSM]
      have hsub : st.mines ∩ adj8 cell ⊆ M ∩ adj8 cell := by
        intro x hx
        rw [Finset.mem_inter] at hx ⊢
        exact ⟨hinv.2.2.2.1 hx.1, hx.2⟩
      rw [Finset.card_sdiff hsub]
      have hX : (SolverState.nbhdScan cell).countP
          (fun p => decide (¬ p = cell ∧
            (0 ≤ p.1 ∧ p.1 < st.width ∧ 0 ≤ p.2 ∧ p.2 < st.height) ∧
            p ∈ st.mines)) = (st.mines ∩ adj8 cell).card := by
        rw [List.countP_eq_length_filter]
        rw [← List.toFinset_card_of_nodup
          (List.Nodup.filter _ (nodup_nbhdScan cell))]
        congr 1
        ext x
        simp only [List.mem_toFinset, List.mem_filter, decide_eq_true_eq,
          Finset.mem_inter, mem_adj8]
        constructor
        · rintro ⟨hscan, hne, _, hmn⟩
          exact ⟨hmn, hne, hscan⟩
        · rintro ⟨hmn, hne, hscan⟩
          have hgrid := hinv.2.1 x (hinv.2.2.2.1 hmn)
          exact ⟨hscan, hne, hgrid, hmn⟩
      rw [hX]
      have hle := Finset.card_le_card hsub
      show (((M ∩ adj8 cell).card - (st.mines ∩ adj8 cell).card : ℕ) : ℤ) =
        ((trueClueCount M cell : ℕ) : ℤ) - ((st.mines ∩ adj8 cell).card : ℤ)
      unfold trueClueCount
      omega
    · intro c hc
      exact ((hmemS c).mp hc).2.2.1
    · intro c hc
      exact ⟨((hmemS c).mp hc).2.2.2.1, ((hmemS c).mp hc).2.2.2.2⟩

theorem inv_add_knowledge_base {strat : Strategy} {M : Finset Cell}
    {st : SolverState} {cell : Cell} (hinv : SolverInv strat M st)
    (hcM : cell ∉ M) (hcg : inSolverGrid st cell) :
    SolverInv strat M
      (({ st with moves_made := insert cell st.moves_made }).mark_safe cell) := by
  obtain ⟨h1, h2, h3, h4, h5, h6, h7⟩ := hinv
  refine ⟨h1, h2, ?_, h4, ?_, ?_, h7⟩
  · intro s' hs'
    rcases List.mem_map.mp hs' with ⟨s, hs, rfl⟩
    exact sentOK_mark_safe (h3 s hs) hcM
  · intro d hd
    rcases Finset.mem_insert.mp hd with rfl | hd
    · exact hcM
    · exact h5 d hd
  · intro d hd
    rcases Finset.mem_insert.mp hd with rfl | hd
    · exact ⟨Or.inl (Finset.mem_insert_self d _), hcg⟩
    · exact ⟨Or.imp_left (fun h => Finset.mem_insert_of_mem h) (h6 d hd).1,
        (h6 d hd).2⟩

theorem nodup_sortedCells (s : Finset Cell) : (sortedCells s).Nodup := by
  rcases s with ⟨sv, nd⟩
  induction sv using Quotient.ind with
  | _ l =>
    show (List.insertionSort cellLe l).Nodup
    exact (List.perm_insertionSort cellLe l).symm.nodup nd

theorem toFinset_sortedCells (s : Finset Cell) :
    (sortedCells s).toFinset = s := by
  ext c
  rw [List.mem_toFinset, mem_sortedCells]

theorem sentence_mark_mine_default (c : Cell) :
    Sentence.mark_mine ⟨∅, 0⟩ c = ⟨∅, 0⟩ := by
  unfold Sentence.mark_mine
  rw [if_neg (Finset.not_mem_empty c)]

theorem sentence_mark_safe_default (c : Cell) :
    Sentence.mark_safe ⟨∅, 0⟩ c = ⟨∅, 0⟩ := by
  unfold Sentence.mark_safe
  rw [if_neg (Finset.not_mem_empty c)]

theorem sentMarkSafeFold (cs : List Cell) (s : Sentence) :
    cs.foldl Sentence.mark_safe s = ⟨s.cells \ cs.toFinset, s.count⟩ := by
  induction cs generalizing s with
  | nil =>
    show s = _
    rw [List.toFinset_nil, Finset.sdiff_empty]
  | cons c rest ih =>
    rw [List.foldl_cons, ih, sentence_mark_safe_eq]
    show (⟨(s.cells.erase c) \ rest.toFinset, s.count⟩ : Sentence) = _
    rw [List.toFinset_cons, Finset.erase_eq]
    congr 1
    ext x
    simp only [Finset.mem_sdiff, Finset.mem_singleton, Finset.mem_insert]
    tauto

theorem sentence_mark_mine_eq_of_mem {s : Sentence} {c : Cell}
    (h : c ∈ s.cells) :
    s.mark_mine c = ⟨s.cells.erase c, s.count - 1⟩ := by
  unfold Sentence.mark_mine
  rw [if_pos h]

theorem sentMarkMineFold_disjoint (cs : List Cell) (s : Sentence)
    (h : ∀ c ∈ cs, c ∉ s.cells) : cs.foldl Sentence.mark_mine s = s := by
  induction cs generalizing s with
  | nil => rfl
  | cons c rest ih =>
    rw [List.foldl_cons]
    rw [show Sentence.mark_mine s c = s from by
      unfold Sentence.mark_mine; rw [if_neg (h c (List.mem_cons_self _ _))]]
    exact ih s (fun d hd => h d (List.mem_cons_of_mem _ hd))

theorem sentMarkMineFold_subset (cs : List Cell) (s : Sentence)
    (hnd : cs.Nodup) (h : ∀ c ∈ cs, c ∈ s.cells) :
    cs.foldl Sentence.mark_mine s =
      ⟨s.cells \ cs.toFinset, s.count - cs.length⟩ := by
  induction cs generalizing s with
  | nil =>
    show s = _
    rw [List.toFinset_nil, Finset.sdiff_empty]
    show s = ⟨s.cells, s.count - ((0 : ℕ) : ℤ)⟩
    rw [show (((0 : ℕ) : ℤ)) = 0 from rfl, sub_zero]
  | cons c rest ih =>
    rw [List.foldl_cons,
      sentence_mark_mine_eq_of_mem (h c (List.mem_cons_self _ _))]
    rw [ih ⟨s.cells.erase c, s.count - 1⟩ (List.nodup_cons.mp hnd).2 ?hmem]
    case hmem =>
      intro d hd
      show d ∈ s.cells.erase c
      rw [Finset.mem_erase]
      exact ⟨fun hdc => (List.nodup_cons.mp hnd).1 (hdc ▸ hd),
        h d (List.mem_cons_of_mem _ hd)⟩
    show (⟨(s.cells.erase c) \ rest.toFinset, (s.count - 1) - rest.length⟩ :
      Sentence) = _
    have hlen : (((c :: rest).length : ℕ) : ℤ) = (rest.length : ℤ) + 1 := by
      rw [List.length_cons]
      push_cast
      ring
    rw [List.toFinset_cons, Finset.erase_eq, hlen]
    congr 1
    · ext x
      simp only [Finset.mem_sdiff, Finset.mem_singleton, Finset.mem_insert]
      tauto
    · ring

theorem getD_sentence_map {f : Sentence → Sentence} (hfd : f ⟨∅, 0⟩ = ⟨∅, 0⟩)
    (l : List Sentence) (n : ℕ) :
    (l.map f).getD n ⟨∅, 0⟩ = f (l.getD n ⟨∅, 0⟩) := by
  by_cases h : n < l.length
  · rw [List.getD_eq_getElem _ _ (by simpa using h),
      List.getD_eq_getElem _ _ h, List.getElem_map]
  · rw [List.getD_eq_default _ _ (by simpa using (by omega : l.length ≤ n)),
      List.getD_eq_default _ _ (by omega), hfd]

theorem markMineFold_fields (cs : List Cell) (st : SolverState) :
    (cs.foldl (fun t c => t.mark_mine c) st).knowledge =
        st.knowledge.map (fun s => cs.foldl Sentence.mark_mine s) ∧
    (cs.foldl (fun t c => t.mark_mine c) st).mines = st.mines ∪ cs.toFinset ∧
    (cs.foldl (fun t c => t.mark_mine c) st).safes = st.safes ∧
    (cs.foldl (fun t c => t.mark_mine c) st).moves_made = st.moves_made ∧
    (cs.foldl (fun t c => t.mark_mine c) st).width = st.width ∧
    (cs.foldl (fun t c => t.mark_mine c) st).height = st.height ∧
    (cs.foldl (fun t c => t.mark_mine c) st).next_uncertain_move =
      st.next_uncertain_move ∧
    (cs.foldl (fun t c => t.mark_mine c) st).guess_method = st.guess_method ∧
    (cs.foldl (fun t c => t.mark_mine c) st).amount_mines = st.amount_mines := by
  induction cs generalizing st with
  | nil =>
    refine ⟨?_, ?_, rfl, rfl, rfl, rfl, rfl, rfl, rfl⟩
    · show st.knowledge = st.knowledge.map (fun s => s)
      rw [List.map_id']
    · show st.mines = st.mines ∪ ([] : List Cell).toFinset
      rw [List.toFinset_nil, Finset.union_empty]
  | cons c rest ih =>
    obtain ⟨i1, i2, i3, i4, i5, i6, i7, i8, i9⟩ := ih (st.mark_mine c)
    rw [List.foldl_cons]
    refine ⟨?_, ?_, i3, i4, i5, i6, i7, i8, i9⟩
    · rw [i1]
      show (st.knowledge.map (fun s => s.mark_mine c)).map _ = _
      rw [List.map_map]
      rfl
    · rw [i2]
      show insert c st.mines ∪ rest.toFinset = _
      rw [List.toFinset_cons, Finset.insert_union, Finset.union_insert]

theorem markSafeFold_fields (cs : List Cell) (st : SolverState) :
    (cs.foldl (fun t c => t.mark_safe c) st).knowledge =
        st.knowledge.map (fun s => cs.foldl Sentence.mark_safe s) ∧
    (cs.foldl (fun t c => t.mark_safe c) st).safes = st.safes ∪ cs.toFinset ∧
    (cs.foldl (fun t c => t.mark_safe c) st).mines = st.mines ∧
    (cs.foldl (fun t c => t.mark_safe c) st).moves_made = st.moves_made ∧
    (cs.foldl (fun t c => t.mark_safe c) st).width = st.width ∧
    (cs.foldl (fun t c => t.mark_safe c) st).height = st.height ∧
    (cs.foldl (fun t c => t.mark_safe c) st).next_uncertain_move =
      st.next_uncertain_move ∧
    (cs.foldl (fun t c => t.mark_safe c) st).guess_method = st.guess_method ∧
    (cs.foldl (fun t c => t.mark_safe c) st).amount_mines = st.amount_mines := by
  induction cs generalizing st with
  | nil =>
    refine ⟨?_, ?_, rfl, rfl, rfl, rfl, rfl, rfl, rfl⟩
    · show st.knowledge = st.knowledge.map (fun s => s)
      rw [List.map_id']
    · show st.safes = st.safes ∪ ([] : List Cell).toFinset
      rw [List.toFinset_nil, Finset.union_empty]
  | cons c rest ih =>
    obtain ⟨i1, i2, i3, i4, i5, i6, i7, i8, i9⟩ := ih (st.mark_safe c)
    rw [List.foldl_cons]
    refine ⟨?_, ?_, i3, i4, i5, i6, i7, i8, i9⟩
    · rw [i1]
      show (st.knowledge.map (fun s => s.mark_safe c)).map _ = _
      rw [List.map_map]
      rfl
    · rw [i2]
      show insert c st.safes ∪ rest.toFinset = _
      rw [List.toFinset_cons, Finset.insert_union, Finset.union_insert]

theorem inter_count_sound {s1c s2c M : Finset Cell}
    (h : ((s1c ∩ M).card : ℤ) - ((s2c ∩ M).card : ℤ) =
      ((s1c \ s2c).card : ℤ)) :
    (s1c \ s2c) ⊆ M ∧ ((s2c \ s1c) ∩ M) = ∅ := by
  have hA : (s1c ∩ M).card =
      (s1c ∩ s2c ∩ M).card + ((s1c \ s2c) ∩ M).card := by
    rw [← Finset.filter_card_add_filter_neg_card_eq_card
      (p := fun x => x ∈ s2c) (s := s1c ∩ M)]
    congr 1
    · congr 1
      ext x
      simp only [Finset.mem_filter, Finset.mem_inter]
      tauto
    · congr 1
      ext x
      simp only [Finset.mem_filter, Finset.mem_inter, Finset.mem_sdiff]
      tauto
  have hB : (s2c ∩ M).card =
      (s1c ∩ s2c ∩ M).card + ((s2c \ s1c) ∩ M).card := by
    rw [← Finset.filter_card_add_filter_neg_card_eq_card
      (p := fun x => x ∈ s1c) (s := s2c ∩ M)]
    congr 1
    · congr 1
      ext x
      simp only [Finset.mem_filter, Finset.mem_inter]
      tauto
    · congr 1
      ext x
      simp only [Finset.mem_filter, Finset.mem_inter, Finset.mem_sdiff]
      tauto
  have hle : ((s1c \ s2c) ∩ M).card ≤ (s1c \ s2c).card :=
    Finset.card_le_card (Finset.inter_subset_left)
  have hz : ((s2c \ s1c) ∩ M).card = 0 ∧
      ((s1c \ s2c) ∩ M).card = (s1c \ s2c).card := by omega
  constructor
  · intro x hx
    have heq : (s1c \ s2c) ∩ M = s1c \ s2c :=
      Finset.eq_of_subset_of_card_le (Finset.inter_subset_left)
        (le_of_eq hz.2.symm)
    have : x ∈ (s1c \ s2c) ∩ M := heq.symm ▸ hx
    exact (Finset.mem_inter.mp this).2
  · exact Finset.card_eq_zero.mp hz.1

theorem inv_interCore {strat : Strategy} {M : Finset Cell} {st : SolverState}
    (hinv : SolverInv strat M st) (a b : ℕ)
    (hcond : (st.knowledge.getD a ⟨∅, 0⟩).count -
        (st.knowledge.getD b ⟨∅, 0⟩).count =
      (((st.knowledge.getD a ⟨∅, 0⟩).cells \
        (st.knowledge.getD b ⟨∅, 0⟩).cells).card : ℤ))
    (st1 : SolverState)
    (hst1 : st1 = (sortedCells ((st.knowledge.getD a ⟨∅, 0⟩).cells \
      (st.knowledge.getD b ⟨∅, 0⟩).cells)).foldl (fun t c => t.mark_mine c) st)
    (st2 : SolverState)
    (hst2 : st2 = (sortedCells ((st1.knowledge.getD b ⟨∅, 0⟩).cells \
      (st1.knowledge.getD a ⟨∅, 0⟩).cells)).foldl (fun t c => t.mark_safe c) st1) :
    SolverInv strat M { st2 with knowledge := st2.knowledge ++
      [⟨(st2.knowledge.getD a ⟨∅, 0⟩).cells ∩
          (st2.knowledge.getD b ⟨∅, 0⟩).cells,
        (st2.knowledge.getD b ⟨∅, 0⟩).count⟩] } := by
  have OK1 := sentOK_getD hinv.2.2.1 a
  have OK2 := sentOK_getD hinv.2.2.1 b
  obtain ⟨hsub12M, hsub21M⟩ := @inter_count_sound
    (st.knowledge.getD a ⟨∅, 0⟩).cells
    (st.knowledge.getD b ⟨∅, 0⟩).cells M
    (by rw [OK1.1, OK2.1]; exact hcond)
  obtain ⟨k1, m1, sf1, mv1, w1, h1, nu1, gm1, am1⟩ :=
    markMineFold_fields (sortedCells ((st.knowledge.getD a ⟨∅, 0⟩).cells \
      (st.knowledge.getD b ⟨∅, 0⟩).cells)) st
  rw [← hst1] at k1 m1 sf1 mv1 w1 h1 nu1 gm1 am1
  have hinv1 : SolverInv strat M st1 := by
    rw [hst1]
    exact inv_mark_mine_fold hinv
      (fun c hc => hsub12M ((mem_sortedCells _ _).mp hc))
  have hdfltM : (fun s => (sortedCells ((st.knowledge.getD a ⟨∅, 0⟩).cells \
      (st.knowledge.getD b ⟨∅, 0⟩).cells)).foldl Sentence.mark_mine s)
      (⟨∅, 0⟩ : Sentence) = ⟨∅, 0⟩ :=
    sentMarkMineFold_disjoint _ _ (fun c _ => Finset.not_mem_empty c)
  have hga1c : (st1.knowledge.getD a ⟨∅, 0⟩).cells =
      (st.knowledge.getD a ⟨∅, 0⟩).cells ∩ (st.knowledge.getD b ⟨∅, 0⟩).cells := by
    rw [k1, getD_sentence_map hdfltM,
      sentMarkMineFold_subset _ _ (nodup_sortedCells _)
        (fun c hc => (Finset.mem_sdiff.mp ((mem_sortedCells _ _).mp hc)).1)]
    show (st.knowledge.getD a ⟨∅, 0⟩).cells \ _ = _
    rw [toFinset_sortedCells]
    ext x
    simp only [Finset.mem_sdiff, Finset.mem_inter]
    tauto
  have hgb1 : st1.knowledge.getD b ⟨∅, 0⟩ = st.knowledge.getD b ⟨∅, 0⟩ := by
    rw [k1, getD_sentence_map hdfltM]
    exact sentMarkMineFold_disjoint _ _
      (fun c hc => (Finset.mem_sdiff.mp ((mem_sortedCells _ _).mp hc)).2)
  have hsub21 : (st1.knowledge.getD b ⟨∅, 0⟩).cells \
      (st1.knowledge.getD a ⟨∅, 0⟩).cells =
      (st.knowledge.getD b ⟨∅, 0⟩).cells \ (st.knowledge.getD a ⟨∅, 0⟩).cells := by
    rw [hgb1, hga1c]
    ext x
    simp only [Finset.mem_sdiff, Finset.mem_inter]
    tauto
  obtain ⟨k2, sf2, m2, mv2, w2, h2, nu2, gm2, am2⟩ :=
    markSafeFold_fields (sortedCells ((st1.knowledge.getD b ⟨∅, 0⟩).cells \
      (st1.knowledge.getD a ⟨∅, 0⟩).cells)) st1
  rw [← hst2] at k2 sf2 m2 mv2 w2 h2 nu2 gm2 am2
  have hinv2 : SolverInv strat M st2 := by
    rw [hst2]
    refine inv_mark_safe_fold hinv1 ?_
    intro c hc
    rw [mem_sortedCells, hsub21] at hc
    intro hcM
    have : c ∈ ((st.knowledge.getD b ⟨∅, 0⟩).cells \
        (st.knowledge.getD a ⟨∅, 0⟩).cells) ∩ M := Finset.mem_inter.mpr ⟨hc, hcM⟩
    rw [hsub21M] at this
    exact Finset.not_mem_empty c this
  have hdfltS : (fun s => (sortedCells ((st1.knowledge.getD b ⟨∅, 0⟩).cells \
      (st1.knowledge.getD a ⟨∅, 0⟩).cells)).foldl Sentence.mark_safe s)
      (⟨∅, 0⟩ : Sentence) = ⟨∅, 0⟩ := by
    show (sortedCells ((st1.knowledge.getD b ⟨∅, 0⟩).cells \
      (st1.knowledge.getD a ⟨∅, 0⟩).cells)).foldl Sentence.mark_safe
        (⟨∅, 0⟩ : Sentence) = ⟨∅, 0⟩
    rw [sentMarkSafeFold]
    show (⟨∅ \ _, 0⟩ : Sentence) = _
    rw [Finset.empty_sdiff]
  have hga2c : (st2.knowledge.getD a ⟨∅, 0⟩).cells =
      (st.knowledge.getD a ⟨∅, 0⟩).cells ∩ (st.knowledge.getD b ⟨∅, 0⟩).cells := by
    rw [k2, getD_sentence_map hdfltS, sentMarkSafeFold]
    show (st1.knowledge.getD a ⟨∅, 0⟩).cells \ _ = _
    rw [toFinset_sortedCells, hsub21, hga1c]
    ext x
    simp only [Finset.mem_sdiff, Finset.mem_inter]
    tauto
  have hgb2 : (st2.knowledge.getD b ⟨∅, 0⟩).cells =
        (st.knowledge.getD a ⟨∅, 0⟩).cells ∩
          (st.knowledge.getD b ⟨∅, 0⟩).cells ∧
      (st2.knowledge.getD b ⟨∅, 0⟩).count =
        (st.knowledge.getD b ⟨∅, 0⟩).count := by
    rw [k2, getD_sentence_map hdfltS, sentMarkSafeFold]
    constructor
    · show (st1.knowledge.getD b ⟨∅, 0⟩).cells \ _ = _
      rw [toFinset_sortedCells, hsub21, hgb1]
      ext x
      simp only [Finset.mem_sdiff, Finset.mem_inter]
      tauto
    · show (st1.knowledge.getD b ⟨∅, 0⟩).count = _
      rw [hgb1]
  refine inv_set_knowledge hinv2 ?_
  intro s hs
  rcases List.mem_append.mp hs with h | h
  · exact hinv2.2.2.1 s h
  · rw [List.mem_singleton] at h
    subst h
    have hcells : (st2.knowledge.getD a ⟨∅, 0⟩).cells ∩
        (st2.knowledge.getD b ⟨∅, 0⟩).cells =
        (st.knowledge.getD a ⟨∅, 0⟩).cells ∩
          (st.knowledge.getD b ⟨∅, 0⟩).cells := by
      rw [hga2c, hgb2.1, Finset.inter_self]
    have hinterM : ((st.knowledge.getD a ⟨∅, 0⟩).cells ∩
        (st.knowledge.getD b ⟨∅, 0⟩).cells) ∩ M =
        (st.knowledge.getD b ⟨∅, 0⟩).cells ∩ M := by
      ext x
      simp only [Finset.mem_inter]
      constructor
      · rintro ⟨⟨_, h2⟩, hM⟩
        exact ⟨h2, hM⟩
      · rintro ⟨h2, hM⟩
        refine ⟨⟨?_, h2⟩, hM⟩
        by_contra hx1
        have : x ∈ ((st.knowledge.getD b ⟨∅, 0⟩).cells \
            (st.knowledge.getD a ⟨∅, 0⟩).cells) ∩ M :=
          Finset.mem_inter.mpr ⟨Finset.mem_sdiff.mpr ⟨h2, hx1⟩, hM⟩
        rw [hsub21M] at this
        exact Finset.not_mem_empty x this
    refine ⟨?_, ?_, ?_⟩
    · show ((_ ∩ M).card : ℤ) = _
      rw [hcells, hgb2.2, hinterM]
      exact OK2.1
    · intro c hc
      rw [hcells] at hc
      rw [w2, w1, h2, h1]
      exact OK2.2.1 c (Finset.mem_inter.mp hc).2
    · intro c hc
      rw [hcells, Finset.mem_inter] at hc
      constructor
      · rw [m2, m1]
        show c ∉ st.mines ∪ _
        rw [toFinset_sortedCells, Finset.mem_union]
        push_neg
        exact ⟨(OK2.2.2 c hc.2).1,
          fun hx => (Finset.mem_sdiff.mp hx).2 hc.2⟩
      · rw [sf2, sf1]
        show c ∉ st.safes ∪ _
        rw [toFinset_sortedCells, hsub21, Finset.mem_union]
        push_neg
        exact ⟨(OK2.2.2 c hc.2).2,
          fun hx => (Finset.mem_sdiff.mp hx).2 hc.1⟩

theorem inv_intersectionPairStep {strat : Strategy} {M : Finset Cell}
    {acc : SolverState × Finset ℕ} (hinv : SolverInv strat M acc.1)
    (i j : ℕ) : SolverInv strat M (intersectionPairStep acc i j).1 := by
  unfold intersectionPairStep
  simp only []
  by_cases horder : (acc.1.knowledge.getD i ⟨∅, 0⟩).count ≥
      (acc.1.knowledge.getD j ⟨∅, 0⟩).count
  · simp only [if_pos horder]
    split
    · next hc => exact inv_interCore hinv i j hc _ rfl _ rfl
    · exact hinv
  · simp only [if_neg horder]
    split
    · next hc => exact inv_interCore hinv j i hc _ rfl _ rfl
    · exact hinv

theorem inv_add_intersection {strat : Strategy} {M : Finset Cell}
    {st : SolverState} (hinv : SolverInv strat M st) :
    SolverInv strat M st.add_intersection_sentence := by
  unfold SolverState.add_intersection_sentence
  simp only []
  have hr : SolverInv strat M
      ((List.range (st.knowledge.length - 1)).foldl
        (fun (acc : SolverState × Finset ℕ) (i : ℕ) =>
          (List.range' (i + 1) (acc.1.knowledge.length - (i + 1))).foldl
            (fun acc2 j => intersectionPairStep acc2 i j) acc)
        (st, (∅ : Finset ℕ))).1 := by
    refine foldl_preserve
      (fun (acc : SolverState × Finset ℕ) => SolverInv strat M acc.1)
      _ _ _ hinv ?_
    intro acc i _ hacc
    exact foldl_preserve
      (fun (acc2 : SolverState × Finset ℕ) => SolverInv strat M acc2.1)
      _ _ acc hacc
      (fun acc2 j _ hacc2 => inv_intersectionPairStep hacc2 i j)
  refine inv_set_knowledge hr ?_
  intro s hs
  refine hr.2.2.1 s ?_
  revert hs
  refine foldl_preserve
    (fun (kn : List Sentence) => s ∈ kn →
      s ∈ ((List.range (st.knowledge.length - 1)).foldl
        (fun (acc : SolverState × Finset ℕ) (i : ℕ) =>
          (List.range' (i + 1) (acc.1.knowledge.length - (i + 1))).foldl
            (fun acc2 j => intersectionPairStep acc2 i j) acc)
        (st, (∅ : Finset ℕ))).1.knowledge)
    _ _ _ (fun h => h) ?_
  intro kn p _ hmem hs
  exact hmem (List.mem_of_mem_eraseIdx hs)

theorem inv_add_knowledge_probability {strat : Strategy} {M : Finset Cell}
    {st : SolverState} {cell : Cell} (hinv : SolverInv strat M st)
    (hcM : cell ∉ M) (hcg : inSolverGrid st cell) :
    SolverInv strat M
      (add_knowledge_probability st cell ((trueClueCount M cell : ℕ) : ℤ)) := by
  unfold add_knowledge_probability
  simp only []
  split
  · exact inv_add_knowledge_base hinv hcM hcg
  · exact inv_remove_dup (inv_remove_null (inv_check_sentence
      (inv_add_sentence (inv_add_knowledge_base hinv hcM hcg))))

theorem inv_add_knowledge_setbased {strat : Strategy} {M : Finset Cell}
    {st : SolverState} {cell : Cell} (hinv : SolverInv strat M st)
    (hcM : cell ∉ M) (hcg : inSolverGrid st cell) :
    SolverInv strat M
      (add_knowledge_setbased st cell ((trueClueCount M cell : ℕ) : ℤ)) := by
  unfold add_knowledge_setbased
  simp only []
  split
  · exact inv_add_knowledge_base hinv hcM hcg
  · exact inv_add_intersection (inv_remove_null (inv_check_sentence
      (inv_add_complement (inv_remove_null
        (inv_add_sentence (inv_add_knowledge_base hinv hcM hcg))))))

theorem inv_add_knowledge {strat : Strategy} {M : Finset Cell}
    {st : SolverState} {cell : Cell} (hinv : SolverInv strat M st)
    (hcM : cell ∉ M) (hcg : inSolverGrid st cell) :
    SolverInv strat M
      (add_knowledge strat st cell ((trueClueCount M cell : ℕ) : ℤ)) := by
  cases strat with
  | genConfig => exact inv_add_knowledge_probability hinv hcM hcg
  | probTheory => exact inv_add_knowledge_probability hinv hcM hcg
  | setBased => exact inv_add_knowledge_setbased hinv hcM hcg

theorem configs_complete (M : Finset Cell) : ∀ (kn : List Sentence)
    (poss : Multiset (Finset Cell)) (invalid : Finset Cell),
    (∀ s ∈ kn, ((s.cells ∩ M).card : ℤ) = s.count) →
    (M ∩ invalid) ∈ poss →
    (M ∩ (kn.foldl (fun a s => a ∪ s.cells) invalid)) ∈
      configsAux kn poss invalid := by
  intro kn
  induction kn with
  | nil =>
    intro poss invalid _ hmem
    exact hmem
  | cons s rest ih =>
    intro poss invalid htruth hmem
    rw [List.foldl_cons]
    show _ ∈ configsAux rest (poss.bind (configStep invalid s)) (invalid ∪ s.cells)
    refine ih (poss.bind (configStep invalid s)) (invalid ∪ s.cells)
      (fun t ht => htruth t (List.mem_cons_of_mem _ ht)) ?_
    rw [Multiset.mem_bind]
    refine ⟨M ∩ invalid, hmem, ?_⟩
    unfold configStep
    simp only []
    have hints : s.cells ∩ (M ∩ invalid) = (s.cells ∩ M) ∩ invalid := by
      ext x
      simp only [Finset.mem_inter]
      tauto
    have hchoice : ((s.cells ∩ M) \ invalid).card =
        (s.cells ∩ M).card - ((s.cells ∩ M) ∩ invalid).card := by
      have : (s.cells ∩ M) \ invalid = (s.cells ∩ M) \ ((s.cells ∩ M) ∩ invalid) := by
        ext x
        simp only [Finset.mem_sdiff, Finset.mem_inter]
        tauto
      rw [this, Finset.card_sdiff (Finset.inter_subset_left)]
    have hcardle : ((s.cells ∩ M) ∩ invalid).card ≤ (s.cells ∩ M).card :=
      Finset.card_le_card (Finset.inter_subset_left)
    have hmiss : s.count - ((s.cells ∩ (M ∩ invalid)).card : ℤ) =
        (((s.cells ∩ M) \ invalid).card : ℤ) := by
      rw [hints, ← htruth s (List.mem_cons_self _ _), hchoice]
      omega
    rw [hmiss]
    have hnn : ¬ ((((s.cells ∩ M) \ invalid).card : ℤ) < 0) :=
      not_lt.mpr (Int.natCast_nonneg _)
    rw [if_neg hnn]
    rw [Multiset.mem_map]
    refine ⟨(s.cells ∩ M) \ invalid, ?_, ?_⟩
    · rw [Finset.mem_val, Finset.mem_powersetCard]
      constructor
      · intro x hx
        rw [Finset.mem_sdiff] at hx ⊢
        exact ⟨(Finset.mem_inter.mp hx.1).1, hx.2⟩
      · rw [Int.toNat_ofNat]
    · ext x
      simp only [Finset.mem_union, Finset.mem_inter, Finset.mem_sdiff]
      tauto

theorem trueCfg_mem (M : Finset Cell) (kn : List Sentence)
    (htruth : ∀ s ∈ kn, ((s.cells ∩ M).card : ℤ) = s.count) :
    (M ∩ mentionedCells kn) ∈ possibleConfigurations kn := by
  have h := configs_complete M kn {∅} ∅ htruth
    (by rw [Finset.inter_empty]; exact Multiset.mem_singleton_self _)
  exact h

theorem hist_facts (M : Finset Cell) (kn : List Sentence)
    (htruth : ∀ s ∈ kn, ((s.cells ∩ M).card : ℤ) = s.count) (c : Cell)
    (hc : c ∈ mentionedCells kn) :
    (histCount (possibleConfigurations kn) c = 0 → c ∉ M) ∧
    (histCount (possibleConfigurations kn) c =
      Multiset.card (possibleConfigurations kn) → c ∈ M) ∧
    0 < Multiset.card (possibleConfigurations kn) := by
  have htc := trueCfg_mem M kn htruth
  refine ⟨?_, ?_, ?_⟩
  · intro h0 hcM
    have hmemf : (M ∩ mentionedCells kn) ∈
        (possibleConfigurations kn).filter (fun cfg => c ∈ cfg) :=
      Multiset.mem_filter.mpr ⟨htc, Finset.mem_inter.mpr ⟨hcM, hc⟩⟩
    have : 0 < histCount (possibleConfigurations kn) c := by
      unfold histCount
      exact Multiset.card_pos_iff_exists_mem.mpr ⟨_, hmemf⟩
    omega
  · intro hT
    have hfle : (possibleConfigurations kn).filter (fun cfg => c ∈ cfg) ≤
        possibleConfigurations kn := Multiset.filter_le _ _
    have hfeq : (possibleConfigurations kn).filter (fun cfg => c ∈ cfg) =
        possibleConfigurations kn :=
      Multiset.eq_of_le_of_card_le hfle (le_of_eq hT.symm)
    have : (M ∩ mentionedCells kn) ∈
        (possibleConfigurations kn).filter (fun cfg => c ∈ cfg) := by
      rw [hfeq]
      exact htc
    have := (Multiset.mem_filter.mp this).2
    exact (Finset.mem_inter.mp (by simpa using this)).1
  · exact Multiset.card_pos_iff_exists_mem.mpr ⟨_, htc⟩

theorem inv_genconfig_mark {strat : Strategy} {M : Finset Cell}
    {st : SolverState} (hinv : SolverInv strat M st) :
    SolverInv strat M (genConfigMarkLoop (possibleConfigurations st.knowledge)
      (keyList st.knowledge) st).1 := by
  unfold genConfigMarkLoop
  refine foldl_preserve
    (fun (acc : SolverState × Bool) => SolverInv strat M acc.1) _ _ _ hinv ?_
  intro acc c hc hacc
  have hcm : c ∈ mentionedCells st.knowledge := (mem_keyList _ _).mp hc
  have hf := hist_facts M st.knowledge (fun s hs => (hinv.2.2.1 s hs).1) c hcm
  by_cases h0 : histCount (possibleConfigurations st.knowledge) c = 0
  · rw [if_pos h0]
    exact inv_mark_safe hacc (hf.1 h0)
  · rw [if_neg h0]
    by_cases hT : histCount (possibleConfigurations st.knowledge) c =
        Multiset.card (possibleConfigurations st.knowledge)
    · rw [if_pos hT]
      exact inv_mark_mine hacc (hf.2.1 hT)
    · rw [if_neg hT]
      exact hacc

theorem genConfigMarkLoop_fields (poss : Multiset (Finset Cell))
    (keys : List Cell) (st : SolverState) :
    (genConfigMarkLoop poss keys st).2 =
        keys.any (fun c => decide (histCount poss c = 0)) ∧
    (genConfigMarkLoop poss keys st).1.safes = st.safes ∪
      (keys.filter (fun c => decide (histCount poss c = 0))).toFinset ∧
    (genConfigMarkLoop poss keys st).1.mines = st.mines ∪
      (keys.filter (fun c => decide (¬ histCount poss c = 0 ∧
        histCount poss c = Multiset.card poss))).toFinset ∧
    (genConfigMarkLoop poss keys st).1.moves_made = st.moves_made ∧
    (genConfigMarkLoop poss keys st).1.next_uncertain_move =
      st.next_uncertain_move := by
  obtain ⟨f1, f2, f3, f4, f5⟩ := genConfigMarkFold poss keys st false
  exact ⟨f1.trans (Bool.false_or _), f2, f3, f4, f5⟩

theorem genConfigMarkLoop_core (poss : Multiset (Finset Cell))
    (keys : List Cell) (st : SolverState) :
    (genConfigMarkLoop poss keys st).1.width = st.width ∧
    (genConfigMarkLoop poss keys st).1.height = st.height ∧
    (genConfigMarkLoop poss keys st).1.amount_mines = st.amount_mines ∧
    (genConfigMarkLoop poss keys st).1.guess_method = st.guess_method := by
  unfold genConfigMarkLoop
  refine foldl_preserve (fun (acc : SolverState × Bool) =>
    acc.1.width = st.width ∧ acc.1.height = st.height ∧
    acc.1.amount_mines = st.amount_mines ∧
    acc.1.guess_method = st.guess_method) _ _ _ ⟨rfl, rfl, rfl, rfl⟩ ?_
  intro acc c _ hacc
  by_cases h0 : histCount poss c = 0
  · rw [if_pos h0]
    exact hacc
  · rw [if_neg h0]
    by_cases hT : histCount poss c = Multiset.card poss
    · rw [if_pos hT]
      exact hacc
    · rw [if_neg hT]
      exact hacc

theorem inv_set_num {strat : Strategy} {M : Finset Cell} {st : SolverState}
    (hinv : SolverInv strat M st) (nu : Option Cell)
    (hN : ¬ (strat = Strategy.setBased ∧ ¬ st.guess_method = 1 ∧
      ¬ st.guess_method = 2)) :
    SolverInv strat M { st with next_uncertain_move := nu } := by
  obtain ⟨h1, h2, h3, h4, h5, h6, _⟩ := hinv
  exact ⟨h1, h2, h3, h4, h5, h6, fun hpre => absurd hpre hN⟩

theorem inv_analyze_genconfig {strat : Strategy} {M : Finset Cell}
    {st st1 : SolverState} (hinv : SolverInv strat M st)
    (hN : ¬ (strat = Strategy.setBased ∧ ¬ st.guess_method = 1 ∧
      ¬ st.guess_method = 2))
    (h : analyze_knowledge_genconfig st = some st1) :
    SolverInv strat M st1 ∧ st1.moves_made = st.moves_made ∧
    st1.width = st.width ∧ st1.height = st.height := by
  unfold analyze_knowledge_genconfig at h
  simp only [] at h
  split at h
  · cases Option.some_inj.mp h
    exact ⟨hinv, rfl, rfl, rfl⟩
  · split at h
    · cases Option.some_inj.mp h
      obtain ⟨_, _, _, f4, _⟩ := genConfigMarkLoop_fields
        (possibleConfigurations st.knowledge) (keyList st.knowledge) st
      obtain ⟨c1, c2, _, _⟩ := genConfigMarkLoop_core
        (possibleConfigurations st.knowledge) (keyList st.knowledge) st
      exact ⟨inv_genconfig_mark hinv, f4, c1, c2⟩
    · rcases Option.bind_eq_some.mp h with ⟨best, hbest, h2⟩
      split at h2
      · exact absurd h2 (by simp)
      · obtain ⟨nu, rfl⟩ := choose_uncertain_move_shape _ _ _ _ _ h2
        obtain ⟨_, _, _, f4, _⟩ := genConfigMarkLoop_fields
          (possibleConfigurations st.knowledge) (keyList st.knowledge) st
        obtain ⟨c1, c2, _, c4⟩ := genConfigMarkLoop_core
          (possibleConfigurations st.knowledge) (keyList st.knowledge) st
        refine ⟨?_, f4, c1, c2⟩
        refine inv_set_num (inv_genconfig_mark hinv) nu ?_
        intro hpre
        rw [c4] at hpre
        exact hN hpre

theorem inv_analyze_probtheory {strat : Strategy} {M : Finset Cell}
    {st st1 : SolverState} (hinv : SolverInv strat M st)
    (hN : ¬ (strat = Strategy.setBased ∧ ¬ st.guess_method = 1 ∧
      ¬ st.guess_method = 2))
    (h : analyze_knowledge_probtheory st = some st1) :
    SolverInv strat M st1 ∧ st1.moves_made = st.moves_made ∧
    st1.width = st.width ∧ st1.height = st.height := by
  unfold analyze_knowledge_probtheory at h
  simp only [] at h
  split at h
  · cases Option.some_inj.mp h
    exact ⟨hinv, rfl, rfl, rfl⟩
  · rw [probTheoryMarkLoop_id] at h
    split at h
    · next hflag => exact absurd hflag Bool.false_ne_true
    · rcases Option.bind_eq_some.mp h with ⟨f2, _, h2⟩
      rcases Option.bind_eq_some.mp h2 with ⟨best, _, h3⟩
      obtain ⟨nu, rfl⟩ := choose_uncertain_move_shape _ _ _ _ _ h3
      exact ⟨inv_set_num hinv nu hN, rfl, rfl, rfl⟩

theorem inv_analyze_setbased {strat : Strategy} {M : Finset Cell}
    {st st1 : SolverState} (hinv : SolverInv strat M st)
    (h : analyze_knowledge_setbased st = some st1) :
    SolverInv strat M st1 ∧ st1.moves_made = st.moves_made ∧
    st1.width = st.width ∧ st1.height = st.height := by
  unfold analyze_knowledge_setbased at h
  simp only [] at h
  have hrn : SolverInv strat M st.remove_null_sentence := inv_remove_null hinv
  split at h
  · next hgm =>
    have hres := inv_analyze_genconfig hrn (fun hpre => hpre.2.1 hgm) h
    exact ⟨hres.1, hres.2.1, hres.2.2.1, hres.2.2.2⟩
  · split at h
    · next hgm =>
      have hres := inv_analyze_probtheory hrn (fun hpre => hpre.2.2 hgm) h
      exact ⟨hres.1, hres.2.1, hres.2.2.1, hres.2.2.2⟩
    · cases Option.some_inj.mp h
      exact ⟨hrn, rfl, rfl, rfl⟩

theorem inv_analyze {strat : Strategy} {M : Finset Cell}
    {st st1 : SolverState} (hinv : SolverInv strat M st)
    (h : analyze_knowledge strat st = some st1) :
    SolverInv strat M st1 ∧ st1.moves_made = st.moves_made ∧
    st1.width = st.width ∧ st1.height = st.height := by
  cases strat with
  | genConfig =>
    exact inv_analyze_genconfig hinv (fun hpre => by cases hpre.1) h
  | probTheory =>
    exact inv_analyze_probtheory hinv (fun hpre => by cases hpre.1) h
  | setBased => exact inv_analyze_setbased hinv h

theorem inv_make_move {strat : Strategy} {M : Finset Cell}
    {st : SolverState} {mv : Option Cell} {act : ℤ} {st2 : SolverState}
    (hinv : SolverInv strat M st)
    (h : make_move strat st = some (mv, act, st2)) :
    SolverInv strat M st2 := by
  unfold make_move at h
  simp only [] at h
  split at h
  · next m hfind =>
    have hmmine : m ∈ st.mines :=
      (mem_sortedCells _ _).mp (List.mem_of_find?_eq_some hfind)
    have hp := Option.some_inj.mp h
    have hst2 : st2 = { st with moves_made := insert m st.moves_made } :=
      (congrArg (fun t => t.2.2) hp).symm
    subst hst2
    obtain ⟨h1, h2, h3, h4, h5, h6, h7⟩ := hinv
    refine ⟨h1, h2, h3, h4, h5, ?_, h7⟩
    intro d hd
    rcases Finset.mem_insert.mp hd with rfl | hd
    · exact ⟨Or.inr hmmine, h2 d (h4 hmmine)⟩
    · exact h6 d hd
  · rcases Option.bind_eq_some.mp h with ⟨st1, h1, h2⟩
    have hinv1 : SolverInv strat M st1 := by
      split at h1
      · exact (inv_analyze hinv h1).1
      · cases Option.some_inj.mp h1
        exact hinv
    split at h2
    · cases Option.some_inj.mp h2
      exact hinv1
    · have hp := Option.some_inj.mp h2
      have hst2 : st2 = { st1 with guess := st1.guess + 1 } :=
        (congrArg (fun t => t.2.2) hp).symm
      subst hst2
      exact hinv1

theorem reachable_inv {strat : Strategy} {M : Finset Cell}
    {st : SolverState} (h : GameReachable strat M st) :
    SolverInv strat M st := by
  induction h with
  | init w ht am gm hM hMg =>
    refine ⟨hM, hMg, ?_, ?_, ?_, ?_, fun _ => rfl⟩
    · intro s hs
      exact absurd hs (List.not_mem_nil s)
    · exact Finset.empty_subset M
    · intro c hc
      exact absurd hc (Finset.not_mem_empty c)
    · intro c hc
      exact absurd hc (Finset.not_mem_empty c)
  | stepKnowledge st cell hst hcg hcM ih => exact inv_add_knowledge ih hcM hcg
  | stepMove st mv act st2 hst hmv ih => exact inv_make_move ih hmv

theorem histCount_le (poss : Multiset (Finset Cell)) (c : Cell) :
    histCount poss c ≤ Multiset.card poss :=
  Multiset.card_le_card (Multiset.filter_le _ _)

theorem histCount_lt {poss : Multiset (Finset Cell)} {t : Finset Cell}
    {c : Cell} (ht : t ∈ poss) (hc : c ∉ t) :
    histCount poss c < Multiset.card poss := by
  rcases Nat.lt_or_ge (histCount poss c) (Multiset.card poss) with h | h
  · exact h
  · exfalso
    have heq : poss.filter (fun cfg => c ∈ cfg) = poss :=
      Multiset.eq_of_le_of_card_le (Multiset.filter_le _ _) h
    rw [← heq] at ht
    exact hc (Multiset.mem_filter.mp ht).2

theorem make_safe_move_eq_none (st : SolverState) :
    st.make_safe_move = none ↔ st.safes \ st.moves_made = ∅ := by
  unfold SolverState.make_safe_move
  rw [List.head?_eq_none_iff, sortedCells_eq_nil]

theorem make_safe_move_mem {st : SolverState} {c : Cell}
    (h : st.make_safe_move = some c) :
    c ∈ st.safes ∧ c ∉ st.moves_made := by
  unfold SolverState.make_safe_move at h
  rcases hl : sortedCells (st.safes \ st.moves_made) with _ | ⟨a, t⟩
  · rw [hl] at h
    exact absurd h (by simp)
  · rw [hl] at h
    have hac : a = c := by simpa using h
    have hmem : c ∈ sortedCells (st.safes \ st.moves_made) := by
      rw [hl, hac]
      exact List.mem_cons_self _ _
    exact Finset.mem_sdiff.mp ((mem_sortedCells _ _).mp hmem)

theorem gridScan_congr {st1 st2 : SolverState} (hw : st1.width = st2.width)
    (hh : st1.height = st2.height) : st1.gridScan = st2.gridScan := by
  unfold SolverState.gridScan
  rw [hw, hh]

theorem genConfigMarkLoop_knowledge_len (poss : Multiset (Finset Cell))
    (keys : List Cell) (st : SolverState) :
    (genConfigMarkLoop poss keys st).1.knowledge.length =
      st.knowledge.length := by
  unfold genConfigMarkLoop
  refine foldl_preserve (fun (acc : SolverState × Bool) =>
    acc.1.knowledge.length = st.knowledge.length) _ _ _ rfl ?_
  intro acc c _ hacc
  by_cases h0 : histCount poss c = 0
  · rw [if_pos h0]
    show (acc.1.knowledge.map _).length = _
    rw [List.length_map]
    exact hacc
  · rw [if_neg h0]
    by_cases hT : histCount poss c = Multiset.card poss
    · rw [if_pos hT]
      show (acc.1.knowledge.map _).length = _
      rw [List.length_map]
      exact hacc
    · rw [if_neg hT]
      exact hacc

theorem mentioned_not_marked {strat : Strategy} {M : Finset Cell}
    {st : SolverState} (hinv : SolverInv strat M st) {c : Cell}
    (hc : c ∈ mentionedCells st.knowledge) :
    inSolverGrid st c ∧ c ∉ st.mines ∧ c ∉ st.safes ∧ c ∉ st.moves_made := by
  rcases (mem_mentionedCells _ _).mp hc with ⟨s, hs, hcs⟩
  have hok := hinv.2.2.1 s hs
  have hms := hok.2.2 c hcs
  refine ⟨hok.2.1 c hcs, hms.1, hms.2, ?_⟩
  intro hmv
  rcases (hinv.2.2.2.2.2.1 c hmv).1 with h | h
  · exact hms.2 h
  · exact hms.1 h

theorem unknown_tile_card {strat : Strategy} {M : Finset Cell}
    {st : SolverState} (hinv : SolverInv strat M st) {u : Cell}
    (hu : inSolverGrid st u) :
    st.height * st.width - (st.moves_made.card : ℤ) =
      ((solverGridCells st \ st.moves_made).card : ℤ) := by
  have hmv : st.moves_made ⊆ solverGridCells st := by
    intro c hc
    exact (mem_solverGridCells st c).mpr (hinv.2.2.2.2.2.1 c hc).2
  rw [Finset.card_sdiff hmv, card_solverGridCells]
  have hw : 0 < st.width := lt_of_le_of_lt hu.1 hu.2.1
  have hh : 0 < st.height := lt_of_le_of_lt hu.2.2.1 hu.2.2.2
  have hcard : st.moves_made.card ≤ st.width.toNat * st.height.toNat := by
    have := Finset.card_le_card hmv
    rwa [card_solverGridCells] at this
  have hwh : ((st.width.toNat * st.height.toNat : ℕ) : ℤ) =
      st.height * st.width := by
    push_cast
    rw [Int.toNat_of_nonneg (le_of_lt hw), Int.toNat_of_nonneg (le_of_lt hh)]
    ring
  rw [Nat.cast_sub hcard, hwh]

theorem scan_none_mentioned {strat : Strategy} {M : Finset Cell}
    {st : SolverState} (hinv : SolverInv strat M st)
    (hscan : ∀ c ∈ st.gridScan,
      ¬ (c ∉ st.moves_made ∧ c ∉ mentionedCells st.knowledge)) :
    solverGridCells st \ st.moves_made = mentionedCells st.knowledge := by
  apply Finset.Subset.antisymm
  · intro c hc
    rcases Finset.mem_sdiff.mp hc with ⟨hcg, hcmv⟩
    have hgs : c ∈ st.gridScan :=
      (mem_gridScan st c).mpr ((mem_solverGridCells st c).mp hcg)
    by_contra hcm
    exact hscan c hgs ⟨hcmv, hcm⟩
  · intro c hc
    have h := mentioned_not_marked hinv hc
    exact Finset.mem_sdiff.mpr ⟨(mem_solverGridCells st c).mpr h.1, h.2.2.2⟩

theorem uncertain_nil_safe {strat : Strategy} {M : Finset Cell}
    {st : SolverState} (hinv : SolverInv strat M st) {u : Cell}
    (hu : inSolverGrid st u) (huM : u ∉ M) (humv : u ∉ st.moves_made)
    (hknil : st.knowledge = []) {c : Cell}
    (hmu : st.make_uncertain_move = some c) : c ∉ st.mines := by
  unfold SolverState.make_uncertain_move at hmu
  rw [if_pos hknil] at hmu
  rcases hf : List.find? (fun c => decide (c ∉ st.moves_made ∧ c ∉ st.mines))
      st.gridScan with _ | c'
  · exfalso
    have hnp := List.find?_eq_none.mp hf u ((mem_gridScan st u).mpr hu)
    simp only [decide_eq_true_eq] at hnp
    exact hnp ⟨humv, fun hm => huM (hinv.2.2.2.1 hm)⟩
  · rw [hf] at hmu
    have hc' : c' = c := by simpa using hmu
    have hp := List.find?_some hf
    simp only [decide_eq_true_eq] at hp
    rw [← hc']
    exact hp.2

theorem minByKeyQ_mem {α : Type} (f : α → ℚ) (k : α) (ks : List α) :
    minByKeyQ f k ks ∈ k :: ks := by
  induction ks generalizing k with
  | nil => exact List.mem_singleton.mpr rfl
  | cons a rest ih =>
    rw [minByKeyQ, List.foldl_cons]
    by_cases h : f a < f k
    · rw [if_pos h]
      rcases List.mem_cons.mp (ih a) with he | hm2
      · exact List.mem_cons_of_mem _ (List.mem_cons.mpr (Or.inl he))
      · exact List.mem_cons_of_mem _ (List.mem_cons_of_mem _ hm2)
    · rw [if_neg h]
      rcases List.mem_cons.mp (ih k) with he | hm2
      · exact List.mem_cons.mpr (Or.inl he)
      · exact List.mem_cons_of_mem _ (List.mem_cons_of_mem _ hm2)

theorem est_lt_one {strat : Strategy} {M : Finset Cell} {st : SolverState}
    (hinv : SolverInv strat M st) {u : Cell}
    (hu : inSolverGrid st u) (huM : u ∉ M) (humv : u ∉ st.moves_made)
    {mines1 : Finset Cell} (hm1sub : mines1 ⊆ M) (hstm1 : st.mines ⊆ mines1) :
    ((st.amount_mines - (mines1.card : ℤ) : ℤ) : ℚ) /
      ((st.height * st.width - (st.moves_made.card : ℤ) : ℤ) : ℚ) < 1 := by
  have hue : u ∈ solverGridCells st \ st.moves_made :=
    Finset.mem_sdiff.mpr ⟨(mem_solverGridCells st u).mpr hu, humv⟩
  have h4 : M \ mines1 ⊆ (solverGridCells st \ st.moves_made).erase u := by
    intro m hm
    rcases Finset.mem_sdiff.mp hm with ⟨hmM, hmm1⟩
    refine Finset.mem_erase.mpr
      ⟨fun he => huM (he ▸ hmM), Finset.mem_sdiff.mpr ⟨?_, ?_⟩⟩
    · exact (mem_solverGridCells st m).mpr (hinv.2.1 m hmM)
    · intro hmv
      rcases (hinv.2.2.2.2.2.1 m hmv).1 with h | h
      · exact (hinv.2.2.2.2.1 m h) hmM
      · exact hmm1 (hstm1 h)
  have hlt : (M \ mines1).card < (solverGridCells st \ st.moves_made).card :=
    lt_of_le_of_lt (Finset.card_le_card h4) (Finset.card_erase_lt_of_mem hue)
  have hum : st.amount_mines - (mines1.card : ℤ) = ((M \ mines1).card : ℤ) := by
    have h1 := hinv.1
    have h2 : (M \ mines1).card = M.card - mines1.card :=
      Finset.card_sdiff hm1sub
    have h3 : mines1.card ≤ M.card := Finset.card_le_card hm1sub
    omega
  have hut := unknown_tile_card hinv hu
  rw [hum, hut]
  rw [div_lt_one (by exact_mod_cast Finset.card_pos.mpr ⟨u, hue⟩)]
  exact_mod_cast hlt

theorem genconfig_uncertain_safe {strat : Strategy} {M : Finset Cell}
    {st st1 : SolverState} (hinv : SolverInv strat M st) {u : Cell}
    (hu : inSolverGrid st u) (huM : u ∉ M) (humv : u ∉ st.moves_made)
    (hflagged : st.mines ⊆ st.moves_made)
    (ha : analyze_knowledge_genconfig st = some st1)
    (hsn : st1.make_safe_move = none) {c : Cell}
    (hmu : st1.make_uncertain_move = some c) : c ∉ st1.mines := by
  have htruth : ∀ s ∈ st.knowledge, ((s.cells ∩ M).card : ℤ) = s.count :=
    fun s hs => (hinv.2.2.1 s hs).1
  unfold analyze_knowledge_genconfig at ha
  simp only [] at ha
  split at ha
  · next hknil =>
    cases Option.some_inj.mp ha
    exact uncertain_nil_safe hinv hu huM humv hknil hmu
  · next hkn =>
    obtain ⟨hflagE, hsafesE, hminesE, hmvE, hnuE⟩ :=
      genConfigMarkLoop_fields (possibleConfigurations st.knowledge)
        (keyList st.knowledge) st
    obtain ⟨hwE, hhE, hamE, hgmE⟩ :=
      genConfigMarkLoop_core (possibleConfigurations st.knowledge)
        (keyList st.knowledge) st
    have hklenE := genConfigMarkLoop_knowledge_len
      (possibleConfigurations st.knowledge) (keyList st.knowledge) st
    generalize hGmk : genConfigMarkLoop (possibleConfigurations st.knowledge)
      (keyList st.knowledge) st = mk at ha hflagE hsafesE hminesE hmvE hnuE hwE hhE hamE hgmE hklenE
    split at ha
    · next hflag =>
      exfalso
      have hst1 := Option.some_inj.mp ha
      rw [← hst1, make_safe_move_eq_none,
        Finset.eq_empty_iff_forall_not_mem] at hsn
      rw [hflagE] at hflag
      rcases List.any_eq_true.mp hflag with ⟨s0, hs0k, hs0d⟩
      have hs0m : s0 ∈ mentionedCells st.knowledge := (mem_keyList _ _).mp hs0k
      have hnm := mentioned_not_marked hinv hs0m
      refine hsn s0 (Finset.mem_sdiff.mpr ⟨?_, ?_⟩)
      · rw [hsafesE]
        exact Finset.mem_union_right _
          (List.mem_toFinset.mpr (List.mem_filter.mpr ⟨hs0k, hs0d⟩))
      · rw [hmvE]
        exact hnm.2.2.2
    · next hflag =>
      rcases Option.bind_eq_some.mp ha with ⟨best, hbest, h2⟩
      split at h2
      · exact absurd h2 (by simp)
      · next htot =>
        rcases hkl : keyList st.knowledge with _ | ⟨k, ks⟩
        · rw [hkl] at hbest
          exact absurd hbest (by simp [minCountCell])
        · rw [hkl] at hbest
          have hbesteq : minByKey
              (histCount (possibleConfigurations st.knowledge)) k ks
                = best := by
            simpa [minCountCell] using hbest
          have hbmem : best ∈ keyList st.knowledge := by
            rw [hkl, ← hbesteq]
            exact (minByKey_min _ k ks).1
          have hbment : best ∈ mentionedCells st.knowledge :=
            (mem_keyList _ _).mp hbmem
          have hbnm := mentioned_not_marked hinv hbment
          have hknne : ¬ mk.1.knowledge = [] := by
            intro h0
            rw [h0] at hklenE
            exact hkn (List.length_eq_zero.mp hklenE.symm)
          unfold SolverState.choose_uncertain_move at h2
          simp only [] at h2
          split at h2
          · exact absurd h2 (by simp)
          · next hut0 =>
            split at h2
            · next hcond =>
              have hst1 := Option.some_inj.mp h2
              have hknow1 : st1.knowledge = mk.1.knowledge := by rw [← hst1]
              have hnu1 : st1.next_uncertain_move = some best := by rw [← hst1]
              have hmines1 : st1.mines = mk.1.mines := by rw [← hst1]
              have hne1 : ¬ st1.knowledge = [] := by
                rw [hknow1]
                exact hknne
              unfold SolverState.make_uncertain_move at hmu
              rw [if_neg hne1, hnu1] at hmu
              have hc : best = c := by simpa using hmu
              rw [hwE, hhE, hamE, hmvE, hminesE] at hcond
              by_cases hbt : histCount (possibleConfigurations st.knowledge)
                  best = Multiset.card (possibleConfigurations st.knowledge)
              · exfalso
                rcases hcond with hrisk | hcard
                · have htotQ : ((Multiset.card
                      (possibleConfigurations st.knowledge) : ℕ) : ℚ) ≠ 0 :=
                    Nat.cast_ne_zero.mpr htot
                  rw [hbt, div_self htotQ] at hrisk
                  have hm1sub : st.mines ∪ ((keyList st.knowledge).filter
                      (fun x => decide (¬ histCount
                        (possibleConfigurations st.knowledge) x = 0 ∧
                        histCount (possibleConfigurations st.knowledge) x =
                        Multiset.card (possibleConfigurations
                          st.knowledge)))).toFinset ⊆ M := by
                    apply Finset.union_subset hinv.2.2.2.1
                    intro x hx
                    have hmf := List.mem_filter.mp (List.mem_toFinset.mp hx)
                    have hdec := of_decide_eq_true hmf.2
                    have hxm : x ∈ mentionedCells st.knowledge :=
                      (mem_keyList _ _).mp hmf.1
                    exact (hist_facts M st.knowledge htruth x hxm).2.1 hdec.2
                  have hest := est_lt_one hinv hu huM humv hm1sub
                    (Finset.subset_union_left)
                  linarith
                · have hutc := unknown_tile_card hinv hu
                  have hcards : ((solverGridCells st \ st.moves_made).card : ℤ)
                      = ((mentionedCells st.knowledge).card : ℤ) := by
                    rw [← hutc]
                    exact hcard
                  have hsubm : mentionedCells st.knowledge ⊆
                      solverGridCells st \ st.moves_made := by
                    intro x hx
                    have h := mentioned_not_marked hinv hx
                    exact Finset.mem_sdiff.mpr
                      ⟨(mem_solverGridCells st x).mpr h.1, h.2.2.2⟩
                  have hmeq : mentionedCells st.knowledge =
                      solverGridCells st \ st.moves_made :=
                    Finset.eq_of_subset_of_card_le hsubm
                      (le_of_eq (Nat.cast_injective hcards))
                  have humem : u ∈ mentionedCells st.knowledge := by
                    rw [hmeq]
                    exact Finset.mem_sdiff.mpr
                      ⟨(mem_solverGridCells st u).mpr hu, humv⟩
                  have hukey : u ∈ keyList st.knowledge :=
                    (mem_keyList _ _).mpr humem
                  rw [hkl] at hukey
                  have hmin := (minByKey_min (histCount
                    (possibleConfigurations st.knowledge)) k ks).2 u hukey
                  rw [hbesteq, hbt] at hmin
                  have htc := trueCfg_mem M st.knowledge htruth
                  have hunm : u ∉ M ∩ mentionedCells st.knowledge :=
                    fun hx => huM (Finset.mem_inter.mp hx).1
                  have hultt := histCount_lt htc hunm
                  omega
              · rw [hmines1, hminesE]
                intro hmem
                rcases Finset.mem_union.mp hmem with h | h
                · exact hbnm.2.1 (hc ▸ h)
                · have hmf := List.mem_filter.mp (List.mem_toFinset.mp h)
                  have hdec := of_decide_eq_true hmf.2
                  refine hbt ?_
                  rw [hc]
                  exact hdec.2
            · next hncond =>
              rcases hf : List.find?
                  (fun x => decide (x ∉ mk.1.moves_made ∧
                    x ∉ mentionedCells st.knowledge)) mk.1.gridScan
                  with _ | c2
              · exfalso
                rw [gridScan_congr hwE hhE, hmvE] at hf
                have hscan : ∀ x ∈ st.gridScan, ¬ (x ∉ st.moves_made ∧
                    x ∉ mentionedCells st.knowledge) := by
                  intro x hx
                  have := List.find?_eq_none.mp hf x hx
                  simpa using this
                have hmeq := scan_none_mentioned hinv hscan
                have hutc := unknown_tile_card hinv hu
                rw [hwE, hhE, hmvE] at hncond
                push_neg at hncond
                exact hncond.2 (by rw [hutc, hmeq])
              · rw [hf] at h2
                have hst1 := Option.some_inj.mp h2
                have hknow1 : st1.knowledge = mk.1.knowledge := by rw [← hst1]
                have hnu1 : st1.next_uncertain_move = some c2 := by
                  rw [← hst1]
                have hmines1 : st1.mines = mk.1.mines := by rw [← hst1]
                have hne1 : ¬ st1.knowledge = [] := by
                  rw [hknow1]
                  exact hknne
                unfold SolverState.make_uncertain_move at hmu
                rw [if_neg hne1, hnu1] at hmu
                have hc : c2 = c := by simpa using hmu
                have hp := List.find?_some hf
                simp only [decide_eq_true_eq] at hp
                rw [hmvE] at hp
                rw [hmines1, hminesE]
                intro hmem
                rcases Finset.mem_union.mp hmem with h | h
                · refine hp.1 ?_
                  rw [hc]
                  exact hflagged h
                · have hmf := List.mem_filter.mp (List.mem_toFinset.mp h)
                  refine hp.2 ?_
                  rw [hc]
                  exact (mem_keyList _ _).mp hmf.1

theorem probtheory_uncertain_safe {strat : Strategy} {M : Finset Cell}
    {st st1 : SolverState} (hinv : SolverInv strat M st) {u : Cell}
    (hu : inSolverGrid st u) (huM : u ∉ M) (humv : u ∉ st.moves_made)
    (hflagged : st.mines ⊆ st.moves_made)
    (ha : analyze_knowledge_probtheory st = some st1)
    (hsn : st1.make_safe_move = none) {c : Cell}
    (hmu : st1.make_uncertain_move = some c) : c ∉ st1.mines := by
  unfold analyze_knowledge_probtheory at ha
  simp only [] at ha
  split at ha
  · next hknil =>
    cases Option.some_inj.mp ha
    exact uncertain_nil_safe hinv hu huM humv hknil hmu
  · next hkn =>
    rw [probTheoryMarkLoop_id] at ha
    split at ha
    · next hflag => exact absurd hflag Bool.false_ne_true
    · rcases Option.bind_eq_some.mp ha with ⟨f2, hf2, h2⟩
      rcases Option.bind_eq_some.mp h2 with ⟨best, hbest, h3⟩
      rcases hkl : keyList st.knowledge with _ | ⟨k, ks⟩
      · rw [hkl] at hbest
        exact absurd hbest (by simp [minProbCell])
      · rw [hkl] at hbest
        have hbesteq : minByKeyQ (fun x => (f2 x).prob) k ks = best := by
          simpa [minProbCell] using hbest
        have hbmem : best ∈ keyList st.knowledge := by
          rw [hkl, ← hbesteq]
          exact minByKeyQ_mem _ k ks
        have hbment : best ∈ mentionedCells st.knowledge :=
          (mem_keyList _ _).mp hbmem
        have hbnm := mentioned_not_marked hinv hbment
        have h4 : st.choose_uncertain_move best (f2 best).prob
            (mentionedCells st.knowledge) = some st1 := h3
        unfold SolverState.choose_uncertain_move at h4
        simp only [] at h4
        split at h4
        · exact absurd h4 (by simp)
        · next hut0 =>
          split at h4
          · next hcond =>
            have hst1 := Option.some_inj.mp h4
            have hknow1 : st1.knowledge = st.knowledge := by rw [← hst1]
            have hnu1 : st1.next_uncertain_move = some best := by rw [← hst1]
            have hmines1 : st1.mines = st.mines := by rw [← hst1]
            have hne1 : ¬ st1.knowledge = [] := by
              rw [hknow1]
              exact hkn
            unfold SolverState.make_uncertain_move at hmu
            rw [if_neg hne1, hnu1] at hmu
            have hc : best = c := by simpa using hmu
            rw [hmines1, ← hc]
            exact hbnm.2.1
          · next hncond =>
            rcases hf : List.find? (fun x => decide (x ∉ st.moves_made ∧
                x ∉ mentionedCells st.knowledge)) st.gridScan with _ | c2
            · exfalso
              have hscan : ∀ x ∈ st.gridScan, ¬ (x ∉ st.moves_made ∧
                  x ∉ mentionedCells st.knowledge) := by
                intro x hx
                have := List.find?_eq_none.mp hf x hx
                simpa using this
              have hmeq := scan_none_mentioned hinv hscan
              have hutc := unknown_tile_card hinv hu
              push_neg at hncond
              exact hncond.2 (by rw [hutc, hmeq])
            · rw [hf] at h4
              have hst1 := Option.some_inj.mp h4
              have hknow1 : st1.knowledge = st.knowledge := by rw [← hst1]
              have hnu1 : st1.next_uncertain_move = some c2 := by rw [← hst1]
              have hmines1 : st1.mines = st.mines := by rw [← hst1]
              have hne1 : ¬ st1.knowledge = [] := by
                rw [hknow1]
                exact hkn
              unfold SolverState.make_uncertain_move at hmu
              rw [if_neg hne1, hnu1] at hmu
              have hc : c2 = c := by simpa using hmu
              have hp := List.find?_some hf
              simp only [decide_eq_true_eq] at hp
              rw [hmines1]
              intro hmem
              refine hp.1 ?_
              rw [hc]
              exact hflagged hmem

theorem setbased_uncertain_safe {M : Finset Cell} {st st1 : SolverState}
    (hinv : SolverInv Strategy.setBased M st) {u : Cell}
    (hu : inSolverGrid st u) (huM : u ∉ M) (humv : u ∉ st.moves_made)
    (hflagged : st.mines ⊆ st.moves_made)
    (ha : analyze_knowledge_setbased st = some st1)
    (hsn : st1.make_safe_move = none) {c : Cell}
    (hmu : st1.make_uncertain_move = some c) : c ∉ st1.mines := by
  unfold analyze_knowledge_setbased at ha
  simp only [] at ha
  have hinv2 : SolverInv Strategy.setBased M st.remove_null_sentence :=
    inv_remove_null hinv
  split at ha
  · next hgm1 =>
    exact genconfig_uncertain_safe hinv2 hu huM humv hflagged ha hsn hmu
  · next hgm1 =>
    split at ha
    · next hgm2 =>
      exact probtheory_uncertain_safe hinv2 hu huM humv hflagged ha hsn hmu
    · next hgm2 =>
      cases Option.some_inj.mp ha
      by_cases hknil : st.remove_null_sentence.knowledge = []
      · exact uncertain_nil_safe hinv2 hu huM humv hknil hmu
      · have hnu : st.next_uncertain_move = none :=
          hinv.2.2.2.2.2.2 ⟨rfl, hgm1, hgm2⟩
        unfold SolverState.make_uncertain_move at hmu
        rw [if_neg hknil] at hmu
        have hcon : (none : Option Cell) = some c := by
          rw [← hnu]
          exact hmu
        exact absurd hcon (by simp)

theorem analyze_uncertain_safe {strat : Strategy} {M : Finset Cell}
    {st st1 : SolverState} (hinv : SolverInv strat M st) {u : Cell}
    (hu : inSolverGrid st u) (huM : u ∉ M) (humv : u ∉ st.moves_made)
    (hflagged : st.mines ⊆ st.moves_made)
    (ha : analyze_knowledge strat st = some st1)
    (hsn : st1.make_safe_move = none) {c : Cell}
    (hmu : st1.make_uncertain_move = some c) : c ∉ st1.mines := by
  cases strat with
  | genConfig =>
    exact genconfig_uncertain_safe hinv hu huM humv hflagged ha hsn hmu
  | probTheory =>
    exact probtheory_uncertain_safe hinv hu huM humv hflagged ha hsn hmu
  | setBased =>
    exact setbased_uncertain_safe hinv hu huM humv hflagged ha hsn hmu

/-- C10: in every solver state reachable by a sequence of `add_knowledge`
and `make_move` calls during one game against the mine set `M` — while
the game is still undecided, i.e. some on-board non-mine cell `u` is
still unplayed — whenever `make_move` returns a revealed cell together
with action code 1, that cell is not in the solver's `mines` set: the
agent never chooses to reveal, either as a safe move or as an uncertain
guess, a cell it has already deduced to be a mine. -/
theorem C10_reveal_never_known_mine {strat : Strategy} {M : Finset Cell}
    {st : SolverState} (hreach : GameReachable strat M st) {u : Cell}
    (hu : u ∈ solverGridCells st) (huM : u ∉ M) (humv : u ∉ st.moves_made)
    {c : Cell} {st2 : SolverState}
    (hmv : make_move strat st = some (some c, 1, st2)) :
    c ∉ st2.mines := by
  have hinv := reachable_inv hreach
  have hu' : inSolverGrid st u := (mem_solverGridCells st u).mp hu
  unfold make_move at hmv
  simp only [] at hmv
  split at hmv
  · next m hfind =>
    exact absurd (congrArg (fun t => t.2.1) (Option.some_inj.mp hmv)
      : (3 : ℤ) = 1) (by decide)
  · next hfind =>
    have hflagged : st.mines ⊆ st.moves_made := by
      intro m hm
      have h := List.find?_eq_none.mp hfind m ((mem_sortedCells _ _).mpr hm)
      simp only [decide_eq_true_eq] at h
      exact not_not.mp h
    rcases Option.bind_eq_some.mp hmv with ⟨st1, h1, h2⟩
    have hinv1 : SolverInv strat M st1 := by
      split at h1
      · exact (inv_analyze hinv h1).1
      · cases Option.some_inj.mp h1
        exact hinv
    split at h2
    · next c' hsafe =>
      have hp := Option.some_inj.mp h2
      have hcc : some c' = some c := congrArg (fun t => t.1) hp
      have hst2 : st1 = st2 := congrArg (fun t => t.2.2) hp
      have hc : c' = c := by simpa using hcc
      have hmem := make_safe_move_mem hsafe
      have hcM : c' ∉ M := hinv1.2.2.2.2.1 c' hmem.1
      rw [← hst2, ← hc]
      intro hmm
      exact hcM (hinv1.2.2.2.1 hmm)
    · next hsn =>
      have hp := Option.some_inj.mp h2
      have hmu : st1.make_uncertain_move = some c :=
        congrArg (fun t => t.1) hp
      have hst2 : ({ st1 with guess := st1.guess + 1 } : SolverState) = st2 :=
        congrArg (fun t => t.2.2) hp
      have hm2 : st2.mines = st1.mines := by rw [← hst2]
      rw [hm2]
      have hcases : analyze_knowledge strat st = some st1 ∨
          (st1 = st ∧ ¬ st.make_safe_move.isNone = true) := by
        split at h1
        · next hiN => exact Or.inl h1
        · next hiN => exact Or.inr ⟨(Option.some_inj.mp h1).symm, hiN⟩
      rcases hcases with hana | ⟨heq, hiN⟩
      · exact analyze_uncertain_safe hinv hu' huM humv hflagged hana hsn hmu
      · exfalso
        rw [heq] at hsn
        exact hiN (Option.isNone_iff_eq_none.mpr hsn)

theorem C10_reveal_never_known_mine_witness :
    make_move Strategy.genConfig (initSolver 2 2 0 0) =
      some (some ((0 : ℤ), (0 : ℤ)), 1,
        { initSolver 2 2 0 0 with guess := 0 }) ∧
    ((0 : ℤ), (0 : ℤ)) ∉
      ({ initSolver 2 2 0 0 with guess := 0 } : SolverState).mines := by
  constructor
  · decide
  · exact C10_reveal_never_known_mine
      ((GameReachable.init 2 2 0 0 (by decide) (by decide)) :
        GameReachable Strategy.genConfig (∅ : Finset Cell)
          (initSolver 2 2 0 0))
      (u := ((0 : ℤ), (0 : ℤ))) (by decide) (by decide) (by decide)
      (by decide)

end Minesweeper
